import Mathlib

/-!
The program srek (Structural RegEx Kit): a shallow embedding of `srek.c`.

The selection engine and the buffer rewriting commands of `srek.c` are
translated function by function.  Conventions of the embedding:

* a byte (`char`) is a natural number, `0` being the NUL terminator;
* `size_t` values are naturals reduced modulo `2^64` after every operation,
  `unsigned int` values modulo `2^32`;
* a linked list of `Intval` nodes is a `List Intval`; a pointer to a node that
  is only read through (`lastsel`, `*lastintv`) is an `Option Intval`, `none`
  being `NULL`;
* a command returns `none` where the C code dereferences `NULL` or where the
  iteration budget of a regex loop is used up.
-/

namespace Srek

/-- One `char` of the buffer. -/
abbrev Byte := Nat

/-- Number of values of a `size_t` (64 bit). -/
abbrev SIZE_MOD : Nat := 18446744073709551616

/-- Number of values of an `unsigned int` (32 bit). -/
abbrev UINT_MOD : Nat := 4294967296

/-- Addition of two `size_t` values. -/
def szadd (a b : Nat) : Nat := (a + b) % SIZE_MOD

/-- Subtraction of two `size_t` values (wraps around below zero). -/
def szsub (a b : Nat) : Nat := (a + (SIZE_MOD - b % SIZE_MOD)) % SIZE_MOD

/-- Multiplication of two `size_t` values. -/
def szmul (a b : Nat) : Nat := (a * b) % SIZE_MOD

/-- Addition of two `unsigned int` values. -/
def uadd (a b : Nat) : Nat := (a + b) % UINT_MOD

/-- The node type `Intval` of the source: a byte range `(from, len)`. -/
structure Intval where
  from_ : Nat
  len : Nat
deriving DecidableEq, Repr

/-- The kinds of command, `CmdId` of the source, in table order. -/
inductive CmdId where
  | CMD_PRINT | CMD_DELETE | CMD_CHANGE | CMD_SUB | CMD_GUARD | CMD_VGUARD
  | CMD_XTRACT | CMD_YTRACT | CMD_INSERT | CMD_APPEND | CMD_SURROUND | CMD_FLIP
  | CMD_UNDOX | CMD_READ | CMD_READAPP | CMD_WRITE | CMD_WRITEAPP | CMD_EXTCMD
  | CMD_EXTCMD_I | CMD_EXTCMD_O | CMD_EXTCMD_IO | CMD_EXTCMD_T | CMD_EXTCMD_TN
  | CMD_LINES
deriving DecidableEq, Repr

/-- A compiled `regex_t`, seen through `regexec`: applied to a C string it
reports no match (`none`) or the offsets `(rm_so, rm_eo)` of `pmatch[0]`. -/
abbrev Regex := List Byte → Option (Nat × Nat)

/-- The record `Cmd` of the source (without the `next` link): an absent
argument is the `NULL` pointer, an absent regex the `NULL` regex. -/
structure Cmd where
  id : CmdId
  args : List (Option (List Byte))
  regex : Option Regex

/-- The argument `cmd->args[i]`. -/
def Cmd.arg (cmd : Cmd) (i : Nat) : Option (List Byte) := (cmd.args.get? i).join

/-- The globals `buffer`, `buflen`, `sels` and `lastsel`, plus the bytes
written to standard output so far. -/
structure State where
  buffer : List Byte
  buflen : Nat
  sels : List Intval
  lastsel : Option Intval
  out : List Byte
deriving DecidableEq, Repr

/-- The length `strlen` of an argument, as in `tostr ? strlen(tostr) : 0`. -/
def arglen (s : Option (List Byte)) : Nat :=
  match s with
  | none => 0
  | some str => str.length

/-- The bytes of an argument (nothing for `NULL`). -/
def argbytes (s : Option (List Byte)) : List Byte :=
  match s with
  | none => []
  | some str => str

/-- The function `addintv(from, len, &list, &last)`: a new node is linked behind the tail
of the list; `last` then designates it, that is the final element. -/
def addintv (from_ len : Nat) (list : List Intval) : List Intval :=
  list ++ [⟨from_, len⟩]

/-- The function `cleanupsels`: the list is released, both pointers are `NULL`. -/
def cleanupsels (st : State) : State :=
  { st with sels := [], lastsel := none }

/-- The loop of `flipintvals` over the pairs `(previntv, intv)` of neighbours:
`start = previntv->from + previntv->len`, `end = intv->from - 1`, and the gap
is added when `start <= end`, with length `end - start + 1`. -/
def flipGaps : Intval → List Intval → List Intval → List Intval
  | _, [], newintvs => newintvs
  | previntv, intv :: rest, newintvs =>
    let start := szadd previntv.from_ previntv.len
    let end_ := szsub intv.from_ 1
    flipGaps intv rest
      (if start ≤ end_ then addintv start (szadd (szsub end_ start) 1) newintvs else newintvs)

/-- The function `flipintvals(bound, &intvs, &lastintv)`: the new list
`newintvs`; the new `*lastintv` is its final element.  `none` when `*lastintv`
is `NULL` where the code reads through it. -/
def flipintvals (bound : Intval) (intvs : List Intval) (lastintv : Option Intval) :
    Option (List Intval) :=
  match intvs with
  | [] => some (addintv bound.from_ bound.len [])
  | first :: rest =>
    if first.from_ = bound.from_ ∧ first.len = bound.len then some []
    else
      let start := bound.from_
      let end_ := first.from_
      let new1 := if bound.from_ < first.from_ then addintv start (szsub end_ start) [] else []
      let new2 := flipGaps first rest new1
      match lastintv with
      | none => none
      | some last =>
        let start := szadd last.from_ last.len
        let end_ := szsub (szadd bound.from_ bound.len) 1
        some (if start < end_ then addintv start (szsub end_ start) new2 else new2)

/-- The command `~`, `cmd_flip`: flip against the bound `(0, buflen)`. -/
def cmd_flip (st : State) : Option State :=
  match flipintvals ⟨0, st.buflen⟩ st.sels st.lastsel with
  | none => none
  | some newintvs => some { st with sels := newintvs, lastsel := newintvs.getLast? }

/-- The bytes `buffer[from .. from + len)`. -/
def slice (buffer : List Byte) (from_ len : Nat) : List Byte :=
  (buffer.drop from_).take len

/-- The call `memcpy(newbuffer + inew, src + off, n)`, the new buffer being
represented by the bytes written so far (`inew` of them). -/
def memcpy (newbuffer src : List Byte) (off n : Nat) : List Byte :=
  newbuffer ++ slice src off n

/-- The buffer while `buffer[end_] = '\0'` is in force (the byte is put back
afterwards).  `buffer` holds the `buflen` bytes of the document; the byte
behind them, which the source allocates as well, is only ever read after it
has been set to NUL in this way. -/
def patched (buffer : List Byte) (end_ : Nat) : List Byte :=
  buffer.take end_ ++ [0] ++ buffer.drop (end_ + 1)

/-- The C string at `buffer + pos` while `buffer[end_] = '\0'` is in force:
the bytes from `pos` up to the first NUL. -/
def cstrAt (buffer : List Byte) (pos end_ : Nat) : List Byte :=
  ((patched buffer end_).drop pos).takeWhile (fun b => b ≠ 0)

/-- The byte `*str` for `str = buffer + pos` while `buffer[end_] = '\0'` is in force. -/
def charAt (buffer : List Byte) (pos end_ : Nat) : Byte :=
  (patched buffer end_).getD pos 0

/-- The command `p`, `cmd_print`: every selection is written to standard output. -/
def cmd_print (st : State) : State :=
  { st with out := st.sels.foldl (fun o sel => o ++ slice st.buffer sel.from_ sel.len) st.out }

/-- First loop of `cmd_change`: `newbuflen += (tostrlen - sel->len)` for every selection. -/
def changeNewlen (tostrlen : Nat) : List Intval → Nat → Nat
  | [], newbuflen => newbuflen
  | sel :: rest, newbuflen => changeNewlen tostrlen rest (szadd newbuflen (szsub tostrlen sel.len))

/-- Copy loop of `cmd_change`, the result being
`(iold, inew, newbuffer)`.  An iteration that copies the bytes before the
target sets `iold` to its start, so that the following iteration replaces the
same target: the two are one step here. -/
def copyLoop (buffer tostr : List Byte) (tostrlen : Nat) :
    List Intval → Nat → Nat → List Byte → Nat × Nat × List Byte
  | [], iold, inew, newbuffer => (iold, inew, newbuffer)
  | sel :: rest, iold, inew, newbuffer =>
    if iold < sel.from_ then
      let newbuffer1 := memcpy newbuffer buffer iold (szsub sel.from_ iold)
      let inew1 := szadd inew (szsub sel.from_ iold)
      let iold1 := sel.from_
      copyLoop buffer tostr tostrlen rest (szadd iold1 sel.len) (szadd inew1 tostrlen)
        (memcpy newbuffer1 tostr 0 tostrlen)
    else
      copyLoop buffer tostr tostrlen rest (szadd iold sel.len) (szadd inew tostrlen)
        (memcpy newbuffer tostr 0 tostrlen)

/-- The tail copy `if (inew < newbuflen) memcpy(newbuffer + inew, buffer + iold, buflen - iold)`. -/
def copyTail (buffer : List Byte) (buflen newbuflen : Nat) (r : Nat × Nat × List Byte) : List Byte :=
  if r.2.1 < newbuflen then memcpy r.2.2 buffer r.1 (szsub buflen r.1) else r.2.2

/-- The command `c`, `cmd_change`. -/
def cmd_change (st : State) (cmd : Cmd) : State :=
  let tostr := cmd.arg 0
  let tostrlen := arglen tostr
  let newbuflen := changeNewlen tostrlen st.sels st.buflen
  if newbuflen = 0 then
    cleanupsels { st with buffer := [], buflen := 0 }
  else
    let newbuffer := copyTail st.buffer st.buflen newbuflen
      (copyLoop st.buffer (argbytes tostr) tostrlen st.sels 0 0 [])
    { st with buffer := newbuffer, buflen := newbuflen,
              sels := addintv 0 newbuflen [], lastsel := some ⟨0, newbuflen⟩ }

/-- The command `d`, `cmd_delete`: `cmd_change` with the empty string. -/
def cmd_delete (st : State) : State :=
  cmd_change st ⟨CmdId.CMD_CHANGE, [some []], none⟩

/-- The pattern `^`. -/
def PAT_START : List Byte := [94]

/-- The pattern `$`. -/
def PAT_END : List Byte := [36]

/-- The pattern `^$`. -/
def PAT_EMPTY : List Byte := [94, 36]

/-- The per-selection variables of `cmd_sub`: the match list shared by all
selections, `matchcnt_sel` and `replacedlen_sel`. -/
structure SubAcc where
  matchintvs : List Intval
  matchcnt_sel : Nat
  replacedlen_sel : Nat
deriving DecidableEq, Repr

/-- The `while (regexec(...) == 0)` loop of `cmd_sub`, `pos` being `str - buffer`. -/
def subLoop : Nat → Regex → List Byte → Nat → Nat → SubAcc → Option SubAcc
  | 0, _, _, _, _, _ => none
  | fuel + 1, regex, buffer, pos, end_, acc =>
    match regex (cstrAt buffer pos end_) with
    | none => some acc
    | some (so, eo) =>
      let intv : Intval := ⟨szadd pos so, szsub eo so⟩
      let acc1 : SubAcc := ⟨addintv intv.from_ intv.len acc.matchintvs,
        uadd acc.matchcnt_sel 1, szadd acc.replacedlen_sel intv.len⟩
      if charAt buffer (pos + eo) end_ = 0 then some acc1
      else subLoop fuel regex buffer (pos + eo) end_ acc1

/-- The matching of one selection in `cmd_sub`: the three anchor patterns are
special cases, every other pattern is run through `regexec`.  `strcmp` on a
`NULL` pattern and `regexec` on a `NULL` regex are failures. -/
def subMatch (fuel : Nat) (cmd : Cmd) (buffer : List Byte) (sel : Intval)
    (matchintvs : List Intval) : Option SubAcc :=
  match cmd.arg 0 with
  | none => none
  | some pat =>
    if pat = PAT_START then
      some ⟨addintv sel.from_ 0 matchintvs, 1, 0⟩
    else if pat = PAT_END then
      some ⟨addintv (szadd sel.from_ sel.len) 0 matchintvs, 1, 0⟩
    else if pat = PAT_EMPTY then
      if sel.len = 0 then some ⟨addintv sel.from_ 0 matchintvs, 1, szadd 0 0⟩
      else some ⟨matchintvs, 0, 0⟩
    else
      match cmd.regex with
      | none => none
      | some regex =>
        subLoop fuel regex buffer sel.from_ (szadd sel.from_ sel.len) ⟨matchintvs, 0, 0⟩

/-- The variables of `cmd_sub` that live across selections. -/
structure SubState where
  matchintvs : List Intval
  matchcnt : Nat
  replacedlen : Nat
  newseloffs : Nat
  newsels : List Intval
deriving DecidableEq, Repr

/-- The loop of `cmd_sub` over the selections: matches are collected and the
selection is rewritten in place (`newsels` are the nodes already rewritten). -/
def subSels (fuel : Nat) (cmd : Cmd) (buffer : List Byte) (tostrlen : Nat) :
    List Intval → SubState → Option SubState
  | [], s => some s
  | sel :: rest, s =>
    match subMatch fuel cmd buffer sel s.matchintvs with
    | none => none
    | some acc =>
      let offs := szsub (szmul acc.matchcnt_sel tostrlen) acc.replacedlen_sel
      subSels fuel cmd buffer tostrlen rest
        { matchintvs := acc.matchintvs,
          matchcnt := uadd s.matchcnt acc.matchcnt_sel,
          replacedlen := szadd s.replacedlen acc.replacedlen_sel,
          newseloffs := szadd s.newseloffs offs,
          newsels := s.newsels ++ [⟨szadd sel.from_ s.newseloffs, szadd sel.len offs⟩] }

/-- Copy loop of `cmd_sub`: as `copyLoop`, the replacement being copied only
`if (tostrlen != 0)`. -/
def subCopyLoop (buffer tostr : List Byte) (tostrlen : Nat) :
    List Intval → Nat → Nat → List Byte → Nat × Nat × List Byte
  | [], iold, inew, newbuffer => (iold, inew, newbuffer)
  | intv :: rest, iold, inew, newbuffer =>
    if iold < intv.from_ then
      let newbuffer1 := memcpy newbuffer buffer iold (szsub intv.from_ iold)
      let inew1 := szadd inew (szsub intv.from_ iold)
      let iold1 := intv.from_
      if tostrlen ≠ 0 then
        subCopyLoop buffer tostr tostrlen rest (szadd iold1 intv.len) (szadd inew1 tostrlen)
          (memcpy newbuffer1 tostr 0 tostrlen)
      else
        subCopyLoop buffer tostr tostrlen rest (szadd iold1 intv.len) inew1 newbuffer1
    else
      if tostrlen ≠ 0 then
        subCopyLoop buffer tostr tostrlen rest (szadd iold intv.len) (szadd inew tostrlen)
          (memcpy newbuffer tostr 0 tostrlen)
      else
        subCopyLoop buffer tostr tostrlen rest (szadd iold intv.len) inew newbuffer

/-- The command `s`, `cmd_sub`; `fuel` bounds the iterations of each match
loop.  The selections are rewritten in place: `lastsel`, when it designates
the final node, designates the rewritten final node afterwards. -/
def cmd_sub (fuel : Nat) (st : State) (cmd : Cmd) : Option State :=
  let tostr := cmd.arg 1
  let tostrlen := arglen tostr
  if cmd.regex.isNone ∧
      (cmd.arg 0 = none ∨ (cmd.arg 0 ≠ some PAT_START ∧ cmd.arg 0 ≠ some PAT_END)) then
    some st
  else
    match subSels fuel cmd st.buffer tostrlen st.sels ⟨[], 0, 0, 0, []⟩ with
    | none => none
    | some s =>
      let st1 := { st with
        sels := s.newsels,
        lastsel := if st.lastsel = st.sels.getLast? then s.newsels.getLast? else st.lastsel }
      if s.matchcnt = 0 then some st1
      else
        let newbuflen := szadd (szsub st.buflen s.replacedlen) (szmul s.matchcnt tostrlen)
        let newbuffer := copyTail st.buffer st.buflen newbuflen
          (subCopyLoop st.buffer (argbytes tostr) tostrlen s.matchintvs 0 0 [])
        some { st1 with buffer := newbuffer, buflen := newbuflen }

/-- The command `i`, `cmd_insert`: `cmd_sub` on the proxy command `{"^", prefix}` without regex. -/
def cmd_insert (fuel : Nat) (st : State) (cmd : Cmd) : Option State :=
  cmd_sub fuel st ⟨CmdId.CMD_SUB, [some PAT_START, cmd.arg 0], none⟩

/-- The command `a`, `cmd_append`: `cmd_sub` on the proxy command `{"$", suffix}` without regex. -/
def cmd_append (fuel : Nat) (st : State) (cmd : Cmd) : Option State :=
  cmd_sub fuel st ⟨CmdId.CMD_SUB, [some PAT_END, cmd.arg 0], none⟩

/-- The command `S`, `cmd_surround`: `cmd_insert` on `args[0]`, then `cmd_append` on `args[1]`. -/
def cmd_surround (fuel : Nat) (st : State) (cmd : Cmd) : Option State :=
  (cmd_insert fuel st ⟨CmdId.CMD_INSERT, [cmd.arg 0], none⟩).bind
    (fun st1 => cmd_append fuel st1 ⟨CmdId.CMD_APPEND, [cmd.arg 1], none⟩)

/-- The `while (regexec(...) == 0)` loop of `xtractinternal`, `pos` being
`str - buffer`: a match with `rm_eo == 0` is not stored, the cursor moving on
by one byte unless it is at the end; every other match is stored. -/
def xtractLoop : Nat → Regex → List Byte → Nat → Nat → List Intval → Option (List Intval)
  | 0, _, _, _, _, _ => none
  | fuel + 1, regex, buffer, pos, end_, matchintvs =>
    match regex (cstrAt buffer pos end_) with
    | none => some matchintvs
    | some (so, eo) =>
      if eo = 0 then
        if charAt buffer pos end_ ≠ 0 then xtractLoop fuel regex buffer (pos + 1) end_ matchintvs
        else some matchintvs
      else
        xtractLoop fuel regex buffer (pos + eo) end_ (addintv (szadd pos so) (szsub eo so) matchintvs)

/-- The list `matchintvs` of `xtractinternal` for the selection `sel`, after
the optional flip against `sel`. -/
def xtractMatches (fuel : Nat) (regex : Option Regex) (buffer : List Byte) (sel : Intval)
    (negated : Bool) : Option (List Intval) :=
  let found :=
    match regex with
    | none => some []
    | some re => xtractLoop fuel re buffer sel.from_ (szadd sel.from_ sel.len) []
  match found with
  | none => none
  | some matchintvs =>
    if negated then flipintvals sel matchintvs matchintvs.getLast? else some matchintvs

/-- The function `xtractinternal(regex, &prevsel, sel, negated)`.  `done` are
the nodes from `sels` up to `*prevsel` (none when `*prevsel` is `NULL`); the
result are the nodes from `sels` up to the returned node, which is their
final element (`NULL` when there is none), the nodes behind still being
`sel->next`. -/
def xtractinternal (fuel : Nat) (regex : Option Regex) (buffer : List Byte)
    (done : List Intval) (sel : Intval) (negated : Bool) : Option (List Intval) :=
  match xtractMatches fuel regex buffer sel negated with
  | none => none
  | some matchintvs =>
    if matchintvs = [sel] then some (done ++ [sel])
    else some (done ++ matchintvs)

/-- The loop `for (sel = sels; sel != NULL;)` of `cmd_xtract` and `cmd_ytract`,
the result being `(sels, prevsel)`: after `prevsel = xtractinternal(...)` the
next selection is `prevsel ? prevsel->next : NULL`. -/
def xtractSels (fuel : Nat) (regex : Option Regex) (buffer : List Byte) (negated : Bool) :
    List Intval → List Intval → Option (List Intval × Option Intval)
  | done, [] => some (done, done.getLast?)
  | done, sel :: nextsel =>
    match xtractinternal fuel regex buffer done sel negated with
    | none => none
    | some done1 =>
      match done1.getLast? with
      | none => some (done1 ++ nextsel, none)
      | some _ => xtractSels fuel regex buffer negated done1 nextsel

/-- The test of `cmd_xtract` and `cmd_ytract` for a pattern that only has
zero length matches: no argument, `^`, `$` or `^$`. -/
def zeroLengthPattern (cmd : Cmd) : Bool :=
  cmd.arg 0 = none ∨ cmd.arg 0 = some PAT_START ∨ cmd.arg 0 = some PAT_END
    ∨ cmd.arg 0 = some PAT_EMPTY

/-- The command `x`, `cmd_xtract`. -/
def cmd_xtract (fuel : Nat) (st : State) (cmd : Cmd) : Option State :=
  if zeroLengthPattern cmd then some (cleanupsels st)
  else
    match xtractSels fuel cmd.regex st.buffer false [] st.sels with
    | none => none
    | some (sels, prevsel) => some { st with sels := sels, lastsel := prevsel }

/-- The command `y`, `cmd_ytract`. -/
def cmd_ytract (fuel : Nat) (st : State) (cmd : Cmd) : Option State :=
  if zeroLengthPattern cmd then some st
  else
    match xtractSels fuel cmd.regex st.buffer true [] st.sels with
    | none => none
    | some (sels, prevsel) => some { st with sels := sels, lastsel := prevsel }

/-- The state at the start of `run`: the buffer with the seed selection `(0, buflen)`. -/
def initState (buffer : List Byte) : State :=
  { buffer := buffer, buflen := buffer.length, sels := addintv 0 buffer.length [],
    lastsel := some ⟨0, buffer.length⟩, out := [] }

/-- A sample `regex_t`: the pattern that is the single literal byte `c`. -/
def litRegex (c : Byte) : Regex := fun str =>
  if str.indexOf c < str.length then some (str.indexOf c, str.indexOf c + 1) else none

/-- A sample `regex_t`: the pattern `c*` (always matches at offset `0`, the
longest run of `c` there). -/
def starRegex (c : Byte) : Regex := fun str =>
  some (0, (str.takeWhile (fun b => b = c)).length)

/-- A sample `regex_t`: the pattern `c*$` (the leftmost match is the longest
run of `c` that ends the string, empty when the string does not end in `c`). -/
def starEndRegex (c : Byte) : Regex := fun str =>
  some (str.length - (str.reverse.takeWhile (fun b => b = c)).length, str.length)

/-- The value of `REG_NOMATCH` in `<regex.h>` (it is `1` in glibc, musl and
the BSD libraries); `0` is the return value of `regexec` for a match. -/
def REG_NOMATCH : Nat := 1

/-- The return value of `regexec(regex, str, ...)`. -/
def regexec (regex : Regex) (str : List Byte) : Nat :=
  match regex str with
  | some _ => 0
  | none => REG_NOMATCH

/-- The test of `guardinternal` that removes a selection:
`(cmd->regex && regexec(cmd->regex, buffer + sel->from, ...)) ==
(negated ? 0 : REG_NOMATCH)`, the `&&` being `1` or `0`. -/
def guardRemoves (regex : Option Regex) (buffer : List Byte) (sel : Intval)
    (negated : Bool) : Bool :=
  let conj : Nat :=
    match regex with
    | none => 0
    | some re =>
      if regexec re (cstrAt buffer sel.from_ (szadd sel.from_ sel.len)) ≠ 0 then 1 else 0
  conj = (if negated then 0 else REG_NOMATCH)

/-- The loop of `guardinternal`: `done` are the nodes from `sels` up to
`prevsel`, that is the selections kept so far. -/
def guardSels (regex : Option Regex) (buffer : List Byte) (negated : Bool) :
    List Intval → List Intval → List Intval
  | done, [] => done
  | done, sel :: rest =>
    if guardRemoves regex buffer sel negated then guardSels regex buffer negated done rest
    else guardSels regex buffer negated (done ++ [sel]) rest

/-- The function `guardinternal(cmd, negated)`; `lastsel` is not assigned.
When the node that `lastsel` points to is removed, the code frees it and
`lastsel` dangles; the state then keeps the value `(from, len)` the node held
when it was freed, so `lastsel` is no element of `sels`, and a later read
through `lastsel` (the tail gap of `flipintvals`) is modelled as reading that
value, whereas the code reads freed memory. -/
def guardinternal (st : State) (cmd : Cmd) (negated : Bool) : State :=
  { st with sels := guardSels cmd.regex st.buffer negated [] st.sels }

/-- The command `g`, `cmd_guard`. -/
def cmd_guard (st : State) (cmd : Cmd) : State := guardinternal st cmd false

/-- The command `v`, `cmd_vguard`. -/
def cmd_vguard (st : State) (cmd : Cmd) : State := guardinternal st cmd true

/-- The command `u`, `cmd_undox`: `cleanupsels`, then the seed selection. -/
def cmd_undox (st : State) : State :=
  { st with sels := addintv 0 st.buflen [], lastsel := some ⟨0, st.buflen⟩ }

/-- The string `LINES_REGX`, `"[^\n]*\n"`. -/
def LINES_REGX : List Byte := [91, 94, 10, 93, 42, 10]

/-- The offset behind the first newline of a string, if it has one. -/
def lineEnd : List Byte → Option Nat
  | [] => none
  | b :: rest => if b = 10 then some 1 else (lineEnd rest).map (fun e => e + 1)

/-- The `regex_t` that `regcomp(&reg, LINES_REGX, 0)` leaves in `reg`, seen
through `regexec`: the leftmost longest match of `[^\n]*\n` starts at offset
`0` and ends behind the first newline; there is none without a newline. -/
def linesRegex : Regex := fun str =>
  (lineEnd str).map (fun eo => (0, eo))

/-- The command `L`, `cmd_lines`: `cmd_xtract` on the proxy command
`{&LINES_REGX, &reg}`. -/
def cmd_lines (fuel : Nat) (st : State) : Option State :=
  cmd_xtract fuel st ⟨CmdId.CMD_XTRACT, [some LINES_REGX], some linesRegex⟩

/-- The call `cmddescs[cmd->id].callback(cmd)` for the commands that only
work on the buffer and the selections; the commands that read or write files
or run processes are outside this embedding (`none`). -/
def callback (fuel : Nat) (st : State) (cmd : Cmd) : Option State :=
  match cmd.id with
  | CmdId.CMD_PRINT => some (cmd_print st)
  | CmdId.CMD_DELETE => some (cmd_delete st)
  | CmdId.CMD_CHANGE => some (cmd_change st cmd)
  | CmdId.CMD_SUB => cmd_sub fuel st cmd
  | CmdId.CMD_GUARD => some (cmd_guard st cmd)
  | CmdId.CMD_VGUARD => some (cmd_vguard st cmd)
  | CmdId.CMD_XTRACT => cmd_xtract fuel st cmd
  | CmdId.CMD_YTRACT => cmd_ytract fuel st cmd
  | CmdId.CMD_INSERT => cmd_insert fuel st cmd
  | CmdId.CMD_APPEND => cmd_append fuel st cmd
  | CmdId.CMD_SURROUND => cmd_surround fuel st cmd
  | CmdId.CMD_FLIP => cmd_flip st
  | CmdId.CMD_UNDOX => some (cmd_undox st)
  | CmdId.CMD_LINES => cmd_lines fuel st
  | _ => none

/-- The table `cmddescs`: for every `CmdId`, in the order of the enumeration,
its letter `ch` and its `argcnt`. -/
def cmddescs : List (CmdId × Byte × Nat) :=
  [(CmdId.CMD_PRINT, 112, 0), (CmdId.CMD_DELETE, 100, 0), (CmdId.CMD_CHANGE, 99, 1),
   (CmdId.CMD_SUB, 115, 2), (CmdId.CMD_GUARD, 103, 1), (CmdId.CMD_VGUARD, 118, 1),
   (CmdId.CMD_XTRACT, 120, 1), (CmdId.CMD_YTRACT, 121, 1), (CmdId.CMD_INSERT, 105, 1),
   (CmdId.CMD_APPEND, 97, 1), (CmdId.CMD_SURROUND, 83, 2), (CmdId.CMD_FLIP, 126, 0),
   (CmdId.CMD_UNDOX, 117, 0), (CmdId.CMD_READ, 114, 1), (CmdId.CMD_READAPP, 82, 1),
   (CmdId.CMD_WRITE, 119, 2), (CmdId.CMD_WRITEAPP, 87, 2), (CmdId.CMD_EXTCMD, 33, 1),
   (CmdId.CMD_EXTCMD_I, 60, 1), (CmdId.CMD_EXTCMD_O, 62, 1), (CmdId.CMD_EXTCMD_IO, 124, 1),
   (CmdId.CMD_EXTCMD_T, 116, 1), (CmdId.CMD_EXTCMD_TN, 84, 1), (CmdId.CMD_LINES, 76, 0)]

/-- The field `cmddescs[id].argcnt`. -/
def argcnt (id : CmdId) : Nat :=
  match cmddescs.find? (fun e => e.1 = id) with
  | some e => e.2.2
  | none => 0

/-- The field `cmddescs[id].ch`. -/
def cmdch (id : CmdId) : Byte :=
  match cmddescs.find? (fun e => e.1 = id) with
  | some e => e.2.1
  | none => 0

/-- The function `chtocmdid`: the first entry of the table with the letter
`ch`; `none` is `CMD_MAX`, not found. -/
def chtocmdid (ch : Byte) : Option CmdId :=
  (cmddescs.find? (fun e => e.2.1 = ch)).map (fun e => e.1)

/-- The record that `addcmd(id)` allocates: every argument `NULL`, no regex. -/
def addcmd (id : CmdId) : Cmd :=
  ⟨id, List.replicate (argcnt id) none, none⟩

/-- The exit code `ERR_INVALID_CMDLINE`. -/
def ERR_INVALID_CMDLINE : Nat := 2

/-- The function `isspace` of the C locale: space, `\t`, `\n`, `\v`, `\f`, `\r`. -/
def isspace (ch : Byte) : Bool := ch = 32 ∨ (9 ≤ ch ∧ ch ≤ 13)

/-- The loop of `removebackslashes` on the bytes of the string, `escaped`
being its flag: a backslash that is not escaped is dropped and escapes the
next byte, every other byte is kept. -/
def removebackslashesFrom : List Byte → Bool → List Byte
  | [], _ => []
  | c :: rest, escaped =>
    if c = 92 ∧ escaped = false then removebackslashesFrom rest true
    else c :: removebackslashesFrom rest false

/-- The function `removebackslashes`. -/
def removebackslashes (str : List Byte) : List Byte :=
  removebackslashesFrom str false

/-- The variables of `parsecmds`.  `currcmd` is the command that still takes
arguments (`none` is `NULL`); `cmds` are the commands linked before it.
The positions `pos` and `argbegin` index the command line, which is in
memory, so they do not wrap. -/
structure Parser where
  cmds : List Cmd
  currcmd : Option Cmd
  inarglist : Bool
  argind : Nat
  argbegin : Nat
  incomment : Bool
  escaped : Bool

/-- The variables of `parsecmds` before the loop. -/
def Parser.init : Parser :=
  ⟨[], none, false, 0, 0, false, false⟩

/-- One iteration of the loop of `parsecmds` on the byte `ch = *p` at the
position `pos`; an error is the exit code.  (`inarglist` is only set while
`currcmd` is not `NULL`, so the argument is always stored.) -/
def parseStep (cmdline : List Byte) (pos : Nat) (ch : Byte) (s : Parser) : Except Nat Parser :=
  if s.incomment then
    if ch = 10 then Except.ok { s with incomment := false, escaped := decide (ch = 92) }
    else Except.ok { s with escaped := decide (ch = 92) }
  else if s.inarglist then
    if ch = 47 ∧ s.escaped = false then
      match s.currcmd with
      | none => Except.error ERR_INVALID_CMDLINE
      | some c =>
        let arglen := pos - s.argbegin
        let arg : Option (List Byte) :=
          if 0 < arglen then some (removebackslashes (slice cmdline s.argbegin arglen)) else none
        let c1 : Cmd := { c with args := c.args.set s.argind arg }
        let argind1 := uadd s.argind 1
        if 0 = szsub (argcnt c.id) argind1 then
          Except.ok { s with cmds := s.cmds ++ [c1], currcmd := none, inarglist := false,
                             argbegin := pos + 1, argind := argind1,
                             escaped := decide (ch = 92) }
        else
          Except.ok { s with currcmd := some c1, argbegin := pos + 1, argind := argind1,
                             escaped := decide (ch = 92) }
    else Except.ok { s with escaped := decide (ch = 92) }
  else if ch = 47 ∧ s.escaped = false then
    match s.currcmd with
    | none => Except.error ERR_INVALID_CMDLINE
    | some c =>
      if 0 < szsub (argcnt c.id) s.argind then
        Except.ok { s with inarglist := true, argbegin := pos + 1, escaped := decide (ch = 92) }
      else Except.error ERR_INVALID_CMDLINE
  else if isspace ch then Except.ok { s with escaped := decide (ch = 92) }
  else if ch = 35 then Except.ok { s with incomment := true, escaped := decide (ch = 92) }
  else
    match chtocmdid ch with
    | some cmdid =>
      if argcnt cmdid = 0 then
        Except.ok { s with cmds := s.cmds ++ s.currcmd.toList ++ [addcmd cmdid], currcmd := none,
                           argind := 0, escaped := decide (ch = 92) }
      else
        Except.ok { s with cmds := s.cmds ++ s.currcmd.toList, currcmd := some (addcmd cmdid),
                           argind := 0, escaped := decide (ch = 92) }
    | none => Except.error ERR_INVALID_CMDLINE

/-- The loop `while (*p != '\0')` of `parsecmds` on the bytes from `pos` on. -/
def parseLoop (cmdline : List Byte) : List Byte → Nat → Parser → Except Nat Parser
  | [], _, s => Except.ok s
  | ch :: rest, pos, s =>
    if ch = 0 then Except.ok s
    else
      match parseStep cmdline pos ch s with
      | Except.error e => Except.error e
      | Except.ok s1 => parseLoop cmdline rest (pos + 1) s1

/-- The function `parsecmds`: the list `cmds`, or the exit code. -/
def parsecmds (quiet : Bool) (cmdline : List Byte) : Except Nat (List Cmd) :=
  match parseLoop cmdline cmdline 0 Parser.init with
  | Except.error e => Except.error e
  | Except.ok s =>
    if s.currcmd.isSome ∨ s.inarglist = true then Except.error ERR_INVALID_CMDLINE
    else
      let lastcmd := (s.cmds ++ s.currcmd.toList).getLast?
      let needprint : Bool :=
        match lastcmd with
        | none => true
        | some c => decide (c.id ≠ CmdId.CMD_PRINT)
      if quiet = false ∧ needprint = true then
        Except.ok (s.cmds ++ s.currcmd.toList ++ [addcmd CmdId.CMD_PRINT])
      else Except.ok (s.cmds ++ s.currcmd.toList)

/-- The kinds and the arguments of a parsed program, `none` for an exit. -/
def programOf (r : Except Nat (List Cmd)) : Option (List (CmdId × List (Option (List Byte)))) :=
  match r with
  | Except.ok cmds => some (cmds.map (fun c => (c.id, c.args)))
  | Except.error _ => none

/-- The exit code of a parse, `none` when it returns. -/
def exitOf (r : Except Nat (List Cmd)) : Option Nat :=
  match r with
  | Except.ok _ => none
  | Except.error e => some e

/-- The loop of `escapechars` on the bytes from `(*str)[iold]` on; `skip`
says that the byte is the second byte of a sequence that has been replaced
(the `++iold` before `continue`).  A NUL byte ends the string, and the byte
`(*str)[iold + 1]` behind the last byte is the NUL terminator. -/
def escapecharsFrom : List Byte → Bool → List Byte
  | [], _ => []
  | c :: rest, skip =>
    if skip then escapecharsFrom rest false
    else if c = 0 then []
    else if c = 92 ∧ rest.headD 0 = 110 then 10 :: escapecharsFrom rest true
    else if c = 92 ∧ rest.headD 0 = 116 then 9 :: escapecharsFrom rest true
    else c :: escapecharsFrom rest false

/-- The function `escapechars`: the new string. -/
def escapechars (str : List Byte) : List Byte :=
  escapecharsFrom str false

/-- The test of `emptyargerr` that ends the program with `ERR_EMPTY_ARG`. -/
def emptyargerr (cmd : Cmd) : Bool :=
  match cmd.id with
  | CmdId.CMD_READ | CmdId.CMD_READAPP | CmdId.CMD_WRITE | CmdId.CMD_WRITEAPP
  | CmdId.CMD_EXTCMD | CmdId.CMD_EXTCMD_I | CmdId.CMD_EXTCMD_O | CmdId.CMD_EXTCMD_IO
  | CmdId.CMD_EXTCMD_T | CmdId.CMD_EXTCMD_TN => (cmd.arg 0).isNone
  | _ => false

/-- The loop of `run` over the commands; `none` when the program exits or a
command does not return a state in this embedding. -/
def runCmds (fuel : Nat) : List Cmd → State → Option State
  | [], st => some st
  | cmd :: rest, st =>
    if emptyargerr cmd then none
    else
      match callback fuel st cmd with
      | none => none
      | some st1 => runCmds fuel rest st1

/-- The function `run` on the input `buffer`: the seed selection is added,
the commands are run in order, and the selections are released. -/
def run (fuel : Nat) (cmds : List Cmd) (buffer : List Byte) : Option State :=
  (runCmds fuel cmds (initState buffer)).map cleanupsels


/-! ## Definitions that follow the specification -/

/-- Every pair of neighbours of the list is in the relation `r`. -/
def chainB (r : Intval → Intval → Bool) : List Intval → Bool
  | a :: b :: rest => r a b && chainB r (b :: rest)
  | _ => true

/-- I1 of the specification: for consecutive intervals `a` then `b`,
`a.from + a.len ≤ b.from`. -/
abbrev I1 (sels : List Intval) : Prop :=
  chainB (fun a b => decide (a.from_ + a.len ≤ b.from_)) sels = true

/-- Consecutive intervals are separated by at least one byte: for `a` then `b`,
`a.from + a.len < b.from`. -/
abbrev Separated (sels : List Intval) : Prop :=
  chainB (fun a b => decide (a.from_ + a.len < b.from_)) sels = true

/-- I2 of the specification: every interval lies within `[0, n]`. -/
abbrev I2 (n : Nat) (sels : List Intval) : Prop :=
  ∀ iv ∈ sels, iv.from_ + iv.len ≤ n

/-- The non-empty gaps left by a list from the position `cursor` up to `stop`:
the gap before each interval, then the gap after the last one. -/
def gapsFrom (stop : Nat) : Nat → List Intval → List Intval
  | cursor, [] => if cursor < stop then [⟨cursor, stop - cursor⟩] else []
  | cursor, iv :: rest =>
    (if cursor < iv.from_ then [⟨cursor, iv.from_ - cursor⟩] else [])
      ++ gapsFrom stop (iv.from_ + iv.len) rest

/-- The complement of a list within a bound as the specification words it: the
empty list gives the bound itself, every other list its non-empty gaps. -/
def complementSpec (bound : Intval) (list : List Intval) : List Intval :=
  match list with
  | [] => [bound]
  | _ :: _ => gapsFrom (bound.from_ + bound.len) bound.from_ list

/-- The sum of the lengths of the intervals of a list. -/
def lenSum : List Intval → Nat
  | [] => 0
  | iv :: rest => iv.len + lenSum rest

/-- The rewriting protocol of the specification between the positions
`cursor` and `stop`: walk the targets in order, copying the bytes of `B`
between targets, emitting `R` once per target, and copy the bytes after the
last target up to `stop`. -/
def rewriteSeg (B R : List Byte) (stop : Nat) : Nat → List Intval → List Byte
  | cursor, [] => slice B cursor (stop - cursor)
  | cursor, t :: rest =>
    slice B cursor (t.from_ - cursor) ++ R ++ rewriteSeg B R stop (t.from_ + t.len) rest

/-- The rewriting protocol of the specification on the whole buffer `B` with
the targets `T` and the replacement `R`. -/
def rewriteSpec (B : List Byte) (T : List Intval) (R : List Byte) : List Byte :=
  rewriteSeg B R B.length 0 T

/-- The byte at the index `i` lies inside one of the intervals. -/
def covered (T : List Intval) (i : Nat) : Bool :=
  T.any (fun s => decide (s.from_ ≤ i) && decide (i < s.from_ + s.len))

/-- The bytes of `bs`, the first of which has the index `i`, that lie outside
every interval of `T`, in order. -/
def outsideFrom (T : List Intval) : Nat → List Byte → List Byte
  | _, [] => []
  | i, b :: bs => if covered T i then outsideFrom T (i + 1) bs else b :: outsideFrom T (i + 1) bs

/-- The bytes of the buffer `B` that lie outside every interval of `T`, in order. -/
def outsideBytes (B : List Byte) (T : List Intval) : List Byte :=
  outsideFrom T 0 B

/-- The text of every selection, in list order. -/
def selTexts (B : List Byte) (sels : List Intval) : List (List Byte) :=
  sels.map (fun s => slice B s.from_ s.len)

/-- The byte range of the selection `sel` contains a match of `re`: the regex
finds a match in the bytes `B[from .. from + len)`. -/
def selMatches (re : Regex) (B : List Byte) (sel : Intval) : Bool :=
  (re (slice B sel.from_ sel.len)).isSome

/-- The complete lines of a text, each with its newline: `cur` is the part of
the current line that has been read. -/
def splitLines : List Byte → List Byte → List (List Byte)
  | _, [] => []
  | cur, b :: rest =>
    if b = 10 then (cur ++ [10]) :: splitLines [] rest else splitLines (cur ++ [b]) rest

/-- The complete lines of the buffer, in order. -/
def completeLines (B : List Byte) : List (List Byte) := splitLines [] B

/-- The prefix of a text up to and including its last newline (empty when
there is no newline). -/
def upToLastNewline : List Byte → List Byte
  | [] => []
  | b :: rest => if 10 ∈ b :: rest then b :: upToLastNewline rest else []

/-- The text of an argument on the command line: every `/` is written as `\/`. -/
def escapeArg : List Byte → List Byte
  | [] => []
  | b :: rest => if b = 47 then 92 :: 47 :: escapeArg rest else b :: escapeArg rest

/-- The text of the arguments of a command: each one escaped and terminated
by `/`. -/
def renderArgs : List (List Byte) → List Byte
  | [] => []
  | a :: rest => escapeArg a ++ 47 :: renderArgs rest

/-- The text of a command: its letter, followed, when the kind takes
arguments, by `/` and the text of the arguments. -/
def renderCmd (c : CmdId × List (List Byte)) : List Byte :=
  cmdch c.1 :: (if 0 < argcnt c.1 then 47 :: renderArgs c.2 else [])

/-- The text of a sequence of commands. -/
def render : List (CmdId × List (List Byte)) → List Byte
  | [] => []
  | c :: rest => renderCmd c ++ render rest

/-- The record of an argument: absent when it is empty. -/
def recorded (a : List Byte) : Option (List Byte) :=
  if a = [] then none else some a


/-- The oracle reports its match inside the string it is given: `rm_so ≤ rm_eo`
and `rm_eo` is at most the length of the string. -/
def MatchesInside (re : Regex) : Prop :=
  ∀ str so eo, re str = some (so, eo) → so ≤ eo ∧ eo ≤ str.length


/-- The command letters of the specification with their kinds and argument
counts: `p`(0) `d`(0) `c`(1) `s`(2) `g`(1) `v`(1) `x`(1) `y`(1) `i`(1) `a`(1)
`S`(2) `~`(0) `u`(0) `r`(1) `R`(1) `w`(2) `W`(2) `!`(1) `<`(1) `>`(1) `|`(1)
`t`(1) `T`(1) `L`(0). -/
def letterTable : List (Byte × CmdId × Nat) :=
  [(112, CmdId.CMD_PRINT, 0), (100, CmdId.CMD_DELETE, 0), (99, CmdId.CMD_CHANGE, 1),
   (115, CmdId.CMD_SUB, 2), (103, CmdId.CMD_GUARD, 1), (118, CmdId.CMD_VGUARD, 1),
   (120, CmdId.CMD_XTRACT, 1), (121, CmdId.CMD_YTRACT, 1), (105, CmdId.CMD_INSERT, 1),
   (97, CmdId.CMD_APPEND, 1), (83, CmdId.CMD_SURROUND, 2), (126, CmdId.CMD_FLIP, 0),
   (117, CmdId.CMD_UNDOX, 0), (114, CmdId.CMD_READ, 1), (82, CmdId.CMD_READAPP, 1),
   (119, CmdId.CMD_WRITE, 2), (87, CmdId.CMD_WRITEAPP, 2), (33, CmdId.CMD_EXTCMD, 1),
   (60, CmdId.CMD_EXTCMD_I, 1), (62, CmdId.CMD_EXTCMD_O, 1), (124, CmdId.CMD_EXTCMD_IO, 1),
   (116, CmdId.CMD_EXTCMD_T, 1), (84, CmdId.CMD_EXTCMD_TN, 1), (76, CmdId.CMD_LINES, 0)]

/-- The 24 command letters. -/
def letters : List Byte := letterTable.map (fun e => e.1)


/-- The text is made only of whitespace and comments (`#` up to the next
newline); the flag says that the text starts inside a comment. -/
def onlyBlank : Bool → List Byte → Bool
  | _, [] => true
  | true, b :: rest => onlyBlank (decide (b ≠ 10)) rest
  | false, b :: rest =>
    if b = 35 then onlyBlank true rest else isspace b && onlyBlank false rest


/-- The unescaping rule of the specification, `\c` becomes `c` and `\\`
becomes `\`: a backslash that has not been consumed is dropped and consumes
the next byte, which is kept whatever it is; a lone backslash at the end is
dropped; every other byte is kept. -/
def unescapeSpec : List Byte → List Byte
  | [] => []
  | [b] => if b = 92 then [] else [b]
  | b :: c :: rest => if b = 92 then c :: unescapeSpec rest else b :: unescapeSpec (c :: rest)


/-- The escape pass of the specification, a scan from left to right: the two
bytes backslash `n` become one LF byte, the two bytes backslash `t` one HT
byte, and every other byte is copied. -/
def escapeSpec : List Byte → List Byte
  | [] => []
  | [b] => [b]
  | b :: c :: rest =>
    if b = 92 ∧ c = 110 then 10 :: escapeSpec rest
    else if b = 92 ∧ c = 116 then 9 :: escapeSpec rest
    else b :: escapeSpec (c :: rest)

/-- The number of sequences that the escape pass replaces. -/
def replacedCount : List Byte → Nat
  | [] => 0
  | [_] => 0
  | b :: c :: rest =>
    if b = 92 ∧ (c = 110 ∨ c = 116) then 1 + replacedCount rest else replacedCount (c :: rest)


/-- The stored argument is absent, or a non-empty string whose last byte is
not a backslash. -/
def argOk : Option (List Byte) → Bool
  | none => true
  | some str => decide (str ≠ []) && decide (str.getLast? ≠ some 92)


/-- The selections after a substitution as the specification words it, the
matches inside the selection `s` being `M s` and the replacement having `t`
bytes: the `from` of a selection is increased by the net delta of the
selections before it (`added` bytes put in, `removed` bytes taken out), its
`len` by `matchcount_in_sel * t - replaced_bytes_in_sel`. -/
def shiftedSpec (t : Nat) (M : Intval → List Intval) : Nat → Nat → List Intval → List Intval
  | _, _, [] => []
  | added, removed, s :: rest =>
    ⟨s.from_ + added - removed, s.len + (M s).length * t - lenSum (M s)⟩ ::
      shiftedSpec t M (added + (M s).length * t) (removed + lenSum (M s)) rest

/-- The oracle reports a match that ends at offset `0` only in the empty
string, so that every match before the end of the string moves the cursor. -/
def AdvancesCursor (re : Regex) : Prop :=
  ∀ str so eo, re str = some (so, eo) → eo = 0 → str = []


/-- The selections after `d` bytes have been put into every selection: the
`from` of a selection is increased by the `d` bytes of each selection before
it, its `len` by `d`. -/
def surroundSpec (d : Nat) : Nat → List Intval → List Intval
  | _, [] => []
  | added, s :: rest => ⟨s.from_ + added, s.len + d⟩ :: surroundSpec d (added + d) rest


/-! ## Auxiliary definitions of the proofs -/

/-- The matches `ms` are sorted, disjoint and lie inside the selection `s`. -/
def Within (s : Intval) (ms : List Intval) : Prop :=
  I1 ms ∧ ∀ m ∈ ms, s.from_ ≤ m.from_ ∧ m.from_ + m.len ≤ s.from_ + s.len

/-- The match of the pattern `^` in the selection `s`. -/
def anchorStart (s : Intval) : List Intval := [⟨s.from_, 0⟩]

/-- The match of the pattern `$` in the selection `s`. -/
def anchorEnd (s : Intval) : List Intval := [⟨s.from_ + s.len, 0⟩]

/-- The match of the pattern `^$` in the selection `s`, if any. -/
def anchorEmpty (s : Intval) : List Intval := if s.len = 0 then [⟨s.from_, 0⟩] else []

/-- The selections after a substitution whose matches inside the selection `s`
are `M s`, every match being replaced by `t` bytes: `c` is a position of the
old buffer before the selections and `p` the same position in the new one. -/
def shiftSels (t : Nat) (M : Intval → List Intval) : Nat → Nat → List Intval → List Intval
  | _, _, [] => []
  | c, p, s :: rest =>
    ⟨p + (s.from_ - c), s.len - lenSum (M s) + (M s).length * t⟩ ::
      shiftSels t M (s.from_ + s.len)
        (p + (s.from_ - c) + (s.len - lenSum (M s) + (M s).length * t)) rest

/-- The final element of the non-empty list `a :: rest`. -/
def lastIv : Intval → List Intval → Intval
  | a, [] => a
  | _, b :: rest => lastIv b rest

/-- The gaps behind each interval of `a :: rest`, the one behind the final
interval reaching up to `stop`. -/
def midTail (stop : Nat) : Intval → List Intval → List Intval
  | a, [] => [⟨a.from_ + a.len, stop - (a.from_ + a.len)⟩]
  | a, b :: rest => ⟨a.from_ + a.len, b.from_ - (a.from_ + a.len)⟩ :: midTail stop b rest

/-- The intervals of the complete lines of the bytes `bs`: `start` is the
position of the first byte of the current line, `cur` the position of the
first byte of `bs`. -/
def lineIntvs : Nat → Nat → List Byte → List Intval
  | _, _, [] => []
  | start, cur, b :: rest =>
    if b = 10 then ⟨start, cur + 1 - start⟩ :: lineIntvs (cur + 1) (cur + 1) rest
    else lineIntvs start (cur + 1) rest

/-- The parser is between two commands: no command is open, it is outside an
argument list and a comment, and the previous byte was not a backslash. -/
def Idle (s : Parser) : Prop :=
  s.currcmd = none ∧ s.inarglist = false ∧ s.incomment = false ∧ s.escaped = false


/-- The matches that the loop of `cmd_sub` stores from the cursor `pos` on,
when it returns. -/
def subMs : Nat → Regex → List Byte → Nat → Nat → List Intval
  | 0, _, _, _, _ => []
  | fuel + 1, regex, buffer, pos, end_ =>
    match regex (cstrAt buffer pos end_) with
    | none => []
    | some (so, eo) =>
      ⟨pos + so, eo - so⟩ ::
        (if charAt buffer (pos + eo) end_ = 0 then [] else subMs fuel regex buffer (pos + eo) end_)

/-- The matches of `cmd_sub` inside the selection `sel`, when the matching of
the selection returns. -/
def subM (fuel : Nat) (cmd : Cmd) (buffer : List Byte) (sel : Intval) : List Intval :=
  if cmd.arg 0 = some PAT_START then anchorStart sel
  else if cmd.arg 0 = some PAT_END then anchorEnd sel
  else if cmd.arg 0 = some PAT_EMPTY then anchorEmpty sel
  else
    match cmd.regex with
    | none => []
    | some regex => subMs fuel regex buffer sel.from_ (sel.from_ + sel.len)


/-- Every argument of the command satisfies `argOk`. -/
def AllOk (c : Cmd) : Prop := ∀ a ∈ c.args, argOk a = true

/-- Every command that the parser holds satisfies `AllOk`. -/
def ParserOk (s : Parser) : Prop :=
  (∀ c ∈ s.cmds, AllOk c) ∧ ∀ c, s.currcmd = some c → AllOk c


/-- The matches of `cmd_sub` inside the selection `sel`: none when the
command returns at once (no regex and a pattern that is neither `^` nor
`$`), else the matches that the matching of the selection stores. -/
def subMatches (fuel : Nat) (cmd : Cmd) (buffer : List Byte) (sel : Intval) : List Intval :=
  if cmd.regex.isNone ∧
      (cmd.arg 0 = none ∨ (cmd.arg 0 ≠ some PAT_START ∧ cmd.arg 0 ≠ some PAT_END)) then []
  else subM fuel cmd buffer sel


/-! ## Theorems -/

theorem szadd_eq {a b : Nat} (h : a + b < SIZE_MOD) : szadd a b = a + b := by
  simp only [szadd, SIZE_MOD] at *; omega

theorem szsub_eq {a b : Nat} (h : b ≤ a) (ha : a < SIZE_MOD) : szsub a b = a - b := by
  simp only [szsub, SIZE_MOD] at *; omega

theorem I1_cons_cons (a b : Intval) (rest : List Intval) :
    I1 (a :: b :: rest) ↔ a.from_ + a.len ≤ b.from_ ∧ I1 (b :: rest) := by
  simp [I1, chainB]

theorem Separated_cons_cons (a b : Intval) (rest : List Intval) :
    Separated (a :: b :: rest) ↔ a.from_ + a.len < b.from_ ∧ Separated (b :: rest) := by
  simp [Separated, chainB]

theorem getLast?_lastIv (a : Intval) (rest : List Intval) :
    (a :: rest).getLast? = some (lastIv a rest) := by
  induction rest generalizing a with
  | nil => rfl
  | cons b r ih => rw [List.getLast?_cons_cons, ih b]; rfl

theorem midTail_head (stop : Nat) (a : Intval) (rest : List Intval) :
    ∃ l gs, midTail stop a rest = ⟨a.from_ + a.len, l⟩ :: gs := by
  cases rest with
  | nil => exact ⟨_, _, rfl⟩
  | cons b r => exact ⟨_, _, rfl⟩

/-- One iteration of the loop of `flipGaps` when the gap is not empty. -/
theorem flipGaps_step (p q : Intval) (gs acc : List Intval)
    (hlt : p.from_ + p.len < q.from_) (hq : q.from_ < SIZE_MOD) :
    flipGaps p (q :: gs) acc
      = flipGaps q gs (acc ++ [⟨p.from_ + p.len, q.from_ - (p.from_ + p.len)⟩]) := by
  have h1 : szadd p.from_ p.len = p.from_ + p.len := szadd_eq (by omega)
  have h2 : szsub q.from_ 1 = q.from_ - 1 := szsub_eq (by omega) (by omega)
  have h3 : szsub (q.from_ - 1) (p.from_ + p.len) = q.from_ - 1 - (p.from_ + p.len) :=
    szsub_eq (by omega) (by omega)
  have h4 : szadd (q.from_ - 1 - (p.from_ + p.len)) 1 = q.from_ - (p.from_ + p.len) := by
    rw [szadd_eq (by omega)]; omega
  have hle : p.from_ + p.len ≤ q.from_ - 1 := by omega
  rw [flipGaps, h1, h2, h3, h4, if_pos hle, addintv]

/-- The gaps between strictly separated intervals, as `flipGaps` computes them,
followed by the gap up to `stop`, are `midTail`. -/
theorem flipGaps_midTail (stop : Nat) (a : Intval) (rest acc : List Intval)
    (hsep : Separated (a :: rest))
    (hfit : ∀ iv ∈ a :: rest, iv.from_ + iv.len < SIZE_MOD) :
    flipGaps a rest acc ++
        [⟨(lastIv a rest).from_ + (lastIv a rest).len,
          stop - ((lastIv a rest).from_ + (lastIv a rest).len)⟩]
      = acc ++ midTail stop a rest := by
  induction rest generalizing a acc with
  | nil => simp [flipGaps, lastIv, midTail]
  | cons b r ih =>
    rw [Separated_cons_cons] at hsep
    have ha := hfit a (by simp)
    have hb := hfit b (by simp)
    have hlt := hsep.1
    have h1 : szadd a.from_ a.len = a.from_ + a.len := szadd_eq ha
    have h2 : szsub b.from_ 1 = b.from_ - 1 := szsub_eq (by omega) (by omega)
    have h3 : szsub (b.from_ - 1) (a.from_ + a.len) = b.from_ - 1 - (a.from_ + a.len) :=
      szsub_eq (by omega) (by omega)
    have h4 : szadd (b.from_ - 1 - (a.from_ + a.len)) 1 = b.from_ - (a.from_ + a.len) := by
      rw [szadd_eq (by omega)]; omega
    have hle : a.from_ + a.len ≤ b.from_ - 1 := by omega
    simp only [flipGaps, lastIv, midTail, h1, h2, h3, h4, hle, if_true, addintv]
    rw [ih b _ hsep.2 (fun iv hiv => hfit iv (List.mem_cons_of_mem _ hiv))]
    simp

/-- The gaps between the gaps of strictly separated non-empty intervals are
the intervals behind the first one. -/
theorem flipGaps_of_midTail (stop : Nat) (a : Intval) (rest acc : List Intval)
    (g : Intval) (gs : List Intval) (hg : midTail stop a rest = g :: gs)
    (hsep : Separated (a :: rest))
    (hpos : ∀ iv ∈ a :: rest, 0 < iv.len)
    (hfit : ∀ iv ∈ a :: rest, iv.from_ + iv.len < SIZE_MOD) :
    flipGaps g gs acc = acc ++ rest := by
  induction rest generalizing a acc g gs with
  | nil =>
    simp only [midTail, List.cons.injEq] at hg
    obtain ⟨_, rfl⟩ := hg
    simp [flipGaps]
  | cons b r ih =>
    rw [Separated_cons_cons] at hsep
    simp only [midTail, List.cons.injEq] at hg
    obtain ⟨rfl, rfl⟩ := hg
    obtain ⟨l, gs1, hmt⟩ := midTail_head stop b r
    have ha := hfit a (by simp)
    have hb := hfit b (by simp)
    have hbpos := hpos b (by simp)
    have hlt := hsep.1
    have h1 : szadd (a.from_ + a.len) (b.from_ - (a.from_ + a.len)) = b.from_ := by
      rw [szadd_eq (by omega)]; omega
    have h2 : szsub (b.from_ + b.len) 1 = b.from_ + b.len - 1 := szsub_eq (by omega) (by omega)
    have h3 : szsub (b.from_ + b.len - 1) b.from_ = b.len - 1 := by
      rw [szsub_eq (by omega) (by omega)]; omega
    have h4 : szadd (b.len - 1) 1 = b.len := by
      rw [szadd_eq (by omega)]; omega
    have hle : b.from_ ≤ b.from_ + b.len - 1 := by omega
    rw [hmt]
    simp only [flipGaps, h1, h2, h3, h4, hle, if_true, addintv]
    rw [ih b _ _ _ hmt hsep.2 (fun iv hiv => hpos iv (List.mem_cons_of_mem _ hiv))
      (fun iv hiv => hfit iv (List.mem_cons_of_mem _ hiv))]
    simp

/-- Flip of a non-empty list of strictly separated intervals that ends at
least two bytes before the end of the bound `(0, n)`. -/
theorem flipintvals_sep (n : Nat) (a : Intval) (rest : List Intval)
    (hsep : Separated (a :: rest))
    (hend : ∀ iv ∈ a :: rest, iv.from_ + iv.len + 2 ≤ n)
    (hfit : n < SIZE_MOD) :
    flipintvals ⟨0, n⟩ (a :: rest) (some (lastIv a rest))
      = some ((if 0 < a.from_ then [⟨0, a.from_⟩] else []) ++ midTail (n - 1) a rest) := by
  have ha := hend a (by simp)
  have hl : (lastIv a rest).from_ + (lastIv a rest).len + 2 ≤ n := by
    apply hend
    have := getLast?_lastIv a rest
    exact List.mem_of_getLast?_eq_some this
  have hne : ¬ (a.from_ = 0 ∧ a.len = n) := by omega
  have h1 : szsub a.from_ 0 = a.from_ := szsub_eq (by omega) (by omega)
  have h2 : szadd (lastIv a rest).from_ (lastIv a rest).len
      = (lastIv a rest).from_ + (lastIv a rest).len := szadd_eq (by omega)
  have h3 : szsub (szadd 0 n) 1 = n - 1 := by
    rw [szadd_eq (by omega), szsub_eq (by omega) (by omega)]; omega
  have h4 : szsub (n - 1) ((lastIv a rest).from_ + (lastIv a rest).len)
      = n - 1 - ((lastIv a rest).from_ + (lastIv a rest).len) := szsub_eq (by omega) (by omega)
  have hlt : (lastIv a rest).from_ + (lastIv a rest).len < n - 1 := by omega
  simp only [flipintvals, hne, if_false, h1, h2, h3, h4, hlt, if_true, addintv, List.nil_append]
  rw [flipGaps_midTail (n - 1) a rest _ hsep (fun iv hiv => by have := hend iv hiv; omega)]

/-- C1, evaluated on the code: for the bound `(0, 5)` and the list `[(0, 2)]`
the complement is the gap `[(2, 3)]`, but `flipintvals` returns `[(2, 2)]`;
the gap behind the last interval is one byte short. -/
theorem flipintvals_last_gap_short :
    I1 [⟨0, 2⟩] ∧ I2 5 [⟨0, 2⟩] ∧
    flipintvals ⟨0, 5⟩ [⟨0, 2⟩] (some ⟨0, 2⟩) = some [⟨2, 2⟩] ∧
    complementSpec ⟨0, 5⟩ [⟨0, 2⟩] = [⟨2, 3⟩] := by
  decide

/-- C2 as stated fails: the list `[(0, 5), (5, 0)]` satisfies I1 and I2 for a
buffer of length 5, and `~` applied twice leaves the list `[(0, 5)]`. -/
theorem cmd_flip_twice_counterexample :
    I1 [⟨0, 5⟩, ⟨5, 0⟩] ∧ I2 5 [⟨0, 5⟩, ⟨5, 0⟩] ∧
    ((cmd_flip ⟨[1, 2, 3, 4, 5], 5, [⟨0, 5⟩, ⟨5, 0⟩], some ⟨5, 0⟩, []⟩).bind cmd_flip).map
        State.sels = some [⟨0, 5⟩] ∧
    ([⟨0, 5⟩] : List Intval) ≠ [⟨0, 5⟩, ⟨5, 0⟩] := by
  decide

/-- Flip of the list that `flipintvals_sep` returns: the intervals come back. -/
theorem flipintvals_of_gaps (n : Nat) (a : Intval) (rest : List Intval)
    (hsep : Separated (a :: rest))
    (hpos : ∀ iv ∈ a :: rest, 0 < iv.len)
    (hend : ∀ iv ∈ a :: rest, iv.from_ + iv.len + 2 ≤ n)
    (hfit : n < SIZE_MOD) :
    flipintvals ⟨0, n⟩ ((if 0 < a.from_ then [⟨0, a.from_⟩] else []) ++ midTail (n - 1) a rest)
        (some ⟨(lastIv a rest).from_ + (lastIv a rest).len,
          n - 1 - ((lastIv a rest).from_ + (lastIv a rest).len)⟩)
      = some (a :: rest) := by
  have ha := hend a (by simp)
  have hapos := hpos a (by simp)
  have hl : (lastIv a rest).from_ + (lastIv a rest).len + 2 ≤ n := by
    apply hend
    exact List.mem_of_getLast?_eq_some (getLast?_lastIv a rest)
  have hfits : ∀ iv ∈ a :: rest, iv.from_ + iv.len < SIZE_MOD :=
    fun iv hiv => by have := hend iv hiv; omega
  obtain ⟨l, gs, hmt⟩ := midTail_head (n - 1) a rest
  have h3 : szsub (szadd 0 n) 1 = n - 1 := by
    rw [szadd_eq (by omega), szsub_eq (by omega) (by omega)]; omega
  have h5 : szadd ((lastIv a rest).from_ + (lastIv a rest).len)
      (n - 1 - ((lastIv a rest).from_ + (lastIv a rest).len)) = n - 1 := by
    rw [szadd_eq (by omega)]; omega
  have hrest := flipGaps_of_midTail (n - 1) a rest [a] _ _ hmt hsep hpos hfits
  by_cases h0 : 0 < a.from_
  · have hne : ¬ (a.from_ = n) := by omega
    have g1 : szadd 0 a.from_ = a.from_ := by rw [szadd_eq (by omega)]; omega
    have g2 : szsub (a.from_ + a.len) 1 = a.from_ + a.len - 1 :=
      szsub_eq (by omega) (by omega)
    have g3 : szsub (a.from_ + a.len - 1) a.from_ = a.len - 1 := by
      rw [szsub_eq (by omega) (by omega)]; omega
    have g4 : szadd (a.len - 1) 1 = a.len := by rw [szadd_eq (by omega)]; omega
    have gle : a.from_ ≤ a.from_ + a.len - 1 := by omega
    rw [if_pos h0, hmt]
    simp only [flipintvals, List.singleton_append, hne, and_false, if_false, lt_irrefl, h3, h5,
      if_true, addintv, List.nil_append, false_and]
    rw [flipGaps_step _ _ _ _ (by simp only; omega) (by simp only; omega)]
    have haeq : (⟨0 + a.from_, a.from_ + a.len - (0 + a.from_)⟩ : Intval) = a := by
      cases a; simp only [Intval.mk.injEq] at *; omega
    simp only [List.nil_append]
    rw [haeq, hrest]
    rfl
  · have ha0 : a.from_ = 0 := by omega
    have hne : ¬ (a.from_ + a.len = 0) := by omega
    have g1 : szsub (a.from_ + a.len) 0 = a.from_ + a.len :=
      szsub_eq (by omega) (by omega)
    have hpos2 : 0 < a.from_ + a.len := by omega
    have haeq : (⟨0, a.from_ + a.len⟩ : Intval) = a := by
      cases a; simp only [Intval.mk.injEq] at *; omega
    rw [if_neg h0, List.nil_append, hmt]
    simp only [flipintvals, hne, false_and, if_false, h3, h5, lt_irrefl, hpos2, if_true,
      g1, addintv, List.nil_append]
    rw [haeq, hrest]
    rfl

/-- The final element of the list that `flipintvals_sep` returns. -/
theorem getLast?_gaps (n : Nat) (a : Intval) (rest : List Intval)
    (hsep : Separated (a :: rest))
    (hfits : ∀ iv ∈ a :: rest, iv.from_ + iv.len < SIZE_MOD) :
    ((if 0 < a.from_ then [(⟨0, a.from_⟩ : Intval)] else []) ++ midTail (n - 1) a rest).getLast?
      = some ⟨(lastIv a rest).from_ + (lastIv a rest).len,
          n - 1 - ((lastIv a rest).from_ + (lastIv a rest).len)⟩ := by
  have := flipGaps_midTail (n - 1) a rest [] hsep hfits
  rw [List.nil_append] at this
  rw [← this, ← List.append_assoc, List.getLast?_append]
  simp

/-- C2, amended: when the selection list is the single interval `(0, buflen)`,
or when its intervals are non-empty, strictly separated (at least one byte
between consecutive intervals) and end at least two bytes before the end of
the buffer, `~` applied twice gives back the same state, selection list
included. -/
theorem cmd_flip_twice (st : State)
    (hlast : st.lastsel = st.sels.getLast?)
    (hfit : st.buflen < SIZE_MOD)
    (h : st.sels = [⟨0, st.buflen⟩] ∨
      (Separated st.sels ∧
        (∀ iv ∈ st.sels, 0 < iv.len) ∧
        (∀ iv ∈ st.sels, iv.from_ + iv.len + 2 ≤ st.buflen))) :
    (cmd_flip st).bind cmd_flip = some st := by
  obtain ⟨buffer, buflen, sels, lastsel, out⟩ := st
  simp only at hlast hfit h
  rcases h with h | ⟨hsep, hpos, hend⟩
  · subst h
    subst hlast
    simp [cmd_flip, flipintvals, addintv]
  · cases sels with
    | nil =>
      subst hlast
      simp [cmd_flip, flipintvals, addintv]
    | cons a rest =>
      rw [getLast?_lastIv] at hlast
      subst hlast
      have hfits : ∀ iv ∈ a :: rest, iv.from_ + iv.len < SIZE_MOD :=
        fun iv hiv => by have := hend iv hiv; omega
      have e1 : cmd_flip ⟨buffer, buflen, a :: rest, some (lastIv a rest), out⟩
          = some ⟨buffer, buflen,
              (if 0 < a.from_ then [⟨0, a.from_⟩] else []) ++ midTail (buflen - 1) a rest,
              some ⟨(lastIv a rest).from_ + (lastIv a rest).len,
                buflen - 1 - ((lastIv a rest).from_ + (lastIv a rest).len)⟩, out⟩ := by
        simp only [cmd_flip]
        rw [flipintvals_sep buflen a rest hsep hend hfit]
        simp only
        rw [getLast?_gaps buflen a rest hsep hfits]
      rw [e1, Option.some_bind]
      simp only [cmd_flip]
      rw [flipintvals_of_gaps buflen a rest hsep hpos hend hfit]
      simp only [getLast?_lastIv]

/-- The amended C2 at the buffer `"abcdefgh"` with the selections `(1, 2)` and `(4, 1)`. -/
theorem cmd_flip_twice_witness :
    (cmd_flip ⟨[97, 98, 99, 100, 101, 102, 103, 104], 8, [⟨1, 2⟩, ⟨4, 1⟩], some ⟨4, 1⟩, []⟩).bind
        cmd_flip
      = some ⟨[97, 98, 99, 100, 101, 102, 103, 104], 8, [⟨1, 2⟩, ⟨4, 1⟩], some ⟨4, 1⟩, []⟩ :=
  cmd_flip_twice ⟨[97, 98, 99, 100, 101, 102, 103, 104], 8, [⟨1, 2⟩, ⟨4, 1⟩], some ⟨4, 1⟩, []⟩
    (by decide) (by decide) (Or.inr (by decide))

/-- C3, evaluated on the code: in the buffer `"abc"` with the selection
`(0, 3)` and the regex `a`, `x` selects `(0, 1)`, the byte `a`, and `y` selects
only `(1, 1)`, so that `y` followed by `p` prints `b`: the byte `c` of the
selection is in neither result. -/
theorem cmd_ytract_misses_last_byte :
    (cmd_xtract 8 (initState [97, 98, 99]) ⟨CmdId.CMD_XTRACT, [some [97]], some (litRegex 97)⟩).map
        State.sels = some [⟨0, 1⟩] ∧
    (cmd_ytract 8 (initState [97, 98, 99]) ⟨CmdId.CMD_YTRACT, [some [97]], some (litRegex 97)⟩).map
        State.sels = some [⟨1, 1⟩] ∧
    (cmd_ytract 8 (initState [97, 98, 99]) ⟨CmdId.CMD_YTRACT, [some [97]], some (litRegex 97)⟩).map
        (fun st => (cmd_print st).out) = some [98] := by
  decide

/-- C5, evaluated on the code: `d` on the buffer `"abc"` with the selection
`(0, 3)` leaves the empty buffer and the empty selection list, not the list
`[(0, 0)]`. -/
theorem cmd_delete_all_leaves_no_selection :
    (cmd_delete (initState [97, 98, 99])).buffer = [] ∧
    (cmd_delete (initState [97, 98, 99])).buflen = 0 ∧
    (cmd_delete (initState [97, 98, 99])).sels = [] ∧
    (cmd_delete (initState [97, 98, 99])).lastsel = none := by
  decide

/-- The match loop of `cmd_sub` never ends on `"abc"` for the regex `x*`: the
empty match at offset `0` is found again and again. -/
theorem subLoop_star_none (fuel : Nat) (acc : SubAcc) :
    subLoop fuel (starRegex 120) [97, 98, 99] 0 3 acc = none := by
  induction fuel generalizing acc with
  | zero => rfl
  | succ k ih =>
    have hre : starRegex 120 (cstrAt [97, 98, 99] 0 3) = some (0, 0) := by decide
    have hch : charAt [97, 98, 99] (0 + 0) 3 ≠ 0 := by decide
    rw [subLoop, hre]
    simp only [hch, if_false]
    exact ih _

/-- C6, evaluated on the code: `s/x*/y/` on the buffer `"abc"` with the
selection `(0, 3)` yields no state, whatever the number of iterations granted
to the match loop. -/
theorem cmd_sub_star_never_returns (fuel : Nat) :
    cmd_sub fuel (initState [97, 98, 99])
      ⟨CmdId.CMD_SUB, [some [120, 42], some [121]], some (starRegex 120)⟩ = none := by
  have h := subLoop_star_none fuel ⟨[], 0, 0⟩
  have h3 : szadd 0 3 = 3 := by decide
  simp only [cmd_sub, initState, addintv, subSels, subMatch, Cmd.arg]
  simp [PAT_START, PAT_END, PAT_EMPTY, h3, h]

/-- C9, evaluated on the code: in the buffer `"a\nb\n"` with the selections
`(0, 2)` and `(2, 2)` and the regex `b`, the first selection has no match and
the second has the match `(2, 1)`; `x` leaves the list `[(2, 2)]`, the second
selection as it was, and `lastsel` is `NULL`. -/
theorem cmd_xtract_stops_after_unmatched_head :
    xtractMatches 8 (some (litRegex 98)) [97, 10, 98, 10] ⟨0, 2⟩ false = some [] ∧
    xtractMatches 8 (some (litRegex 98)) [97, 10, 98, 10] ⟨2, 2⟩ false = some [⟨2, 1⟩] ∧
    cmd_xtract 8 ⟨[97, 10, 98, 10], 4, [⟨0, 2⟩, ⟨2, 2⟩], some ⟨2, 2⟩, []⟩
        ⟨CmdId.CMD_XTRACT, [some [98]], some (litRegex 98)⟩
      = some ⟨[97, 10, 98, 10], 4, [⟨2, 2⟩], none, []⟩ := by
  decide

/-- C10, evaluated on the code: in the buffer `"abc"` with the selection
`(0, 3)`, the regex `x*$` reports the empty match `(3, 3)` and `x` puts the
interval `(3, 0)`, of length zero, in the selection list. -/
theorem cmd_xtract_emits_empty_match :
    starEndRegex 120 (cstrAt [97, 98, 99] 0 3) = some (3, 3) ∧
    (cmd_xtract 8 (initState [97, 98, 99])
        ⟨CmdId.CMD_XTRACT, [some [120, 42, 36]], some (starEndRegex 120)⟩).map State.sels
      = some [⟨3, 0⟩] := by
  decide

/-! ### The rewriting of `cmd_change` -/

theorem I1_tail (a : Intval) (rest : List Intval) (h : I1 (a :: rest)) : I1 rest := by
  cases rest with
  | nil => rfl
  | cons b r => exact ((I1_cons_cons a b r).mp h).2

theorem I1_head_le (a : Intval) (rest : List Intval) (h : I1 (a :: rest)) :
    ∀ x ∈ rest, a.from_ + a.len ≤ x.from_ := by
  induction rest generalizing a with
  | nil => intro x hx; cases hx
  | cons b r ih =>
    have hab := (I1_cons_cons a b r).mp h
    intro x hx
    rcases List.mem_cons.mp hx with rfl | hx
    · exact hab.1
    · have := ih b hab.2 x hx
      omega

theorem lenSum_le (n : Nat) (sels : List Intval) (c : Nat)
    (h1 : I1 sels) (h2 : I2 n sels) (hc : ∀ x ∈ sels, c ≤ x.from_) (hcn : c ≤ n) :
    c + lenSum sels ≤ n := by
  induction sels generalizing c with
  | nil => simpa [lenSum] using hcn
  | cons s rest ih =>
    have hs := h2 s (by simp)
    have hcs := hc s (by simp)
    have := ih (s.from_ + s.len) (I1_tail s rest h1)
      (fun iv hiv => h2 iv (List.mem_cons_of_mem _ hiv)) (I1_head_le s rest h1) hs
    simp only [lenSum]
    omega

theorem changeNewlen_lt (t : Nat) (sels : List Intval) (x : Nat) (hx : x < SIZE_MOD) :
    changeNewlen t sels x < SIZE_MOD := by
  induction sels generalizing x with
  | nil => simpa [changeNewlen] using hx
  | cons s rest ih =>
    rw [changeNewlen]
    apply ih
    simp only [szadd, SIZE_MOD]
    omega

theorem changeNewlen_mod (t : Nat) (sels : List Intval) (x : Nat) :
    (changeNewlen t sels x + lenSum sels) % SIZE_MOD = (x + sels.length * t) % SIZE_MOD := by
  induction sels generalizing x with
  | nil => simp [changeNewlen, lenSum]
  | cons s rest ih =>
    have h := ih (szadd x (szsub t s.len))
    rw [changeNewlen, lenSum, List.length_cons, Nat.succ_mul]
    generalize changeNewlen t rest (szadd x (szsub t s.len)) = v at h ⊢
    generalize rest.length * t = K at h ⊢
    generalize lenSum rest = S at h ⊢
    simp only [szadd, szsub, SIZE_MOD] at h ⊢
    omega

theorem slice_all (B : List Byte) (c n : Nat) (hB : B.length = n) :
    slice B c (n - c) = B.drop c := by
  rw [slice, List.take_of_length_le]
  rw [List.length_drop]; omega

theorem slice_arg (R : List Byte) : slice R 0 R.length = R := by
  simp [slice]

theorem copyLoop_spec (B R : List Byte) (n : Nat) (hB : B.length = n) (hn : n < SIZE_MOD)
    (sels : List Intval) (iold inew : Nat) (nb : List Byte)
    (h1 : I1 sels) (h2 : I2 n sels) (hc : ∀ x ∈ sels, iold ≤ x.from_) (hcn : iold ≤ n)
    (hT : inew + (n - iold) + sels.length * R.length < SIZE_MOD + lenSum sels) :
    (copyLoop B R R.length sels iold inew nb).2.2 ++ B.drop (copyLoop B R R.length sels iold inew nb).1
        = nb ++ rewriteSeg B R n iold sels ∧
      (copyLoop B R R.length sels iold inew nb).1 ≤ n ∧
      (copyLoop B R R.length sels iold inew nb).2.1
          + (n - (copyLoop B R R.length sels iold inew nb).1) + lenSum sels
        = inew + (n - iold) + sels.length * R.length := by
  induction sels generalizing iold inew nb with
  | nil =>
    simp only [copyLoop, rewriteSeg, lenSum, List.length_nil]
    rw [slice_all B iold n hB]
    exact ⟨rfl, hcn, by omega⟩
  | cons s rest ih =>
    have hs := h2 s (by simp)
    have hcs := hc s (by simp)
    have hrest := lenSum_le n rest (s.from_ + s.len) (I1_tail s rest h1)
      (fun iv hiv => h2 iv (List.mem_cons_of_mem _ hiv)) (I1_head_le s rest h1) hs
    rw [List.length_cons, Nat.succ_mul, lenSum] at hT
    have e1 : szsub s.from_ iold = s.from_ - iold := szsub_eq hcs (by omega)
    have e2 : szadd inew (s.from_ - iold) = inew + (s.from_ - iold) := szadd_eq (by omega)
    have e3 : szadd s.from_ s.len = s.from_ + s.len := szadd_eq (by omega)
    have e4 : szadd (inew + (s.from_ - iold)) R.length = inew + (s.from_ - iold) + R.length :=
      szadd_eq (by omega)
    have key : copyLoop B R R.length (s :: rest) iold inew nb
        = copyLoop B R R.length rest (s.from_ + s.len) (inew + (s.from_ - iold) + R.length)
            (nb ++ slice B iold (s.from_ - iold) ++ R) := by
      by_cases hlt : iold < s.from_
      · rw [copyLoop, if_pos hlt]
        simp only [e1, e2, e3, e4, memcpy, slice_arg]
      · have heq : iold = s.from_ := by omega
        have e5 : szadd iold s.len = s.from_ + s.len := by rw [heq]; exact e3
        have e6 : szadd inew R.length = inew + (s.from_ - iold) + R.length := by
          rw [szadd_eq (by omega)]; omega
        have e7 : slice B iold (s.from_ - iold) = [] := by
          rw [heq, Nat.sub_self]; simp [slice]
        rw [copyLoop, if_neg hlt]
        simp only [e5, e6, e7, memcpy, slice_arg, List.append_nil]
    have hih := ih (s.from_ + s.len) (inew + (s.from_ - iold) + R.length)
      (nb ++ slice B iold (s.from_ - iold) ++ R) (I1_tail s rest h1)
      (fun iv hiv => h2 iv (List.mem_cons_of_mem _ hiv)) (I1_head_le s rest h1) hs (by omega)
    rw [key, List.length_cons, Nat.succ_mul, lenSum]
    refine ⟨?_, hih.2.1, ?_⟩
    · rw [hih.1, rewriteSeg]
      simp only [List.append_assoc]
    · have := hih.2.2
      omega

theorem rewriteSeg_length (B R : List Byte) (n : Nat) (hB : n ≤ B.length)
    (sels : List Intval) (c : Nat)
    (h1 : I1 sels) (h2 : I2 n sels) (hc : ∀ x ∈ sels, c ≤ x.from_) (hcn : c ≤ n) :
    (rewriteSeg B R n c sels).length + lenSum sels = (n - c) + sels.length * R.length := by
  induction sels generalizing c with
  | nil =>
    simp only [rewriteSeg, lenSum, slice, List.length_take, List.length_drop, List.length_nil]
    omega
  | cons s rest ih =>
    have hs := h2 s (by simp)
    have hcs := hc s (by simp)
    have hih := ih (s.from_ + s.len) (I1_tail s rest h1)
      (fun iv hiv => h2 iv (List.mem_cons_of_mem _ hiv)) (I1_head_le s rest h1) hs
    have hsl : (slice B c (s.from_ - c)).length = s.from_ - c := by
      simp only [slice, List.length_take, List.length_drop]; omega
    rw [rewriteSeg, lenSum, List.length_cons, Nat.succ_mul, List.length_append,
      List.length_append, hsl]
    omega

/-! ### The bytes outside the selections -/

theorem outsideFrom_nil (i : Nat) (bs : List Byte) : outsideFrom [] i bs = bs := by
  induction bs generalizing i with
  | nil => rfl
  | cons b bs ih => simp [outsideFrom, covered, ih]

theorem covered_cons (s : Intval) (T : List Intval) (i : Nat) :
    covered (s :: T) i = ((decide (s.from_ ≤ i) && decide (i < s.from_ + s.len)) || covered T i) := by
  simp [covered]

theorem covered_false_of_lt (T : List Intval) (j : Nat) (h : ∀ x ∈ T, j < x.from_) :
    covered T j = false := by
  induction T with
  | nil => rfl
  | cons s T ih =>
    have hs := h s (by simp)
    rw [covered_cons, ih (fun x hx => h x (List.mem_cons_of_mem _ hx))]
    simp only [Bool.or_false, Bool.and_eq_false_imp, decide_eq_true_eq, decide_eq_false_iff_not]
    omega

theorem outsideFrom_keep (T : List Intval) (xs ys : List Byte) (i : Nat)
    (h : ∀ j, i ≤ j → j < i + xs.length → covered T j = false) :
    outsideFrom T i (xs ++ ys) = xs ++ outsideFrom T (i + xs.length) ys := by
  induction xs generalizing i with
  | nil => rfl
  | cons x xs ih =>
    have h0 := h i (Nat.le_refl _) (by simp)
    have := ih (i + 1) (fun j hj1 hj2 => h j (by omega) (by simp only [List.length_cons]; omega))
    have e : i + 1 + xs.length = i + (xs.length + 1) := by omega
    rw [List.cons_append, outsideFrom, h0, this, e]
    rfl

theorem outsideFrom_skip (T : List Intval) (xs ys : List Byte) (i : Nat)
    (h : ∀ j, i ≤ j → j < i + xs.length → covered T j = true) :
    outsideFrom T i (xs ++ ys) = outsideFrom T (i + xs.length) ys := by
  induction xs generalizing i with
  | nil => rfl
  | cons x xs ih =>
    have h0 := h i (Nat.le_refl _) (by simp)
    have := ih (i + 1) (fun j hj1 hj2 => h j (by omega) (by simp only [List.length_cons]; omega))
    have e : i + 1 + xs.length = i + (xs.length + 1) := by omega
    rw [List.cons_append, outsideFrom, h0, this, e]
    rfl

theorem outsideFrom_drop_head (s : Intval) (T : List Intval) (bs : List Byte) (i : Nat)
    (h : s.from_ + s.len ≤ i) : outsideFrom (s :: T) i bs = outsideFrom T i bs := by
  induction bs generalizing i with
  | nil => rfl
  | cons b bs ih =>
    have hc : covered (s :: T) i = covered T i := by
      rw [covered_cons]
      have : decide (i < s.from_ + s.len) = false := by
        simp only [decide_eq_false_iff_not]; omega
      rw [this]; simp
    simp only [outsideFrom, hc, ih (i + 1) (by omega)]

theorem drop_eq_slice_append (B : List Byte) (c d : Nat) (hcd : c ≤ d) :
    B.drop c = slice B c (d - c) ++ B.drop d := by
  have h := (List.take_append_drop (d - c) (B.drop c)).symm
  rw [List.drop_drop] at h
  have e : c + (d - c) = d := by omega
  rw [e] at h
  exact h

theorem slice_length (B : List Byte) (c k : Nat) (h : c + k ≤ B.length) :
    (slice B c k).length = k := by
  simp only [slice, List.length_take, List.length_drop]; omega

/-- Deleting every target is keeping the bytes outside the targets. -/
theorem rewriteSeg_nil_eq_outside (B : List Byte) (n : Nat) (hB : B.length = n)
    (sels : List Intval) (c : Nat)
    (h1 : I1 sels) (h2 : I2 n sels) (hc : ∀ x ∈ sels, c ≤ x.from_) (hcn : c ≤ n) :
    rewriteSeg B [] n c sels = outsideFrom sels c (B.drop c) := by
  induction sels generalizing c with
  | nil => rw [rewriteSeg, outsideFrom_nil, slice_all B c n hB]
  | cons s rest ih =>
    have hs := h2 s (by simp)
    have hcs := hc s (by simp)
    have hge := I1_head_le s rest h1
    have hih := ih (s.from_ + s.len) (I1_tail s rest h1)
      (fun iv hiv => h2 iv (List.mem_cons_of_mem _ hiv)) hge hs
    have hsplit : B.drop c
        = slice B c (s.from_ - c) ++ (slice B s.from_ s.len ++ B.drop (s.from_ + s.len)) := by
      rw [drop_eq_slice_append B c s.from_ hcs,
        drop_eq_slice_append B s.from_ (s.from_ + s.len) (by omega)]
      simp
    have hl1 : (slice B c (s.from_ - c)).length = s.from_ - c :=
      slice_length B c _ (by omega)
    have hl2 : (slice B s.from_ s.len).length = s.len := slice_length B _ _ (by omega)
    have e : c + (s.from_ - c) + s.len = s.from_ + s.len := by omega
    rw [hsplit, outsideFrom_keep, outsideFrom_skip, hl1, hl2, e, outsideFrom_drop_head, ← hih,
      rewriteSeg]
    · simp
    · omega
    · intro j hj1 hj2
      rw [hl1] at hj1
      rw [hl1, hl2] at hj2
      rw [covered_cons]
      have a1 : decide (s.from_ ≤ j) = true := by simp only [decide_eq_true_eq]; omega
      have a2 : decide (j < s.from_ + s.len) = true := by simp only [decide_eq_true_eq]; omega
      rw [a1, a2]; rfl
    · intro j hj1 hj2
      rw [hl1] at hj2
      apply covered_false_of_lt
      intro x hx
      rcases List.mem_cons.mp hx with rfl | hx
      · omega
      · have := hge x hx
        omega

/-! ### C4: `cmd_change` and `cmd_delete` -/

/-- The buffer and the length that `cmd_change` computes, for well-formed
selections, when the new buffer fits a `size_t`. -/
theorem cmd_change_buffer (st : State) (cmd : Cmd)
    (hlen : st.buffer.length = st.buflen) (h1 : I1 st.sels) (h2 : I2 st.buflen st.sels)
    (hfit : st.buflen < SIZE_MOD)
    (hnew : st.buflen - lenSum st.sels + st.sels.length * arglen (cmd.arg 0) < SIZE_MOD) :
    (cmd_change st cmd).buffer = rewriteSpec st.buffer st.sels (argbytes (cmd.arg 0)) ∧
      (cmd_change st cmd).buflen
        = st.buflen - lenSum st.sels + st.sels.length * arglen (cmd.arg 0) ∧
      (cmd_change st cmd).buffer.length = (cmd_change st cmd).buflen := by
  have hR : arglen (cmd.arg 0) = (argbytes (cmd.arg 0)).length := by
    cases cmd.arg 0 <;> rfl
  have hsum := lenSum_le st.buflen st.sels 0 h1 h2 (fun _ _ => Nat.zero_le _) (Nat.zero_le _)
  have hlt := changeNewlen_lt (arglen (cmd.arg 0)) st.sels st.buflen hfit
  have hmod := changeNewlen_mod (arglen (cmd.arg 0)) st.sels st.buflen
  have hnl : changeNewlen (arglen (cmd.arg 0)) st.sels st.buflen
      = st.buflen - lenSum st.sels + st.sels.length * arglen (cmd.arg 0) := by
    generalize changeNewlen (arglen (cmd.arg 0)) st.sels st.buflen = v at hlt hmod ⊢
    generalize st.sels.length * arglen (cmd.arg 0) = K at hmod hnew ⊢
    simp only [SIZE_MOD] at *
    omega
  have hspeclen := rewriteSeg_length st.buffer (argbytes (cmd.arg 0)) st.buflen (by omega) st.sels 0
    h1 h2 (fun _ _ => Nat.zero_le _) (Nat.zero_le _)
  rw [← hR] at hspeclen
  have hspeclen2 : (rewriteSpec st.buffer st.sels (argbytes (cmd.arg 0))).length
      = st.buflen - lenSum st.sels + st.sels.length * arglen (cmd.arg 0) := by
    rw [rewriteSpec, hlen]; omega
  by_cases h0 : changeNewlen (arglen (cmd.arg 0)) st.sels st.buflen = 0
  · have hnil : rewriteSpec st.buffer st.sels (argbytes (cmd.arg 0)) = [] := by
      apply List.eq_nil_of_length_eq_zero
      rw [hspeclen2, ← hnl, h0]
    have hcc : cmd_change st cmd = cleanupsels { st with buffer := [], buflen := 0 } := by
      simp only [cmd_change, h0, if_true]
    rw [hcc, hnil, ← hnl, h0]
    exact ⟨rfl, rfl, rfl⟩
  · have hcopy := copyLoop_spec st.buffer (argbytes (cmd.arg 0)) st.buflen hlen hfit st.sels 0 0 []
      h1 h2 (fun _ _ => Nat.zero_le _) (Nat.zero_le _) (by rw [← hR]; omega)
    rw [← hR] at hcopy
    have hbuf : copyTail st.buffer st.buflen
          (changeNewlen (arglen (cmd.arg 0)) st.sels st.buflen)
          (copyLoop st.buffer (argbytes (cmd.arg 0)) (arglen (cmd.arg 0)) st.sels 0 0 [])
        = rewriteSpec st.buffer st.sels (argbytes (cmd.arg 0)) := by
      obtain ⟨c1, c2, c3⟩ := hcopy
      generalize copyLoop st.buffer (argbytes (cmd.arg 0)) (arglen (cmd.arg 0)) st.sels 0 0 []
        = r at c1 c2 c3 ⊢
      rw [List.nil_append] at c1
      rw [rewriteSpec, hlen, ← c1, copyTail]
      by_cases hi : r.2.1 < changeNewlen (arglen (cmd.arg 0)) st.sels st.buflen
      · rw [if_pos hi, memcpy, szsub_eq c2 hfit, slice_all st.buffer r.1 st.buflen hlen]
      · rw [if_neg hi]
        have : st.buffer.drop r.1 = [] := by
          apply List.drop_eq_nil_of_le
          rw [hnl] at hi
          omega
        rw [this, List.append_nil]
    have hcc : cmd_change st cmd
        = { st with
            buffer := copyTail st.buffer st.buflen
              (changeNewlen (arglen (cmd.arg 0)) st.sels st.buflen)
              (copyLoop st.buffer (argbytes (cmd.arg 0)) (arglen (cmd.arg 0)) st.sels 0 0 []),
            buflen := changeNewlen (arglen (cmd.arg 0)) st.sels st.buflen,
            sels := addintv 0 (changeNewlen (arglen (cmd.arg 0)) st.sels st.buflen) [],
            lastsel := some ⟨0, changeNewlen (arglen (cmd.arg 0)) st.sels st.buflen⟩ } := by
      simp only [cmd_change, h0, if_false]
    rw [hcc, hbuf]
    exact ⟨rfl, hnl, by rw [hspeclen2, hnl]⟩

/-- C4: for a buffer of length `n`, selections satisfying I1 and I2 and a
string `str` such that the new buffer fits a `size_t`, `c/str/` produces the
buffer of the rewriting protocol (walk the targets in order, copy the bytes in
between, emit `str` once per target, copy the tail), of length
`n - Σ len + |T| * len(str)`; and `d` followed by `p` writes exactly the bytes
of the old buffer that lie outside every selection, in order. -/
theorem cmd_change_rewrites (st : State) (cmd : Cmd)
    (hlen : st.buffer.length = st.buflen) (h1 : I1 st.sels) (h2 : I2 st.buflen st.sels)
    (hfit : st.buflen < SIZE_MOD)
    (hnew : st.buflen - lenSum st.sels + st.sels.length * arglen (cmd.arg 0) < SIZE_MOD) :
    (cmd_change st cmd).buffer = rewriteSpec st.buffer st.sels (argbytes (cmd.arg 0)) ∧
      (cmd_change st cmd).buflen
        = st.buflen - lenSum st.sels + st.sels.length * arglen (cmd.arg 0) ∧
      (cmd_change st cmd).buffer.length = (cmd_change st cmd).buflen ∧
      (cmd_print (cmd_delete st)).out = st.out ++ outsideBytes st.buffer st.sels := by
  obtain ⟨c1, c2, c3⟩ := cmd_change_buffer st cmd hlen h1 h2 hfit hnew
  refine ⟨c1, c2, c3, ?_⟩
  have hd : st.buflen - lenSum st.sels
      + st.sels.length * arglen (Cmd.arg ⟨CmdId.CMD_CHANGE, [some []], none⟩ 0) < SIZE_MOD := by
    have : arglen (Cmd.arg ⟨CmdId.CMD_CHANGE, [some []], none⟩ 0) = 0 := rfl
    rw [this]; omega
  obtain ⟨d1, d2, d3⟩ := cmd_change_buffer st ⟨CmdId.CMD_CHANGE, [some []], none⟩ hlen h1 h2 hfit hd
  have hargs : argbytes (Cmd.arg ⟨CmdId.CMD_CHANGE, [some []], none⟩ 0) = [] := rfl
  rw [hargs] at d1
  have hout : outsideBytes st.buffer st.sels = (cmd_delete st).buffer := by
    rw [cmd_delete, d1, rewriteSpec, hlen, outsideBytes,
      rewriteSeg_nil_eq_outside st.buffer st.buflen hlen st.sels 0 h1 h2
        (fun _ _ => Nat.zero_le _) (Nat.zero_le _)]
    rfl
  rw [hout]
  have hsels : (cmd_delete st).sels = [] ∧ (cmd_delete st).buffer = [] ∨
      (cmd_delete st).sels = [⟨0, (cmd_delete st).buflen⟩] := by
    unfold cmd_delete cmd_change
    by_cases h0 : changeNewlen (arglen (Cmd.arg ⟨CmdId.CMD_CHANGE, [some []], none⟩ 0))
        st.sels st.buflen = 0
    · left; simp only [h0, if_true, cleanupsels, and_self]
    · right; simp only [h0, if_false, addintv, List.nil_append]
  have hout0 : (cmd_delete st).out = st.out := by
    unfold cmd_delete cmd_change
    by_cases h0 : changeNewlen (arglen (Cmd.arg ⟨CmdId.CMD_CHANGE, [some []], none⟩ 0))
        st.sels st.buflen = 0
    · simp only [h0, if_true, cleanupsels]
    · simp only [h0, if_false]
  rcases hsels with ⟨hs, hb⟩ | hs
  · simp only [cmd_print, hs, hb, List.foldl_nil, hout0, List.append_nil]
  · have d3' : (cmd_delete st).buffer.length = (cmd_delete st).buflen := d3
    simp only [cmd_print, hs, List.foldl_cons, List.foldl_nil, hout0, slice, List.drop_zero]
    rw [List.take_of_length_le (by omega)]

/-- C4 at the buffer `"abcdef"` with the selections `(1, 2)`, `(3, 0)` and
`(4, 1)` and the string `"XY"`: the new buffer is `"aXYXYdXYf"`. -/
theorem cmd_change_rewrites_witness :
    (cmd_change ⟨[97, 98, 99, 100, 101, 102], 6, [⟨1, 2⟩, ⟨3, 0⟩, ⟨4, 1⟩], some ⟨4, 1⟩, []⟩
        ⟨CmdId.CMD_CHANGE, [some [88, 89]], none⟩).buffer
      = [97, 88, 89, 88, 89, 100, 88, 89, 102] ∧
    (cmd_print (cmd_delete
        ⟨[97, 98, 99, 100, 101, 102], 6, [⟨1, 2⟩, ⟨3, 0⟩, ⟨4, 1⟩], some ⟨4, 1⟩, []⟩)).out
      = [97, 100, 102] := by
  have h := cmd_change_rewrites
    ⟨[97, 98, 99, 100, 101, 102], 6, [⟨1, 2⟩, ⟨3, 0⟩, ⟨4, 1⟩], some ⟨4, 1⟩, []⟩
    ⟨CmdId.CMD_CHANGE, [some [88, 89]], none⟩ (by decide) (by decide) (by decide) (by decide)
    (by decide)
  exact ⟨h.1.trans (by decide), h.2.2.2.trans (by decide)⟩

/-! ### C8: `i`, `a` and `S` as substitutions -/

theorem subMatch_anchor (fuel : Nat) (pat : List Byte) (hpat : pat = PAT_START ∨ pat = PAT_END)
    (str : Option (List Byte)) (re1 re2 : Option Regex) (B : List Byte) (sel : Intval)
    (acc : List Intval) :
    subMatch fuel ⟨CmdId.CMD_SUB, [some pat, str], re1⟩ B sel acc
      = subMatch fuel ⟨CmdId.CMD_SUB, [some pat, str], re2⟩ B sel acc := by
  have hne : PAT_END ≠ PAT_START := by decide
  rcases hpat with rfl | rfl
  · simp [subMatch, Cmd.arg]
  · simp [subMatch, Cmd.arg, hne]

theorem subSels_anchor (fuel : Nat) (pat : List Byte) (hpat : pat = PAT_START ∨ pat = PAT_END)
    (str : Option (List Byte)) (re1 re2 : Option Regex) (B : List Byte) (t : Nat)
    (sels : List Intval) (s0 : SubState) :
    subSels fuel ⟨CmdId.CMD_SUB, [some pat, str], re1⟩ B t sels s0
      = subSels fuel ⟨CmdId.CMD_SUB, [some pat, str], re2⟩ B t sels s0 := by
  induction sels generalizing s0 with
  | nil => rfl
  | cons sel rest ih =>
    rw [subSels, subSels, subMatch_anchor fuel pat hpat str re1 re2]
    cases subMatch fuel ⟨CmdId.CMD_SUB, [some pat, str], re2⟩ B sel s0.matchintvs with
    | none => rfl
    | some acc => exact ih _

/-- For the patterns `^` and `$` the result of `cmd_sub` does not depend on
the regex of the command, compiled or `NULL`. -/
theorem cmd_sub_anchor (fuel : Nat) (st : State) (pat : List Byte)
    (hpat : pat = PAT_START ∨ pat = PAT_END) (str : Option (List Byte))
    (re1 re2 : Option Regex) :
    cmd_sub fuel st ⟨CmdId.CMD_SUB, [some pat, str], re1⟩
      = cmd_sub fuel st ⟨CmdId.CMD_SUB, [some pat, str], re2⟩ := by
  have hc : ∀ re : Option Regex, ¬ (re.isNone ∧
      (Cmd.arg ⟨CmdId.CMD_SUB, [some pat, str], re⟩ 0 = none ∨
        (Cmd.arg ⟨CmdId.CMD_SUB, [some pat, str], re⟩ 0 ≠ some PAT_START ∧
          Cmd.arg ⟨CmdId.CMD_SUB, [some pat, str], re⟩ 0 ≠ some PAT_END))) := by
    intro re
    rcases hpat with rfl | rfl <;> simp [Cmd.arg]
  have ha : ∀ re : Option Regex, Cmd.arg ⟨CmdId.CMD_SUB, [some pat, str], re⟩ 1 = str := by
    intro re; cases str <;> rfl
  unfold cmd_sub
  rw [if_neg (hc re1), if_neg (hc re2), ha re1, ha re2,
    subSels_anchor fuel pat hpat str re1 re2]

theorem subSels_anchor_some (fuel : Nat) (pat : List Byte)
    (hpat : pat = PAT_START ∨ pat = PAT_END) (str : Option (List Byte)) (re : Option Regex)
    (B : List Byte) (t : Nat) (sels : List Intval) (s0 : SubState) :
    ∃ s, subSels fuel ⟨CmdId.CMD_SUB, [some pat, str], re⟩ B t sels s0 = some s := by
  have hne : PAT_END ≠ PAT_START := by decide
  induction sels generalizing s0 with
  | nil => exact ⟨s0, rfl⟩
  | cons sel rest ih =>
    rcases hpat with rfl | rfl
    · have hm : subMatch fuel ⟨CmdId.CMD_SUB, [some PAT_START, str], re⟩ B sel s0.matchintvs
          = some ⟨addintv sel.from_ 0 s0.matchintvs, 1, 0⟩ := by
        simp [subMatch, Cmd.arg]
      rw [subSels, hm]
      exact ih _
    · have hm : subMatch fuel ⟨CmdId.CMD_SUB, [some PAT_END, str], re⟩ B sel s0.matchintvs
          = some ⟨addintv (szadd sel.from_ sel.len) 0 s0.matchintvs, 1, 0⟩ := by
        simp [subMatch, Cmd.arg, hne]
      rw [subSels, hm]
      exact ih _

/-- For the patterns `^` and `$` the command `cmd_sub` returns a state, for
every state it is given. -/
theorem cmd_sub_anchor_some (fuel : Nat) (st : State) (pat : List Byte)
    (hpat : pat = PAT_START ∨ pat = PAT_END) (str : Option (List Byte)) (re : Option Regex) :
    ∃ st', cmd_sub fuel st ⟨CmdId.CMD_SUB, [some pat, str], re⟩ = some st' := by
  obtain ⟨s, hs⟩ := subSels_anchor_some fuel pat hpat str re st.buffer
    (arglen (Cmd.arg ⟨CmdId.CMD_SUB, [some pat, str], re⟩ 1)) st.sels ⟨[], 0, 0, 0, []⟩
  unfold cmd_sub
  simp only [hs]
  split
  · exact ⟨_, rfl⟩
  · split
    · exact ⟨_, rfl⟩
    · exact ⟨_, rfl⟩

/-- C8: for every buffer, selection list and strings `pre`, `suf` (absent
arguments included), `i/pre/` returns a state, the one that `s/^/pre/`
returns, `a/suf/` returns a state, the one that `s/$/suf/` returns, whatever
the compiled regex of the `s` command is, and `S/pre/suf/` returns the state
of `i/pre/` followed by `a/suf/`. -/
theorem insert_append_surround_as_sub (fuel : Nat) (st : State)
    (pre suf : Option (List Byte)) (re : Regex) :
    (∃ st', cmd_insert fuel st ⟨CmdId.CMD_INSERT, [pre], none⟩ = some st' ∧
        cmd_sub fuel st ⟨CmdId.CMD_SUB, [some PAT_START, pre], some re⟩ = some st') ∧
      (∃ st', cmd_append fuel st ⟨CmdId.CMD_APPEND, [suf], none⟩ = some st' ∧
        cmd_sub fuel st ⟨CmdId.CMD_SUB, [some PAT_END, suf], some re⟩ = some st') ∧
      (∃ st1 st2, cmd_insert fuel st ⟨CmdId.CMD_INSERT, [pre], none⟩ = some st1 ∧
        cmd_append fuel st1 ⟨CmdId.CMD_APPEND, [suf], none⟩ = some st2 ∧
        cmd_surround fuel st ⟨CmdId.CMD_SURROUND, [pre, suf], none⟩ = some st2) := by
  have hp : Cmd.arg ⟨CmdId.CMD_INSERT, [pre], none⟩ 0 = pre := by cases pre <;> rfl
  have hs : Cmd.arg ⟨CmdId.CMD_APPEND, [suf], none⟩ 0 = suf := by cases suf <;> rfl
  have hp2 : Cmd.arg ⟨CmdId.CMD_SURROUND, [pre, suf], none⟩ 0 = pre := by cases pre <;> rfl
  have hs2 : Cmd.arg ⟨CmdId.CMD_SURROUND, [pre, suf], none⟩ 1 = suf := by cases suf <;> rfl
  refine ⟨?_, ?_, ?_⟩
  · obtain ⟨st', h⟩ := cmd_sub_anchor_some fuel st PAT_START (Or.inl rfl) pre (some re)
    refine ⟨st', ?_, h⟩
    rw [cmd_insert, hp, cmd_sub_anchor fuel st PAT_START (Or.inl rfl) pre none (some re)]
    exact h
  · obtain ⟨st', h⟩ := cmd_sub_anchor_some fuel st PAT_END (Or.inr rfl) suf (some re)
    refine ⟨st', ?_, h⟩
    rw [cmd_append, hs, cmd_sub_anchor fuel st PAT_END (Or.inr rfl) suf none (some re)]
    exact h
  · obtain ⟨st1, h1⟩ := cmd_sub_anchor_some fuel st PAT_START (Or.inl rfl) pre none
    obtain ⟨st2, h2⟩ := cmd_sub_anchor_some fuel st1 PAT_END (Or.inr rfl) suf none
    have e1 : cmd_insert fuel st ⟨CmdId.CMD_INSERT, [pre], none⟩ = some st1 := by
      rw [cmd_insert, hp]; exact h1
    have e2 : cmd_append fuel st1 ⟨CmdId.CMD_APPEND, [suf], none⟩ = some st2 := by
      rw [cmd_append, hs]; exact h2
    refine ⟨st1, st2, e1, e2, ?_⟩
    rw [cmd_surround, hp2, hs2, e1, Option.some_bind, e2]

/-! ### The structure of a rewritten buffer -/

theorem slice_split (B : List Byte) (c e f : Nat) (hce : c ≤ e) (hef : e ≤ f) :
    slice B c (f - c) = slice B c (e - c) ++ slice B e (f - e) := by
  have h : f - c = (e - c) + (f - e) := by omega
  have e2 : c + (e - c) = e := by omega
  rw [slice, slice, slice, h, List.take_add, List.drop_drop, e2]

theorem rewriteSeg_advance (B R : List Byte) (stop c e : Nat) (ms : List Intval)
    (hce : c ≤ e) (hes : e ≤ stop) (hms : ∀ m ∈ ms, e ≤ m.from_) :
    rewriteSeg B R stop c ms = slice B c (e - c) ++ rewriteSeg B R stop e ms := by
  cases ms with
  | nil => rw [rewriteSeg, rewriteSeg, slice_split B c e stop hce hes]
  | cons m rest =>
    have hm := hms m (by simp)
    rw [rewriteSeg, rewriteSeg, slice_split B c e m.from_ hce hm]
    simp only [List.append_assoc]

theorem rewriteSeg_append (B R : List Byte) (stop e : Nat) (ms rest : List Intval) (c : Nat)
    (h1 : I1 ms) (h2 : I2 e ms) (hc : ∀ m ∈ ms, c ≤ m.from_) (hce : c ≤ e) (hes : e ≤ stop)
    (hrest : ∀ m ∈ rest, e ≤ m.from_) :
    rewriteSeg B R stop c (ms ++ rest) = rewriteSeg B R e c ms ++ rewriteSeg B R stop e rest := by
  induction ms generalizing c with
  | nil =>
    rw [List.nil_append, rewriteSeg]
    exact rewriteSeg_advance B R stop c e rest hce hes hrest
  | cons m ms ih =>
    have hm := h2 m (by simp)
    have hih := ih (m.from_ + m.len) (I1_tail m ms h1)
      (fun iv hiv => h2 iv (List.mem_cons_of_mem _ hiv)) (I1_head_le m ms h1) hm
    rw [List.cons_append, rewriteSeg, rewriteSeg, hih]
    simp only [List.append_assoc]

theorem lenSum_append (xs ys : List Intval) : lenSum (xs ++ ys) = lenSum xs + lenSum ys := by
  induction xs with
  | nil => simp [lenSum]
  | cons x xs ih => rw [List.cons_append, lenSum, lenSum, ih]; omega

theorem within_lenSum_le (s : Intval) (ms : List Intval) (h : Within s ms) :
    lenSum ms ≤ s.len := by
  have hI2 : I2 (s.from_ + s.len) ms := fun m hm => (h.2 m hm).2
  have := lenSum_le (s.from_ + s.len) ms s.from_ h.1 hI2 (fun m hm => (h.2 m hm).1) (by omega)
  omega

/-- The part of the rewritten buffer that belongs to the first selection. -/
theorem rewriteSeg_bind_cons (B R : List Byte) (n : Nat) (M : Intval → List Intval)
    (s : Intval) (rest : List Intval) (c : Nat)
    (h1 : I1 (s :: rest)) (h2 : I2 n (s :: rest)) (hc : c ≤ s.from_)
    (hW : ∀ x ∈ s :: rest, Within x (M x)) :
    rewriteSeg B R n c ((s :: rest).flatMap M)
      = slice B c (s.from_ - c) ++ rewriteSeg B R (s.from_ + s.len) s.from_ (M s)
          ++ rewriteSeg B R n (s.from_ + s.len) (rest.flatMap M) := by
  have hs := h2 s (by simp)
  have hWs := hW s (by simp)
  have hge := I1_head_le s rest h1
  have hrest : ∀ m ∈ rest.flatMap M, s.from_ + s.len ≤ m.from_ := by
    intro m hm
    obtain ⟨x, hx, hmx⟩ := List.mem_flatMap.mp hm
    have a1 := hge x hx
    have a2 := ((hW x (List.mem_cons_of_mem _ hx)).2 m hmx).1
    omega
  have hall : ∀ m ∈ (s :: rest).flatMap M, s.from_ ≤ m.from_ := by
    intro m hm
    rw [List.flatMap_cons, List.mem_append] at hm
    rcases hm with hm | hm
    · exact (hWs.2 m hm).1
    · have := hrest m hm; omega
  rw [rewriteSeg_advance B R n c s.from_ _ hc (by omega) hall, List.flatMap_cons,
    rewriteSeg_append B R n (s.from_ + s.len) (M s) (rest.flatMap M) s.from_ hWs.1
      (fun m hm => (hWs.2 m hm).2) (fun m hm => (hWs.2 m hm).1) (by omega) hs hrest]
  simp only [List.append_assoc]

theorem slice_append_mid (X Y Z : List Byte) : slice (X ++ Y ++ Z) X.length Y.length = Y := by
  simp [slice]

theorem txt_length (B R : List Byte) (n : Nat) (hB : n ≤ B.length) (s : Intval)
    (ms : List Intval) (hs : s.from_ + s.len ≤ n) (hW : Within s ms) :
    (rewriteSeg B R (s.from_ + s.len) s.from_ ms).length
      = s.len - lenSum ms + ms.length * R.length := by
  have := rewriteSeg_length B R (s.from_ + s.len) (by omega) ms s.from_ hW.1
    (fun m hm => (hW.2 m hm).2) (fun m hm => (hW.2 m hm).1) (by omega)
  have := within_lenSum_le s ms hW
  omega

/-- After the rewriting, the text of every selection is its old text with its
own matches replaced. -/
theorem selTexts_shift (B R : List Byte) (n : Nat) (hB : n ≤ B.length)
    (M : Intval → List Intval) (sels : List Intval) (c : Nat) (P : List Byte)
    (h1 : I1 sels) (h2 : I2 n sels) (hc : ∀ x ∈ sels, c ≤ x.from_)
    (hW : ∀ x ∈ sels, Within x (M x)) :
    selTexts (P ++ rewriteSeg B R n c (sels.flatMap M)) (shiftSels R.length M c P.length sels)
      = sels.map (fun s => rewriteSeg B R (s.from_ + s.len) s.from_ (M s)) := by
  induction sels generalizing c P with
  | nil => rfl
  | cons s rest ih =>
    have hs := h2 s (by simp)
    have hcs := hc s (by simp)
    have hl1 : (slice B c (s.from_ - c)).length = s.from_ - c :=
      slice_length B c _ (by omega)
    have hl2 := txt_length B R n hB s (M s) hs (hW s (by simp))
    have hP : (P ++ slice B c (s.from_ - c)).length = P.length + (s.from_ - c) := by
      rw [List.length_append, hl1]
    have hP2 : (P ++ slice B c (s.from_ - c)
        ++ rewriteSeg B R (s.from_ + s.len) s.from_ (M s)).length
        = P.length + (s.from_ - c) + (s.len - lenSum (M s) + (M s).length * R.length) := by
      rw [List.length_append, hP, hl2]
    have hih := ih (s.from_ + s.len)
      (P ++ slice B c (s.from_ - c) ++ rewriteSeg B R (s.from_ + s.len) s.from_ (M s))
      (I1_tail s rest h1) (fun iv hiv => h2 iv (List.mem_cons_of_mem _ hiv))
      (I1_head_le s rest h1) (fun x hx => hW x (List.mem_cons_of_mem _ hx))
    rw [hP2] at hih
    have hbuf : P ++ rewriteSeg B R n c ((s :: rest).flatMap M)
        = P ++ slice B c (s.from_ - c) ++ rewriteSeg B R (s.from_ + s.len) s.from_ (M s)
            ++ rewriteSeg B R n (s.from_ + s.len) (rest.flatMap M) := by
      rw [rewriteSeg_bind_cons B R n M s rest c h1 h2 hcs hW]
      simp only [List.append_assoc]
    rw [shiftSels, selTexts, List.map_cons, List.map_cons, hbuf]
    have hhead := slice_append_mid (P ++ slice B c (s.from_ - c))
      (rewriteSeg B R (s.from_ + s.len) s.from_ (M s))
      (rewriteSeg B R n (s.from_ + s.len) (rest.flatMap M))
    rw [hP, hl2] at hhead
    rw [hhead]
    exact congrArg _ hih

theorem shiftSels_from_ge (t : Nat) (M : Intval → List Intval) (sels : List Intval) (c p : Nat) :
    ∀ x ∈ shiftSels t M c p sels, p ≤ x.from_ := by
  induction sels generalizing c p with
  | nil => intro x hx; cases hx
  | cons s rest ih =>
    intro x hx
    rw [shiftSels] at hx
    rcases List.mem_cons.mp hx with rfl | hx
    · simp only; omega
    · have := ih _ _ x hx
      omega

/-- After the rewriting, the bytes outside the selections are the bytes that
were outside the selections before, in the same order. -/
theorem outside_shift (B R : List Byte) (n : Nat) (hB : B.length = n)
    (M : Intval → List Intval) (sels : List Intval) (c p : Nat)
    (h1 : I1 sels) (h2 : I2 n sels) (hc : ∀ x ∈ sels, c ≤ x.from_) (hcn : c ≤ n)
    (hW : ∀ x ∈ sels, Within x (M x)) :
    outsideFrom (shiftSels R.length M c p sels) p (rewriteSeg B R n c (sels.flatMap M))
      = outsideFrom sels c (B.drop c) := by
  rw [← rewriteSeg_nil_eq_outside B n hB sels c h1 h2 hc hcn]
  induction sels generalizing c p with
  | nil =>
    rw [shiftSels, outsideFrom_nil]
    rfl
  | cons s rest ih =>
    have hs := h2 s (by simp)
    have hcs := hc s (by simp)
    have hl1 : (slice B c (s.from_ - c)).length = s.from_ - c :=
      slice_length B c _ (by omega)
    have hl2 := txt_length B R n (by omega) s (M s) hs (hW s (by simp))
    have hih := ih (s.from_ + s.len)
      (p + (s.from_ - c) + (s.len - lenSum (M s) + (M s).length * R.length))
      (I1_tail s rest h1) (fun iv hiv => h2 iv (List.mem_cons_of_mem _ hiv))
      (I1_head_le s rest h1) hs (fun x hx => hW x (List.mem_cons_of_mem _ hx))
    rw [rewriteSeg_bind_cons B R n M s rest c h1 h2 hcs hW, shiftSels, List.append_assoc,
      outsideFrom_keep, outsideFrom_skip, hl1, hl2, outsideFrom_drop_head, hih, rewriteSeg]
    · simp
    · simp only; omega
    · intro j hj1 hj2
      rw [hl1] at hj1
      rw [hl1, hl2] at hj2
      rw [covered_cons]
      have a1 : decide (p + (s.from_ - c) ≤ j) = true := by
        simp only [decide_eq_true_eq]; omega
      have a2 : decide (j < p + (s.from_ - c)
          + (s.len - lenSum (M s) + (M s).length * R.length)) = true := by
        simp only [decide_eq_true_eq]; omega
      simp only [a1, a2, Bool.and_self, Bool.true_or]
    · intro j hj1 hj2
      rw [hl1] at hj2
      apply covered_false_of_lt
      intro x hx
      rcases List.mem_cons.mp hx with rfl | hx
      · simp only; omega
      · have := shiftSels_from_ge _ _ _ _ _ x hx
        omega

/-! ### The two passes of `cmd_sub` -/

theorem I1_append (xs ys : List Intval) (hx : I1 xs) (hy : I1 ys)
    (hxy : ∀ x ∈ xs, ∀ y ∈ ys, x.from_ + x.len ≤ y.from_) : I1 (xs ++ ys) := by
  induction xs with
  | nil => exact hy
  | cons a xs ih =>
    cases xs with
    | nil =>
      cases ys with
      | nil => rfl
      | cons y ys =>
        exact (I1_cons_cons a y ys).mpr ⟨hxy a (by simp) y (by simp), hy⟩
    | cons b r =>
      have hab := (I1_cons_cons a b r).mp hx
      exact (I1_cons_cons a b (r ++ ys)).mpr
        ⟨hab.1, ih hab.2 (fun x hx => hxy x (List.mem_cons_of_mem _ hx))⟩

theorem flatMap_from_ge (M : Intval → List Intval) (s : Intval) (rest : List Intval)
    (h1 : I1 (s :: rest)) (hW : ∀ x ∈ s :: rest, Within x (M x)) :
    ∀ m ∈ rest.flatMap M, s.from_ + s.len ≤ m.from_ := by
  intro m hm
  obtain ⟨x, hx, hmx⟩ := List.mem_flatMap.mp hm
  have a1 := I1_head_le s rest h1 x hx
  have a2 := ((hW x (List.mem_cons_of_mem _ hx)).2 m hmx).1
  omega

theorem I1_flatMap (M : Intval → List Intval) (sels : List Intval)
    (h1 : I1 sels) (hW : ∀ x ∈ sels, Within x (M x)) : I1 (sels.flatMap M) := by
  induction sels with
  | nil => rfl
  | cons s rest ih =>
    rw [List.flatMap_cons]
    apply I1_append _ _ (hW s (by simp)).1
      (ih (I1_tail s rest h1) (fun x hx => hW x (List.mem_cons_of_mem _ hx)))
    intro x hx y hy
    have a1 := ((hW s (by simp)).2 x hx).2
    have a2 := flatMap_from_ge M s rest h1 hW y hy
    omega

theorem I2_flatMap (n : Nat) (M : Intval → List Intval) (sels : List Intval)
    (h2 : I2 n sels) (hW : ∀ x ∈ sels, Within x (M x)) : I2 n (sels.flatMap M) := by
  intro m hm
  obtain ⟨x, hx, hmx⟩ := List.mem_flatMap.mp hm
  have a1 := h2 x hx
  have a2 := ((hW x hx).2 m hmx).2
  omega

theorem flatMap_from_ge_cursor (M : Intval → List Intval) (sels : List Intval) (c : Nat)
    (hc : ∀ x ∈ sels, c ≤ x.from_) (hW : ∀ x ∈ sels, Within x (M x)) :
    ∀ m ∈ sels.flatMap M, c ≤ m.from_ := by
  intro m hm
  obtain ⟨x, hx, hmx⟩ := List.mem_flatMap.mp hm
  have a1 := hc x hx
  have a2 := ((hW x hx).2 m hmx).1
  omega

theorem shift_from (c o p sf : Nat) (hoff : (c + o) % SIZE_MOD = p % SIZE_MOD) (hcs : c ≤ sf)
    (hlt : p + (sf - c) < SIZE_MOD) : szadd sf o = p + (sf - c) := by
  simp only [szadd, SIZE_MOD] at *; omega

theorem shift_len (len L K : Nat) (hL : L ≤ len) (hlt : len - L + K < SIZE_MOD) :
    szadd len (szsub (K % SIZE_MOD) L) = len - L + K := by
  simp only [szadd, szsub, SIZE_MOD] at *; omega

theorem shift_offs (c o p sf len L K : Nat) (hoff : (c + o) % SIZE_MOD = p % SIZE_MOD)
    (hcs : c ≤ sf) (hL : L ≤ len) :
    (sf + len + szadd o (szsub (K % SIZE_MOD) L)) % SIZE_MOD
      = (p + (sf - c) + (len - L + K)) % SIZE_MOD := by
  simp only [szadd, szsub, SIZE_MOD] at *; omega

/-- The first pass of `cmd_sub` when the matches of every selection `sel` are
`M sel`: the matches are collected in order and the selections are shifted. -/
theorem subSels_spec (fuel : Nat) (cmd : Cmd) (B : List Byte) (t n : Nat)
    (M : Intval → List Intval) (sels : List Intval) (s0 : SubState) (c p : Nat)
    (h1 : I1 sels) (h2 : I2 n sels)
    (hc : ∀ x ∈ sels, c ≤ x.from_) (hcn : c ≤ n)
    (hM : ∀ sel ∈ sels, ∀ acc, subMatch fuel cmd B sel acc
      = some ⟨acc ++ M sel, (M sel).length, lenSum (M sel)⟩)
    (hW : ∀ x ∈ sels, Within x (M x))
    (hoff : (c + s0.newseloffs) % SIZE_MOD = p % SIZE_MOD)
    (hcnt : s0.matchcnt + (sels.flatMap M).length < UINT_MOD)
    (hrep : s0.replacedlen + lenSum (sels.flatMap M) < SIZE_MOD)
    (hpos : p + (n - c) + (sels.flatMap M).length * t < SIZE_MOD + lenSum (sels.flatMap M)) :
    ∃ offs, subSels fuel cmd B t sels s0
      = some ⟨s0.matchintvs ++ sels.flatMap M, s0.matchcnt + (sels.flatMap M).length,
          s0.replacedlen + lenSum (sels.flatMap M), offs,
          s0.newsels ++ shiftSels t M c p sels⟩ := by
  induction sels generalizing s0 c p with
  | nil =>
    refine ⟨s0.newseloffs, ?_⟩
    cases s0
    simp [subSels, shiftSels, lenSum]
  | cons s rest ih =>
    have hs := h2 s (by simp)
    have hcs := hc s (by simp)
    have hWs := hW s (by simp)
    have hL := within_lenSum_le s (M s) hWs
    have hW' : ∀ x ∈ rest, Within x (M x) := fun x hx => hW x (List.mem_cons_of_mem _ hx)
    have h2' : I2 n rest := fun iv hiv => h2 iv (List.mem_cons_of_mem _ hiv)
    have hrestsum := lenSum_le n (rest.flatMap M) (s.from_ + s.len)
      (I1_flatMap M rest (I1_tail s rest h1) hW') (I2_flatMap n M rest h2' hW')
      (flatMap_from_ge M s rest h1 hW) hs
    simp only [List.flatMap_cons, List.length_append, lenSum_append, Nat.add_mul]
      at hcnt hrep hpos
    -- the arithmetic of the rewritten selection
    have hb : p + (s.from_ - c) + (s.len - lenSum (M s) + (M s).length * t) < SIZE_MOD := by
      generalize (M s).length * t = K1 at *
      generalize (rest.flatMap M).length * t = K2 at *
      omega
    have eA : szadd s.from_ s0.newseloffs = p + (s.from_ - c) :=
      shift_from c s0.newseloffs p s.from_ hoff hcs (by omega)
    have eB : szadd s.len (szsub (szmul (M s).length t) (lenSum (M s)))
        = s.len - lenSum (M s) + (M s).length * t :=
      shift_len s.len (lenSum (M s)) ((M s).length * t) hL (by omega)
    have eC : (s.from_ + s.len
          + szadd s0.newseloffs (szsub (szmul (M s).length t) (lenSum (M s)))) % SIZE_MOD
        = (p + (s.from_ - c) + (s.len - lenSum (M s) + (M s).length * t)) % SIZE_MOD :=
      shift_offs c s0.newseloffs p s.from_ s.len (lenSum (M s)) ((M s).length * t) hoff hcs hL
    have eD : uadd s0.matchcnt (M s).length = s0.matchcnt + (M s).length := by
      rw [uadd]; exact Nat.mod_eq_of_lt (by omega)
    have eE : szadd s0.replacedlen (lenSum (M s)) = s0.replacedlen + lenSum (M s) :=
      szadd_eq (by omega)
    obtain ⟨offs, hih⟩ := ih
      { matchintvs := s0.matchintvs ++ M s,
        matchcnt := uadd s0.matchcnt (M s).length,
        replacedlen := szadd s0.replacedlen (lenSum (M s)),
        newseloffs := szadd s0.newseloffs (szsub (szmul (M s).length t) (lenSum (M s))),
        newsels := s0.newsels ++ [⟨szadd s.from_ s0.newseloffs,
          szadd s.len (szsub (szmul (M s).length t) (lenSum (M s)))⟩] }
      (s.from_ + s.len) (p + (s.from_ - c) + (s.len - lenSum (M s) + (M s).length * t))
      (I1_tail s rest h1) h2' (I1_head_le s rest h1) hs
      (fun sel hsel => hM sel (List.mem_cons_of_mem _ hsel)) hW' eC
      (by simp only [eD]; omega) (by simp only [eE]; omega)
      (by generalize (M s).length * t = K1 at *
          generalize (rest.flatMap M).length * t = K2 at *
          omega)
    refine ⟨offs, ?_⟩
    rw [subSels, hM s (by simp)]
    simp only
    rw [hih, eA, eB, eD, eE, shiftSels, List.flatMap_cons, List.length_append, lenSum_append]
    simp only [List.append_assoc, List.singleton_append, Nat.add_assoc]

theorem subCopyLoop_eq (B R : List Byte) (sels : List Intval) (iold inew : Nat) (nb : List Byte)
    (hi : inew < SIZE_MOD) :
    subCopyLoop B R R.length sels iold inew nb = copyLoop B R R.length sels iold inew nb := by
  induction sels generalizing iold inew nb with
  | nil => rfl
  | cons s rest ih =>
    have hlt : ∀ a b, szadd a b < SIZE_MOD := by
      intro a b; simp only [szadd, SIZE_MOD]; omega
    have hz : ∀ a, a < SIZE_MOD → szadd a 0 = a := by
      intro a ha; simp only [szadd, SIZE_MOD] at *; omega
    by_cases ht : R.length = 0
    · have hR : R = [] := List.eq_nil_of_length_eq_zero ht
      subst hR
      have hm : ∀ x : List Byte, memcpy x [] 0 0 = x := by
        intro x; simp [memcpy, slice]
      by_cases hc : iold < s.from_
      · simp only [subCopyLoop, copyLoop, if_pos hc, List.length_nil, ne_eq, not_true_eq_false,
          if_false, hm, hz _ (hlt _ _)]
        exact ih _ _ _ (hlt _ _)
      · simp only [subCopyLoop, copyLoop, if_neg hc, List.length_nil, ne_eq, not_true_eq_false,
          if_false, hm, hz _ hi]
        exact ih _ _ _ hi
    · by_cases hc : iold < s.from_
      · simp only [subCopyLoop, copyLoop, if_pos hc, ne_eq, ht, not_false_eq_true, if_true]
        exact ih _ _ _ (hlt _ _)
      · simp only [subCopyLoop, copyLoop, if_neg hc, ne_eq, ht, not_false_eq_true, if_true]
        exact ih _ _ _ (hlt _ _)

/-- The buffer that the copy loop and the tail copy build is the buffer of the
rewriting protocol. -/
theorem copyTail_spec (B R : List Byte) (n : Nat) (hB : B.length = n) (hn : n < SIZE_MOD)
    (sels : List Intval) (h1 : I1 sels) (h2 : I2 n sels)
    (hT : n + sels.length * R.length < SIZE_MOD + lenSum sels) :
    copyTail B n (n - lenSum sels + sels.length * R.length)
        (copyLoop B R R.length sels 0 0 [])
      = rewriteSpec B sels R := by
  have hsum := lenSum_le n sels 0 h1 h2 (fun _ _ => Nat.zero_le _) (Nat.zero_le _)
  obtain ⟨c1, c2, c3⟩ := copyLoop_spec B R n hB hn sels 0 0 [] h1 h2
    (fun _ _ => Nat.zero_le _) (Nat.zero_le _) (by omega)
  generalize copyLoop B R R.length sels 0 0 [] = r at c1 c2 c3 ⊢
  rw [List.nil_append] at c1
  rw [rewriteSpec, hB, ← c1, copyTail]
  by_cases hi : r.2.1 < n - lenSum sels + sels.length * R.length
  · rw [if_pos hi, memcpy, szsub_eq c2 hn, slice_all B r.1 n hB]
  · rw [if_neg hi]
    have : B.drop r.1 = [] := by
      apply List.drop_eq_nil_of_le
      omega
    rw [this, List.append_nil]

/-- The command `s` when the matches of every selection `sel` are `M sel`,
sorted and inside the selection: the buffer is rewritten by the protocol with
all matches as targets, and the selections are shifted. -/
theorem cmd_sub_spec (fuel : Nat) (st : State) (cmd : Cmd) (M : Intval → List Intval)
    (hB : st.buffer.length = st.buflen) (h1 : I1 st.sels) (h2 : I2 st.buflen st.sels)
    (hfit : st.buflen < SIZE_MOD)
    (hgo : ¬ (cmd.regex.isNone ∧
      (cmd.arg 0 = none ∨ (cmd.arg 0 ≠ some PAT_START ∧ cmd.arg 0 ≠ some PAT_END))))
    (hM : ∀ sel ∈ st.sels, ∀ acc, subMatch fuel cmd st.buffer sel acc
      = some ⟨acc ++ M sel, (M sel).length, lenSum (M sel)⟩)
    (hW : ∀ x ∈ st.sels, Within x (M x))
    (hcnt : (st.sels.flatMap M).length < UINT_MOD)
    (hnew : st.buflen + (st.sels.flatMap M).length * arglen (cmd.arg 1)
      < SIZE_MOD + lenSum (st.sels.flatMap M)) :
    ∃ st', cmd_sub fuel st cmd = some st' ∧
      st'.buffer = rewriteSpec st.buffer (st.sels.flatMap M) (argbytes (cmd.arg 1)) ∧
      st'.buflen = st.buflen - lenSum (st.sels.flatMap M)
        + (st.sels.flatMap M).length * arglen (cmd.arg 1) ∧
      st'.sels = shiftSels (arglen (cmd.arg 1)) M 0 0 st.sels ∧
      st'.out = st.out ∧
      st'.buffer.length = st'.buflen := by
  have hR : arglen (cmd.arg 1) = (argbytes (cmd.arg 1)).length := by
    cases cmd.arg 1 <;> rfl
  have hI1 := I1_flatMap M st.sels h1 hW
  have hI2 := I2_flatMap st.buflen M st.sels h2 hW
  have hsum := lenSum_le st.buflen (st.sels.flatMap M) 0 hI1 hI2 (fun _ _ => Nat.zero_le _)
    (Nat.zero_le _)
  obtain ⟨offs, hp1⟩ := subSels_spec fuel cmd st.buffer (arglen (cmd.arg 1)) st.buflen M st.sels
    ⟨[], 0, 0, 0, []⟩ 0 0 h1 h2 (fun _ _ => Nat.zero_le _) (Nat.zero_le _) hM hW rfl
    (by simpa using hcnt) (by simp only [SIZE_MOD] at *; omega)
    (by simp only [SIZE_MOD] at *; omega)
  simp only [List.nil_append, Nat.zero_add] at hp1
  have hlen := rewriteSeg_length st.buffer (argbytes (cmd.arg 1)) st.buflen (by omega)
    (st.sels.flatMap M) 0 hI1 hI2 (fun _ _ => Nat.zero_le _) (Nat.zero_le _)
  rw [← hR] at hlen
  have hspeclen : (rewriteSpec st.buffer (st.sels.flatMap M) (argbytes (cmd.arg 1))).length
      = st.buflen - lenSum (st.sels.flatMap M)
        + (st.sels.flatMap M).length * arglen (cmd.arg 1) := by
    rw [rewriteSpec, hB]; omega
  unfold cmd_sub
  simp only [if_neg hgo, hp1]
  by_cases h0 : (st.sels.flatMap M).length = 0
  · have hnil : st.sels.flatMap M = [] := List.eq_nil_of_length_eq_zero h0
    have hsame : rewriteSpec st.buffer [] (argbytes (cmd.arg 1)) = st.buffer := by
      rw [rewriteSpec, rewriteSeg, Nat.sub_zero, slice, List.drop_zero, List.take_length]
    rw [if_pos h0]
    refine ⟨_, rfl, ?_, ?_, rfl, rfl, hB⟩
    · rw [hnil, hsame]
    · rw [hnil]; simp [lenSum]
  · have hnl : szadd (szsub st.buflen (lenSum (st.sels.flatMap M)))
          (szmul (st.sels.flatMap M).length (arglen (cmd.arg 1)))
        = st.buflen - lenSum (st.sels.flatMap M)
          + (st.sels.flatMap M).length * arglen (cmd.arg 1) := by
      simp only [szadd, szsub, szmul, SIZE_MOD] at *
      generalize (st.sels.flatMap M).length * arglen (cmd.arg 1) = K at *
      omega
    have hcopy := copyTail_spec st.buffer (argbytes (cmd.arg 1)) st.buflen hB hfit
      (st.sels.flatMap M) hI1 hI2 (by rw [← hR]; exact hnew)
    rw [← hR] at hcopy
    rw [if_neg h0, hnl, hR, subCopyLoop_eq _ _ _ _ _ _ (by decide), ← hR, hcopy]
    exact ⟨_, rfl, rfl, rfl, rfl, rfl, hspeclen⟩

/-! ### C7: the anchor patterns -/

theorem flatMap_length_le (M : Intval → List Intval) (sels : List Intval)
    (h : ∀ s ∈ sels, (M s).length ≤ 1) : (sels.flatMap M).length ≤ sels.length := by
  induction sels with
  | nil => simp
  | cons s rest ih =>
    have := h s (by simp)
    have := ih (fun x hx => h x (List.mem_cons_of_mem _ hx))
    rw [List.flatMap_cons, List.length_append, List.length_cons]
    omega

theorem flatMap_lenSum_zero (M : Intval → List Intval) (sels : List Intval)
    (h : ∀ s ∈ sels, lenSum (M s) = 0) : lenSum (sels.flatMap M) = 0 := by
  induction sels with
  | nil => rfl
  | cons s rest ih =>
    rw [List.flatMap_cons, lenSum_append, h s (by simp),
      ih (fun x hx => h x (List.mem_cons_of_mem _ hx))]

/-- The state after `cmd_sub` when every selection has at most one match, of
length zero: the text of a selection is its old text with the replacement put
at the match, and the bytes outside the selections are unchanged. -/
theorem cmd_sub_zero_length (fuel : Nat) (st : State) (cmd : Cmd) (M : Intval → List Intval)
    (hB : st.buffer.length = st.buflen) (h1 : I1 st.sels) (h2 : I2 st.buflen st.sels)
    (hgo : ¬ (cmd.regex.isNone ∧
      (cmd.arg 0 = none ∨ (cmd.arg 0 ≠ some PAT_START ∧ cmd.arg 0 ≠ some PAT_END))))
    (hM : ∀ sel ∈ st.sels, ∀ acc, subMatch fuel cmd st.buffer sel acc
      = some ⟨acc ++ M sel, (M sel).length, lenSum (M sel)⟩)
    (hW : ∀ x ∈ st.sels, Within x (M x))
    (hone : ∀ s ∈ st.sels, (M s).length ≤ 1) (hzero : ∀ s ∈ st.sels, lenSum (M s) = 0)
    (hcnt : st.sels.length < UINT_MOD)
    (hnew : st.buflen + st.sels.length * arglen (cmd.arg 1) < SIZE_MOD) :
    ∃ st', cmd_sub fuel st cmd = some st' ∧
      selTexts st'.buffer st'.sels
        = st.sels.map (fun s =>
            rewriteSeg st.buffer (argbytes (cmd.arg 1)) (s.from_ + s.len) s.from_ (M s)) ∧
      outsideBytes st'.buffer st'.sels = outsideBytes st.buffer st.sels := by
  have hR : arglen (cmd.arg 1) = (argbytes (cmd.arg 1)).length := by
    cases cmd.arg 1 <;> rfl
  have hle := flatMap_length_le M st.sels hone
  have hz := flatMap_lenSum_zero M st.sels hzero
  have hmul : (st.sels.flatMap M).length * arglen (cmd.arg 1)
      ≤ st.sels.length * arglen (cmd.arg 1) := Nat.mul_le_mul_right _ hle
  obtain ⟨st', e, hbuf, _, hsels, _, _⟩ := cmd_sub_spec fuel st cmd M hB h1 h2
    (by simp only [SIZE_MOD] at *; omega) hgo hM hW (by omega)
    (by rw [hz]; simp only [SIZE_MOD] at *; omega)
  refine ⟨st', e, ?_, ?_⟩
  · have := selTexts_shift st.buffer (argbytes (cmd.arg 1)) st.buflen (by omega) M st.sels 0 []
      h1 h2 (fun _ _ => Nat.zero_le _) hW
    rw [List.nil_append, List.length_nil, ← hR] at this
    rw [hbuf, hsels, rewriteSpec, hB]
    exact this
  · have := outside_shift st.buffer (argbytes (cmd.arg 1)) st.buflen hB M st.sels 0 0
      h1 h2 (fun _ _ => Nat.zero_le _) (Nat.zero_le _) hW
    rw [← hR, List.drop_zero] at this
    rw [hbuf, hsels, rewriteSpec, hB, outsideBytes, outsideBytes]
    exact this

theorem arg0_of (pat : List Byte) (str : Option (List Byte)) (re : Option Regex) :
    Cmd.arg ⟨CmdId.CMD_SUB, [some pat, str], re⟩ 0 = some pat := rfl

theorem arg1_of (pat : List Byte) (str : Option (List Byte)) (re : Option Regex) :
    Cmd.arg ⟨CmdId.CMD_SUB, [some pat, str], re⟩ 1 = str := by
  cases str <;> rfl

theorem slice_zero (B : List Byte) (c : Nat) : slice B c 0 = [] := by
  simp [slice]

/-- C7: for a buffer and selections satisfying I1 and I2 (fewer than `2^32`
selections, the new buffer fitting a `size_t`) and a string `str`:
after `s/^/str/`, which is also what `i/str/` does, the text of every
selection is `str` followed by its previous text; after `s/$/str/`, which is
also what `a/str/` does, it is its previous text followed by `str`; after
`s/^$/str/` the text of a selection of length zero is `str` and every other
text is as it was; in all three cases the bytes outside the selections are
unchanged and keep their order.  On the input `"abc"` the program
`i/<<</ a/>>>/ p` prints `"<<<abc>>>"`. -/
theorem anchor_substitutions (fuel : Nat) (st : State) (str : Option (List Byte))
    (re : Option Regex) (re2 : Regex)
    (hB : st.buffer.length = st.buflen) (h1 : I1 st.sels) (h2 : I2 st.buflen st.sels)
    (hcnt : st.sels.length < UINT_MOD)
    (hnew : st.buflen + st.sels.length * arglen str < SIZE_MOD) :
    (∃ st', cmd_sub fuel st ⟨CmdId.CMD_SUB, [some PAT_START, str], re⟩ = some st' ∧
        cmd_insert fuel st ⟨CmdId.CMD_INSERT, [str], none⟩ = some st' ∧
        selTexts st'.buffer st'.sels
          = (selTexts st.buffer st.sels).map (fun txt => argbytes str ++ txt) ∧
        outsideBytes st'.buffer st'.sels = outsideBytes st.buffer st.sels) ∧
      (∃ st', cmd_sub fuel st ⟨CmdId.CMD_SUB, [some PAT_END, str], re⟩ = some st' ∧
        cmd_append fuel st ⟨CmdId.CMD_APPEND, [str], none⟩ = some st' ∧
        selTexts st'.buffer st'.sels
          = (selTexts st.buffer st.sels).map (fun txt => txt ++ argbytes str) ∧
        outsideBytes st'.buffer st'.sels = outsideBytes st.buffer st.sels) ∧
      (∃ st', cmd_sub fuel st ⟨CmdId.CMD_SUB, [some PAT_EMPTY, str], some re2⟩ = some st' ∧
        selTexts st'.buffer st'.sels
          = st.sels.map (fun s =>
              if s.len = 0 then argbytes str else slice st.buffer s.from_ s.len) ∧
        outsideBytes st'.buffer st'.sels = outsideBytes st.buffer st.sels) ∧
      ((cmd_insert 0 (initState [97, 98, 99]) ⟨CmdId.CMD_INSERT, [some [60, 60, 60]], none⟩).bind
          (fun st1 => cmd_append 0 st1 ⟨CmdId.CMD_APPEND, [some [62, 62, 62]], none⟩)).map
        (fun st2 => (cmd_print st2).out) = some [60, 60, 60, 97, 98, 99, 62, 62, 62] := by
  have hfit : st.buflen < SIZE_MOD := by simp only [SIZE_MOD] at *; omega
  have hne1 : PAT_END ≠ PAT_START := by decide
  have hne2 : PAT_EMPTY ≠ PAT_START := by decide
  have hne3 : PAT_EMPTY ≠ PAT_END := by decide
  have hargi : Cmd.arg ⟨CmdId.CMD_INSERT, [str], none⟩ 0 = str := by cases str <;> rfl
  have harga : Cmd.arg ⟨CmdId.CMD_APPEND, [str], none⟩ 0 = str := by cases str <;> rfl
  refine ⟨?_, ?_, ?_, by decide⟩
  · -- the pattern `^`
    obtain ⟨st', e, ht, ho⟩ := cmd_sub_zero_length fuel st
      ⟨CmdId.CMD_SUB, [some PAT_START, str], re⟩ anchorStart hB h1 h2
      (by simp [arg0_of])
      (by intro sel _ acc
          simp [subMatch, arg0_of, addintv, anchorStart, lenSum])
      (by intro x _
          refine ⟨rfl, ?_⟩
          intro m hm
          simp only [anchorStart, List.mem_singleton] at hm
          subst hm
          simp)
      (by intro s _; simp [anchorStart])
      (by intro s _; simp [anchorStart, lenSum])
      hcnt (by rw [arg1_of]; exact hnew)
    refine ⟨st', e, ?_, ?_, ho⟩
    · rw [cmd_insert, hargi, cmd_sub_anchor fuel st PAT_START (Or.inl rfl) str none re]
      exact e
    · rw [ht, arg1_of, selTexts, List.map_map]
      apply List.map_congr_left
      intro s _
      simp [anchorStart, rewriteSeg, slice_zero]
  · -- the pattern `$`
    obtain ⟨st', e, ht, ho⟩ := cmd_sub_zero_length fuel st
      ⟨CmdId.CMD_SUB, [some PAT_END, str], re⟩ anchorEnd hB h1 h2
      (by simp [arg0_of])
      (by intro sel hsel acc
          have := h2 sel hsel
          have es : szadd sel.from_ sel.len = sel.from_ + sel.len :=
            szadd_eq (by simp only [SIZE_MOD] at *; omega)
          simp [subMatch, arg0_of, addintv, anchorEnd, lenSum, hne1, es])
      (by intro x _
          refine ⟨rfl, ?_⟩
          intro m hm
          simp only [anchorEnd, List.mem_singleton] at hm
          subst hm
          simp)
      (by intro s _; simp [anchorEnd])
      (by intro s _; simp [anchorEnd, lenSum])
      hcnt (by rw [arg1_of]; exact hnew)
    refine ⟨st', e, ?_, ?_, ho⟩
    · rw [cmd_append, harga, cmd_sub_anchor fuel st PAT_END (Or.inr rfl) str none re]
      exact e
    · rw [ht, arg1_of, selTexts, List.map_map]
      apply List.map_congr_left
      intro s _
      simp [anchorEnd, rewriteSeg, slice_zero]
  · -- the pattern `^$`
    obtain ⟨st', e, ht, ho⟩ := cmd_sub_zero_length fuel st
      ⟨CmdId.CMD_SUB, [some PAT_EMPTY, str], some re2⟩ anchorEmpty hB h1 h2
      (by simp)
      (by intro sel _ acc
          have ez : szadd 0 0 = 0 := by decide
          by_cases hl : sel.len = 0
          · simp [subMatch, arg0_of, addintv, anchorEmpty, lenSum, hne2, hne3, hl, ez]
          · simp [subMatch, arg0_of, anchorEmpty, lenSum, hne2, hne3, hl])
      (by intro x _
          by_cases hl : x.len = 0
          · refine ⟨by simp [anchorEmpty, hl, I1, chainB], ?_⟩
            intro m hm
            simp only [anchorEmpty, hl, if_true, List.mem_singleton] at hm
            subst hm
            simp
          · refine ⟨by simp [anchorEmpty, hl, I1, chainB], ?_⟩
            intro m hm
            simp [anchorEmpty, hl] at hm)
      (by intro s _; by_cases hl : s.len = 0 <;> simp [anchorEmpty, hl])
      (by intro s _; by_cases hl : s.len = 0 <;> simp [anchorEmpty, hl, lenSum])
      hcnt (by rw [arg1_of]; exact hnew)
    refine ⟨st', e, ?_, ho⟩
    rw [ht, arg1_of]
    apply List.map_congr_left
    intro s _
    by_cases hl : s.len = 0
    · simp [anchorEmpty, hl, rewriteSeg, slice_zero]
    · simp [anchorEmpty, hl, rewriteSeg]

/-- C7 at the buffer `"abcd"` with the selections `(1, 0)` and `(1, 2)` and
the string `"X"`: after `s/^/X/` the texts of the selections are `"X"` and
`"Xbc"`, and the bytes outside are still `"ad"`. -/
theorem anchor_substitutions_witness :
    ∃ st', cmd_sub 0 ⟨[97, 98, 99, 100], 4, [⟨1, 0⟩, ⟨1, 2⟩], some ⟨1, 2⟩, []⟩
        ⟨CmdId.CMD_SUB, [some PAT_START, some [88]], none⟩ = some st' ∧
      selTexts st'.buffer st'.sels = [[88], [88, 98, 99]] ∧
      outsideBytes st'.buffer st'.sels = [97, 100] := by
  obtain ⟨st', e, _, ht, ho⟩ :=
    (anchor_substitutions 0 ⟨[97, 98, 99, 100], 4, [⟨1, 0⟩, ⟨1, 2⟩], some ⟨1, 2⟩, []⟩
      (some [88]) none (litRegex 0) (by decide) (by decide) (by decide) (by decide)
      (by decide)).1
  exact ⟨st', e, ht.trans (by decide), ho.trans (by decide)⟩

/-! ### C11: the match loop of `cmd_sub` -/

/-- The match loop of `cmd_sub` does not end when `regexec` reports the empty
match at offset `0` and the cursor is not at the end of the string: the cursor
stays where it is. -/
theorem subLoop_stuck (regex : Regex) (B : List Byte) (pos end_ : Nat)
    (h1 : regex (cstrAt B pos end_) = some (0, 0)) (h2 : charAt B pos end_ ≠ 0)
    (fuel : Nat) (acc : SubAcc) : subLoop fuel regex B pos end_ acc = none := by
  induction fuel generalizing acc with
  | zero => rfl
  | succ k ih =>
    rw [subLoop, h1]
    simp only [Nat.add_zero, h2, if_false]
    exact ih _

/-- C11, evaluated on the code: `s/b*/X/` on the buffer `"ab"` with the
selection `(0, 2)` never leaves the match loop; the regex `b*` reports the
empty match `(0, 0)` before the byte `a`, the cursor does not advance, and no
number of iterations yields a state. -/
theorem cmd_sub_cursor_does_not_advance (fuel : Nat) :
    starRegex 98 (cstrAt [97, 98] 0 2) = some (0, 0) ∧
    cmd_sub fuel (initState [97, 98])
      ⟨CmdId.CMD_SUB, [some [98, 42], some [88]], some (starRegex 98)⟩ = none := by
  have hre : starRegex 98 (cstrAt [97, 98] 0 2) = some (0, 0) := by decide
  have h := subLoop_stuck (starRegex 98) [97, 98] 0 2 hre (by decide) fuel ⟨[], 0, 0⟩
  have h2 : szadd 0 2 = 2 := by decide
  refine ⟨hre, ?_⟩
  simp only [cmd_sub, initState, addintv, subSels, subMatch, Cmd.arg]
  simp [PAT_START, PAT_END, PAT_EMPTY, h2, h]

/-! ### C12, C13: `g` and `v` -/

theorem guardSels_filter (regex : Option Regex) (B : List Byte) (negated : Bool)
    (done sels : List Intval) :
    guardSels regex B negated done sels
      = done ++ sels.filter (fun sel => !guardRemoves regex B sel negated) := by
  induction sels generalizing done with
  | nil => simp [guardSels]
  | cons sel rest ih =>
    by_cases h : guardRemoves regex B sel negated = true
    · rw [guardSels, if_pos h, ih, List.filter_cons_of_neg (by simp [h])]
    · rw [guardSels, if_neg h, ih, List.filter_cons_of_pos (by simp [h])]
      simp

theorem guardRemoves_some (re : Regex) (B : List Byte) (sel : Intval) (negated : Bool) :
    guardRemoves (some re) B sel negated
      = (if negated then (re (cstrAt B sel.from_ (szadd sel.from_ sel.len))).isSome
          else !(re (cstrAt B sel.from_ (szadd sel.from_ sel.len))).isSome) := by
  rcases h : re (cstrAt B sel.from_ (szadd sel.from_ sel.len)) with _ | v <;>
    cases negated <;> simp [guardRemoves, regexec, REG_NOMATCH, h]

/-- The C string that `regexec` reads for the range `(f, l)`, the byte behind
the range being set to NUL, is the byte range itself when no byte of the range
is NUL. -/
theorem cstrAt_eq_slice (B : List Byte) (f l : Nat) (hnul : ∀ b ∈ slice B f l, b ≠ 0) :
    cstrAt B f (f + l) = slice B f l := by
  have hS : (B.take (f + l)).drop f = slice B f l := by
    rw [slice, List.take_drop]
  unfold cstrAt patched
  rw [List.append_assoc]
  by_cases hf : f ≤ (B.take (f + l)).length
  · rw [List.drop_append_of_le_length hf, hS, List.takeWhile_append_of_pos]
    · simp
    · intro b hb
      simpa using hnul b hb
  · have hlen : B.length < f := by
      rw [List.length_take] at hf
      omega
    have h1 : slice B f l = [] := by
      rw [slice, List.drop_eq_nil_of_le (by omega)]
      exact List.take_nil
    rw [h1, List.take_of_length_le (by omega),
      List.drop_eq_nil_of_le (by omega : B.length ≤ f + l + 1),
      List.drop_eq_nil_of_le (by simp; omega)]
    rfl

/-- The test of `guardinternal` on a selection without NUL byte is the test
of the byte range of the selection. -/
theorem guardRemoves_slice (re : Regex) (B : List Byte) (sel : Intval) (negated : Bool)
    (hend : sel.from_ + sel.len < SIZE_MOD)
    (hnul : ∀ b ∈ slice B sel.from_ sel.len, b ≠ 0) :
    guardRemoves (some re) B sel negated
      = (if negated then selMatches re B sel else !selMatches re B sel) := by
  rw [guardRemoves_some, szadd_eq hend, cstrAt_eq_slice B sel.from_ sel.len hnul]
  rfl

/-- C12 as stated fails on a selection that holds a NUL byte: on the buffer
`a NUL b` with the selection `(0, 3)`, the byte range of the selection contains
a match of `b`, yet `g/b/` drops the selection and `v/b/` keeps it; `regexec`
reads the C string `a`, which ends at the NUL byte. -/
theorem guard_nul_counterexample :
    slice [97, 0, 98] 0 3 = [97, 0, 98] ∧
    litRegex 98 [97, 0, 98] = some (2, 3) ∧
    selMatches (litRegex 98) [97, 0, 98] ⟨0, 3⟩ = true ∧
    cstrAt [97, 0, 98] 0 (szadd 0 3) = [97] ∧
    (cmd_guard ⟨[97, 0, 98], 3, [⟨0, 3⟩], some ⟨0, 3⟩, []⟩
        ⟨CmdId.CMD_GUARD, [some [98]], some (litRegex 98)⟩).sels = [] ∧
    (cmd_vguard ⟨[97, 0, 98], 3, [⟨0, 3⟩], some ⟨0, 3⟩, []⟩
        ⟨CmdId.CMD_VGUARD, [some [98]], some (litRegex 98)⟩).sels = [⟨0, 3⟩] := by
  refine ⟨by decide, by decide, by decide, by decide, by decide, by decide⟩

/-- C12, amended: with a compiled regex `re`, on a selection list in which no
selection holds a NUL byte (the end `from + len` of every selection being a
machine integer), `g` keeps exactly the selections whose byte range
`buffer[from .. from + len)` contains a match of `re` and `v` exactly those
whose byte range contains none; the kept selections are a sublist of the input
list (same `(from, len)`, same order), the two results are the two parts of
the partition of the input list, and the buffer and its length are
unchanged. -/
theorem guard_vguard_partition (st : State) (id : CmdId) (args : List (Option (List Byte)))
    (re : Regex) (hend : ∀ sel ∈ st.sels, sel.from_ + sel.len < SIZE_MOD)
    (hnul : ∀ sel ∈ st.sels, ∀ b ∈ slice st.buffer sel.from_ sel.len, b ≠ 0) :
    (cmd_guard st ⟨id, args, some re⟩).sels = st.sels.filter (selMatches re st.buffer) ∧
      (cmd_vguard st ⟨id, args, some re⟩).sels
        = st.sels.filter (fun sel => !selMatches re st.buffer sel) ∧
      (cmd_guard st ⟨id, args, some re⟩).sels.Sublist st.sels ∧
      (cmd_vguard st ⟨id, args, some re⟩).sels.Sublist st.sels ∧
      st.sels.partition (selMatches re st.buffer)
        = ((cmd_guard st ⟨id, args, some re⟩).sels, (cmd_vguard st ⟨id, args, some re⟩).sels) ∧
      (cmd_guard st ⟨id, args, some re⟩).buffer = st.buffer ∧
      (cmd_vguard st ⟨id, args, some re⟩).buffer = st.buffer ∧
      (cmd_guard st ⟨id, args, some re⟩).buflen = st.buflen ∧
      (cmd_vguard st ⟨id, args, some re⟩).buflen = st.buflen := by
  have hg : (cmd_guard st ⟨id, args, some re⟩).sels
      = st.sels.filter (selMatches re st.buffer) := by
    simp only [cmd_guard, guardinternal, guardSels_filter, List.nil_append]
    apply List.filter_congr
    intro sel hsel
    rw [guardRemoves_slice re st.buffer sel false (hend sel hsel) (hnul sel hsel)]
    simp
  have hv : (cmd_vguard st ⟨id, args, some re⟩).sels
      = st.sels.filter (fun sel => !selMatches re st.buffer sel) := by
    simp only [cmd_vguard, guardinternal, guardSels_filter, List.nil_append]
    apply List.filter_congr
    intro sel hsel
    rw [guardRemoves_slice re st.buffer sel true (hend sel hsel) (hnul sel hsel)]
    simp
  refine ⟨hg, hv, ?_, ?_, ?_, rfl, rfl, rfl, rfl⟩
  · rw [hg]; exact List.filter_sublist _
  · rw [hv]; exact List.filter_sublist _
  · rw [hg, hv, List.partition_eq_filter_filter]
    rfl

/-- The amended C12 at the buffer `"abc"` with the selections `(0, 1)` and `(1, 2)` and the
regex `b`: `g/b/` keeps `(1, 2)`, whose bytes `bc` contain `b`, and `v/b/`
keeps `(0, 1)`, whose byte `a` does not. -/
theorem guard_vguard_partition_witness :
    (cmd_guard ⟨[97, 98, 99], 3, [⟨0, 1⟩, ⟨1, 2⟩], some ⟨1, 2⟩, []⟩
        ⟨CmdId.CMD_GUARD, [some [98]], some (litRegex 98)⟩).sels = [⟨1, 2⟩] ∧
    (cmd_vguard ⟨[97, 98, 99], 3, [⟨0, 1⟩, ⟨1, 2⟩], some ⟨1, 2⟩, []⟩
        ⟨CmdId.CMD_GUARD, [some [98]], some (litRegex 98)⟩).sels = [⟨0, 1⟩] ∧
    ([⟨0, 1⟩, ⟨1, 2⟩] : List Intval).partition (selMatches (litRegex 98) [97, 98, 99])
      = ([⟨1, 2⟩], [⟨0, 1⟩]) :=
  have h := guard_vguard_partition ⟨[97, 98, 99], 3, [⟨0, 1⟩, ⟨1, 2⟩], some ⟨1, 2⟩, []⟩
    CmdId.CMD_GUARD [some [98]] (litRegex 98) (by decide) (by decide)
  ⟨h.1.trans (by decide), h.2.1.trans (by decide), by decide⟩

/-- Without a regex, `g` on the buffer `"ab"` with the selections `(0, 1)` and
`(1, 1)` (the state that `x/./` leaves) keeps both selections and `v` drops
both, whereas `x` without a regex drops both and `y` keeps both. -/
theorem guard_absent_regex_siblings :
    (cmd_guard ⟨[97, 98], 2, [⟨0, 1⟩, ⟨1, 1⟩], some ⟨1, 1⟩, []⟩
        ⟨CmdId.CMD_GUARD, [none], none⟩).sels = [⟨0, 1⟩, ⟨1, 1⟩] ∧
    (cmd_vguard ⟨[97, 98], 2, [⟨0, 1⟩, ⟨1, 1⟩], some ⟨1, 1⟩, []⟩
        ⟨CmdId.CMD_VGUARD, [none], none⟩).sels = [] ∧
    (cmd_xtract 3 ⟨[97, 98], 2, [⟨0, 1⟩, ⟨1, 1⟩], some ⟨1, 1⟩, []⟩
        ⟨CmdId.CMD_XTRACT, [none], none⟩).map State.sels = some [] ∧
    (cmd_ytract 3 ⟨[97, 98], 2, [⟨0, 1⟩, ⟨1, 1⟩], some ⟨1, 1⟩, []⟩
        ⟨CmdId.CMD_YTRACT, [none], none⟩).map State.sels = some [⟨0, 1⟩, ⟨1, 1⟩] := by
  refine ⟨by decide, by decide, by decide, by decide⟩

/-- C13, evaluated on the code: when the regex is absent, the test
`(cmd->regex && regexec(...)) == (negated ? 0 : REG_NOMATCH)` of
`guardinternal` has the left side `0` for every selection, so on every state
`g` removes no selection, the selection list being unchanged, and `v` removes
every selection, the selection list becoming empty: the opposite of the claim
on every state that has a selection.  The buffer is unchanged. -/
theorem guard_absent_regex (st : State) (id : CmdId) (args : List (Option (List Byte))) :
    (cmd_guard st ⟨id, args, none⟩).sels = st.sels ∧
      (cmd_vguard st ⟨id, args, none⟩).sels = [] ∧
      (cmd_guard st ⟨id, args, none⟩).buffer = st.buffer ∧
      (cmd_vguard st ⟨id, args, none⟩).buffer = st.buffer := by
  have hg : ∀ sel, guardRemoves none st.buffer sel false = false := by
    intro sel; simp [guardRemoves, REG_NOMATCH]
  have hv : ∀ sel, guardRemoves none st.buffer sel true = true := by
    intro sel; simp [guardRemoves]
  refine ⟨?_, ?_, rfl, rfl⟩
  · simp [cmd_guard, guardinternal, guardSels_filter, hg]
  · simp [cmd_vguard, guardinternal, guardSels_filter, hv]

/-! ### C14: `x` and `y` with a pattern of zero length matches -/

/-- C14: when the pattern is absent or is `^`, `$` or `^$`, `x` returns the
state with the empty selection list and `y` returns the state as it was; the
buffer is the same in both. -/
theorem xtract_ytract_zero_length_pattern (fuel : Nat) (st : State) (id : CmdId)
    (pat : Option (List Byte)) (rest : List (Option (List Byte))) (re : Option Regex)
    (hpat : pat = none ∨ pat = some PAT_START ∨ pat = some PAT_END ∨ pat = some PAT_EMPTY) :
    cmd_xtract fuel st ⟨id, pat :: rest, re⟩ = some { st with sels := [], lastsel := none } ∧
      cmd_ytract fuel st ⟨id, pat :: rest, re⟩ = some st := by
  have harg : Cmd.arg ⟨id, pat :: rest, re⟩ 0 = pat := by cases pat <;> rfl
  have hz : zeroLengthPattern ⟨id, pat :: rest, re⟩ = true := by
    unfold zeroLengthPattern
    rw [harg]
    rcases hpat with h | h | h | h <;> simp [h]
  exact ⟨by simp only [cmd_xtract, hz, if_true, cleanupsels],
    by simp only [cmd_ytract, hz, if_true]⟩

/-- C14 at the buffer `"ab"` with the selections `(0, 1)` and `(1, 1)` and the
pattern `^$`. -/
theorem xtract_ytract_zero_length_pattern_witness :
    cmd_xtract 0 ⟨[97, 98], 2, [⟨0, 1⟩, ⟨1, 1⟩], some ⟨1, 1⟩, []⟩
        ⟨CmdId.CMD_XTRACT, [some PAT_EMPTY], some (litRegex 0)⟩
      = some ⟨[97, 98], 2, [], none, []⟩ ∧
    cmd_ytract 0 ⟨[97, 98], 2, [⟨0, 1⟩, ⟨1, 1⟩], some ⟨1, 1⟩, []⟩
        ⟨CmdId.CMD_XTRACT, [some PAT_EMPTY], some (litRegex 0)⟩
      = some ⟨[97, 98], 2, [⟨0, 1⟩, ⟨1, 1⟩], some ⟨1, 1⟩, []⟩ :=
  xtract_ytract_zero_length_pattern 0 ⟨[97, 98], 2, [⟨0, 1⟩, ⟨1, 1⟩], some ⟨1, 1⟩, []⟩
    CmdId.CMD_XTRACT (some PAT_EMPTY) [] (some (litRegex 0)) (Or.inr (Or.inr (Or.inr rfl)))

/-! ### C19, C20: the parser on escaped backslashes and on missing arguments -/

/-- C19, evaluated on the code: in `c/a\\/` the `/` follows two backslashes,
an escaped backslash; `removebackslashes` turns `a\\` into `a\`, but the parser
does not close the argument there: the parse ends with the exit code 2, and in
`c/a\\/b/` the argument runs on to the next `/` and is stored as `a\/b`. -/
theorem parsecmds_escaped_backslash_slash :
    removebackslashes [97, 92, 92] = [97, 92] ∧
    exitOf (parsecmds true [99, 47, 97, 92, 92, 47]) = some 2 ∧
    programOf (parsecmds true [99, 47, 97, 92, 92, 47, 98, 47])
      = some [(CmdId.CMD_CHANGE, [some [97, 92, 47, 98]])] := by
  decide

/-- C20, evaluated on the code: the command line `cp`, in which the letter `c`
(one argument) is directly followed by the letter `p`, is not rejected: the
parse returns the program of `c` with a `NULL` argument followed by `p`; so
does `cc/x/` with two `c` commands. -/
theorem parsecmds_accepts_letter_after_letter :
    argcnt CmdId.CMD_CHANGE = 1 ∧
    exitOf (parsecmds true [99, 112]) = (none : Option Nat) ∧
    programOf (parsecmds true [99, 112])
      = some [(CmdId.CMD_CHANGE, [none]), (CmdId.CMD_PRINT, [])] ∧
    programOf (parsecmds true [99, 99, 47, 120, 47])
      = some [(CmdId.CMD_CHANGE, [none]), (CmdId.CMD_CHANGE, [some [120]])] := by
  refine ⟨by decide, by decide, by decide, by decide⟩

/-! ### C17: the lengths of the intervals of a flip -/

/-- The slip that the amended C17 leaves out: an interval behind the first
that starts at offset `0` makes `end = intv->from - 1` wrap around, and the
gap `(0, 0)` is added. -/
theorem flipintvals_wraps_at_zero :
    flipintvals ⟨0, 5⟩ [⟨0, 0⟩, ⟨0, 3⟩] (some ⟨0, 3⟩) = some [⟨0, 0⟩, ⟨3, 1⟩] := by
  decide

/-- C17 as stated fails: the flip of the empty list against the bound `(3, 0)`
is the bound itself, an interval of length zero. -/
theorem flipintvals_empty_bound_counterexample :
    I1 [] ∧ (∀ iv ∈ ([] : List Intval), 3 ≤ iv.from_ ∧ iv.from_ + iv.len ≤ 3 + 0) ∧
    flipintvals ⟨3, 0⟩ [] none = some [⟨3, 0⟩] ∧
    (∃ g ∈ ([⟨3, 0⟩] : List Intval), g.len = 0) := by
  refine ⟨rfl, by simp, by decide, ⟨⟨3, 0⟩, by simp, rfl⟩⟩

theorem flipGaps_len_pos (prev : Intval) (rest acc : List Intval)
    (hrest : ∀ iv ∈ rest, 0 < iv.from_ ∧ iv.from_ < SIZE_MOD)
    (hacc : ∀ g ∈ acc, 0 < g.len) :
    ∀ g ∈ flipGaps prev rest acc, 0 < g.len := by
  induction rest generalizing prev acc with
  | nil => simpa [flipGaps] using hacc
  | cons iv rest ih =>
    have hiv := hrest iv (by simp)
    rw [flipGaps]
    apply ih iv _ (fun x hx => hrest x (List.mem_cons_of_mem _ hx))
    intro g hg
    by_cases hle : szadd prev.from_ prev.len ≤ szsub iv.from_ 1
    · rw [if_pos hle, addintv, List.mem_append, List.mem_singleton] at hg
      rcases hg with hg | rfl
      · exact hacc g hg
      · simp only [szadd, szsub, SIZE_MOD] at *
        omega
    · rw [if_neg hle] at hg
      exact hacc g hg

/-- C17, amended: for a bound that ends below `2^64` and a list inside the
bound, the list not being empty when the bound has length zero and no
interval behind the first one starting at offset `0`, `flipintvals` returns a
list (`*lastintv` being the final interval) and none of its intervals has
length zero. -/
theorem flipintvals_len_pos (bound : Intval) (intvs : List Intval) (lastintv : Option Intval)
    (hin : ∀ iv ∈ intvs, bound.from_ ≤ iv.from_ ∧ iv.from_ + iv.len ≤ bound.from_ + bound.len)
    (hfit : bound.from_ + bound.len < SIZE_MOD)
    (hne : intvs = [] → 0 < bound.len)
    (htail : ∀ iv ∈ intvs.tail, 0 < iv.from_)
    (hlast : lastintv = intvs.getLast?) :
    ∃ out, flipintvals bound intvs lastintv = some out ∧ ∀ g ∈ out, 0 < g.len := by
  cases intvs with
  | nil =>
    refine ⟨[bound], rfl, ?_⟩
    intro g hg
    rw [List.mem_singleton] at hg
    subst hg
    exact hne rfl
  | cons first rest =>
    rw [getLast?_lastIv] at hlast
    subst hlast
    have hfirst := hin first (by simp)
    by_cases hw : first.from_ = bound.from_ ∧ first.len = bound.len
    · exact ⟨[], by simp [flipintvals, hw], by simp⟩
    · have hnew1 : ∀ g ∈ (if bound.from_ < first.from_
          then addintv bound.from_ (szsub first.from_ bound.from_) [] else []), 0 < g.len := by
        intro g hg
        by_cases hlt : bound.from_ < first.from_
        · rw [if_pos hlt, addintv, List.nil_append, List.mem_singleton] at hg
          subst hg
          simp only [szsub, SIZE_MOD] at *
          omega
        · rw [if_neg hlt] at hg
          cases hg
      have hgaps := flipGaps_len_pos first rest _
        (fun iv hiv => ⟨htail iv hiv, by
          have := hin iv (List.mem_cons_of_mem _ hiv)
          simp only [SIZE_MOD] at *
          omega⟩) hnew1
      simp only [flipintvals, hw, if_false]
      by_cases hlt : szadd (lastIv first rest).from_ (lastIv first rest).len
          < szsub (szadd bound.from_ bound.len) 1
      · rw [if_pos hlt]
        refine ⟨_, rfl, ?_⟩
        intro g hg
        rw [addintv, List.mem_append, List.mem_singleton] at hg
        rcases hg with hg | rfl
        · exact hgaps g hg
        · simp only [szadd, szsub, SIZE_MOD] at *
          omega
      · rw [if_neg hlt]
        exact ⟨_, rfl, hgaps⟩

/-- The amended C17 at the bound `(0, 9)` and the list `[(0, 2), (2, 3), (6, 1)]`. -/
theorem flipintvals_len_pos_witness :
    ∃ out, flipintvals ⟨0, 9⟩ [⟨0, 2⟩, ⟨2, 3⟩, ⟨6, 1⟩] (some ⟨6, 1⟩) = some out ∧
      ∀ g ∈ out, 0 < g.len :=
  flipintvals_len_pos ⟨0, 9⟩ [⟨0, 2⟩, ⟨2, 3⟩, ⟨6, 1⟩] (some ⟨6, 1⟩) (by decide) (by decide)
    (by decide) (by decide) (by decide)

/-! ### C16: the command `L` -/

theorem lineIntvs_none (start cur : Nat) (xs : List Byte) (h : lineEnd xs = none) :
    lineIntvs start cur xs = [] := by
  induction xs generalizing cur with
  | nil => rfl
  | cons b bs ih =>
    by_cases hb : b = 10
    · simp [lineEnd, hb] at h
    · simp only [lineEnd, hb, if_false, Option.map_eq_none'] at h
      rw [lineIntvs, if_neg hb, ih (cur + 1) h]

theorem lineIntvs_some (start cur : Nat) (xs : List Byte) (e : Nat) (h : lineEnd xs = some e) :
    1 ≤ e ∧ e ≤ xs.length ∧
      lineIntvs start cur xs
        = ⟨start, cur + e - start⟩ :: lineIntvs (cur + e) (cur + e) (xs.drop e) := by
  induction xs generalizing cur e with
  | nil => simp [lineEnd] at h
  | cons b bs ih =>
    by_cases hb : b = 10
    · simp only [lineEnd, hb, if_true, Option.some.injEq] at h
      subst h
      simp [lineIntvs, hb]
    · simp only [lineEnd, hb, if_false, Option.map_eq_some'] at h
      obtain ⟨e1, he1, rfl⟩ := h
      obtain ⟨a1, a2, a3⟩ := ih (cur + 1) e1 he1
      refine ⟨by omega, by simp only [List.length_cons]; omega, ?_⟩
      rw [lineIntvs, if_neg hb, a3]
      have e2 : cur + 1 + e1 = cur + (e1 + 1) := by omega
      rw [e2, List.drop_succ_cons]

theorem cstrAt_nulfree (B : List Byte) (pos : Nat) (hB : ∀ b ∈ B, b ≠ 0) (hpos : pos ≤ B.length) :
    cstrAt B pos B.length = B.drop pos := by
  have hp : patched B B.length = B ++ [0] := by
    simp [patched]
  rw [cstrAt, hp, List.drop_append_of_le_length hpos, List.takeWhile_append_of_pos]
  · simp
  · intro b hb
    have := hB b (List.mem_of_mem_drop hb)
    simpa using this

/-- The match loop of `xtractinternal` with the regex of `L` on a buffer
without NUL: the matches are the complete lines from the cursor on. -/
theorem xtractLoop_lines (B : List Byte) (hB : ∀ b ∈ B, b ≠ 0) (hfit : B.length < SIZE_MOD)
    (fuel pos : Nat) (acc : List Intval) (hpos : pos ≤ B.length) (hfuel : B.length - pos < fuel) :
    xtractLoop fuel linesRegex B pos B.length acc
      = some (acc ++ lineIntvs pos pos (B.drop pos)) := by
  induction fuel generalizing pos acc with
  | zero => omega
  | succ k ih =>
    rw [xtractLoop, cstrAt_nulfree B pos hB hpos]
    rcases h : lineEnd (B.drop pos) with _ | e
    · simp only [linesRegex, h, Option.map_none']
      rw [lineIntvs_none pos pos _ h, List.append_nil]
    · obtain ⟨a1, a2, a3⟩ := lineIntvs_some pos pos _ e h
      rw [List.length_drop] at a2
      have hne : ¬ e = 0 := by omega
      have e1 : szadd pos 0 = pos := szadd_eq (by simp only [SIZE_MOD] at *; omega)
      have e2 : szsub e 0 = e := szsub_eq (Nat.zero_le _) (by simp only [SIZE_MOD] at *; omega)
      simp only [linesRegex, h, Option.map_some', hne, if_false, e1, e2, addintv]
      rw [ih (pos + e) _ (by omega) (by omega), a3, List.drop_drop]
      have e3 : pos + e - pos = e := by omega
      rw [e3, List.append_assoc]
      rfl

theorem selTexts_lineIntvs (P lp xs : List Byte) :
    selTexts (P ++ lp ++ xs) (lineIntvs P.length (P.length + lp.length) xs) = splitLines lp xs := by
  induction xs generalizing P lp with
  | nil => rfl
  | cons b bs ih =>
    by_cases hb : b = 10
    · subst hb
      have h1 : P ++ lp ++ 10 :: bs = P ++ (lp ++ [10]) ++ bs := by simp
      have h2 := ih (P ++ (lp ++ [10])) []
      have h3 : (P ++ (lp ++ [10])).length = P.length + lp.length + 1 := by
        simp only [List.length_append, List.length_singleton]; omega
      rw [List.append_nil, List.length_nil, Nat.add_zero, h3] at h2
      have h4 : P.length + lp.length + 1 - P.length = (lp ++ [10]).length := by
        simp only [List.length_append, List.length_singleton]; omega
      rw [lineIntvs, if_pos rfl, splitLines, if_pos rfl, selTexts, List.map_cons, h1, h4,
        slice_append_mid]
      exact congrArg _ h2
    · have h1 : P ++ lp ++ b :: bs = P ++ (lp ++ [b]) ++ bs := by simp
      have h2 := ih P (lp ++ [b])
      have h3 : P.length + (lp ++ [b]).length = P.length + lp.length + 1 := by
        simp only [List.length_append, List.length_singleton]; omega
      rw [h3] at h2
      rw [lineIntvs, if_neg hb, splitLines, if_neg hb, h1]
      exact h2

theorem upToLastNewline_none (xs : List Byte) (h : 10 ∉ xs) : upToLastNewline xs = [] := by
  cases xs with
  | nil => rfl
  | cons b bs => rw [upToLastNewline, if_neg h]

theorem splitLines_join (lp xs : List Byte) :
    (splitLines lp xs).flatten = (if 10 ∈ xs then lp else []) ++ upToLastNewline xs := by
  induction xs generalizing lp with
  | nil => simp [splitLines, upToLastNewline]
  | cons b bs ih =>
    by_cases hb : b = 10
    · subst hb
      rw [splitLines, if_pos rfl, List.flatten_cons, ih, upToLastNewline]
      simp
    · rw [splitLines, if_neg hb, ih, upToLastNewline]
      have hmem : (10 ∈ b :: bs) ↔ 10 ∈ bs := by
        simp only [List.mem_cons]
        constructor
        · rintro (h | h)
          · exact absurd h.symm hb
          · exact h
        · exact Or.inr
      by_cases h10 : 10 ∈ bs
      · rw [if_pos h10, if_pos (hmem.mpr h10), if_pos (hmem.mpr h10)]
        simp
      · rw [if_neg h10, if_neg (fun h => h10 (hmem.mp h)), if_neg (fun h => h10 (hmem.mp h)),
          upToLastNewline_none bs h10]

theorem splitLines_line (lp xs : List Byte) (hlp : 10 ∉ lp) :
    ∀ l ∈ splitLines lp xs, ∃ body, l = body ++ [10] ∧ 10 ∉ body := by
  induction xs generalizing lp with
  | nil => intro l hl; cases hl
  | cons b bs ih =>
    intro l hl
    by_cases hb : b = 10
    · subst hb
      rw [splitLines, if_pos rfl, List.mem_cons] at hl
      rcases hl with rfl | hl
      · exact ⟨lp, rfl, hlp⟩
      · exact ih [] (by simp) l hl
    · rw [splitLines, if_neg hb] at hl
      refine ih (lp ++ [b]) ?_ l hl
      simp only [List.mem_append, List.mem_singleton, not_or]
      exact ⟨hlp, fun h => hb h.symm⟩

/-- C16: for a buffer without NUL bytes (shorter than `2^64`), `L` applied to
the seed selection returns a state, with the buffer unchanged, in which the
texts of the selections are the complete lines of the buffer in order: each
is a line without newline followed by its newline, and their concatenation is
the prefix of the buffer up to and including its last newline (empty when the
buffer has no newline), so that the bytes behind the last newline are not
selected. -/
theorem cmd_lines_complete_lines (B : List Byte) (fuel : Nat)
    (hB : ∀ b ∈ B, b ≠ 0) (hfit : B.length < SIZE_MOD) (hfuel : B.length < fuel) :
    ∃ st', cmd_lines fuel (initState B) = some st' ∧
      st'.buffer = B ∧
      selTexts st'.buffer st'.sels = completeLines B ∧
      (selTexts st'.buffer st'.sels).flatten = upToLastNewline B ∧
      (∀ l ∈ selTexts st'.buffer st'.sels, ∃ body, l = body ++ [10] ∧ 10 ∉ body) := by
  have hz : zeroLengthPattern ⟨CmdId.CMD_XTRACT, [some LINES_REGX], some linesRegex⟩ = false := by
    decide
  have hloop := xtractLoop_lines B hB hfit fuel 0 [] (Nat.zero_le _) (by omega)
  rw [List.nil_append, List.drop_zero] at hloop
  have e0 : szadd 0 B.length = B.length :=
    (szadd_eq (by simp only [SIZE_MOD] at *; omega)).trans (Nat.zero_add _)
  have hm : xtractMatches fuel (some linesRegex) B ⟨0, B.length⟩ false
      = some (lineIntvs 0 0 B) := by
    simp only [xtractMatches, e0, hloop, Bool.false_eq_true, if_false]
  have hi : xtractinternal fuel (some linesRegex) B [] ⟨0, B.length⟩ false
      = some (lineIntvs 0 0 B) := by
    rw [xtractinternal, hm]
    by_cases hw : lineIntvs 0 0 B = [⟨0, B.length⟩]
    · simp only [hw, if_true, List.nil_append]
    · simp only [hw, if_false, List.nil_append]
  have hs : ∃ prevsel, xtractSels fuel (some linesRegex) B false [] [⟨0, B.length⟩]
      = some (lineIntvs 0 0 B, prevsel) := by
    rw [xtractSels, hi]
    rcases hl : (lineIntvs 0 0 B).getLast? with _ | l
    · exact ⟨none, by simp [hl]⟩
    · exact ⟨some l, by simp [xtractSels, hl]⟩
  obtain ⟨prevsel, hs⟩ := hs
  have htexts : selTexts B (lineIntvs 0 0 B) = completeLines B := by
    have := selTexts_lineIntvs [] [] B
    simpa [completeLines] using this
  refine ⟨{ initState B with sels := lineIntvs 0 0 B, lastsel := prevsel }, ?_, rfl, htexts, ?_, ?_⟩
  · simp only [cmd_lines, cmd_xtract, hz, Bool.false_eq_true, if_false, initState, addintv,
      List.nil_append] at hs ⊢
    rw [hs]
  · show (selTexts B (lineIntvs 0 0 B)).flatten = upToLastNewline B
    rw [htexts, completeLines, splitLines_join]
    by_cases h10 : 10 ∈ B <;> simp [h10]
  · show ∀ l ∈ selTexts B (lineIntvs 0 0 B), ∃ body, l = body ++ [10] ∧ 10 ∉ body
    rw [htexts]
    exact splitLines_line [] B (by simp)

/-- C16 at the buffer `"ab\n\ncd"`: the selections are `"ab\n"` and `"\n"`. -/
theorem cmd_lines_complete_lines_witness :
    ∃ st', cmd_lines 7 (initState [97, 98, 10, 10, 99, 100]) = some st' ∧
      selTexts st'.buffer st'.sels = [[97, 98, 10], [10]] := by
  obtain ⟨st', e, _, ht, _, _⟩ := cmd_lines_complete_lines [97, 98, 10, 10, 99, 100] 7
    (by decide) (by decide) (by decide)
  exact ⟨st', e, ht.trans (by decide)⟩

/-! ### C18: round trip of `parsecmds` -/

theorem argcnt_le (id : CmdId) : argcnt id ≤ 2 := by
  cases id <;> decide

theorem chtocmdid_cmdch (id : CmdId) : chtocmdid (cmdch id) = some id := by
  cases id <;> decide

theorem cmdch_plain (id : CmdId) :
    cmdch id ≠ 0 ∧ cmdch id ≠ 47 ∧ cmdch id ≠ 35 ∧ cmdch id ≠ 92 ∧ isspace (cmdch id) = false := by
  cases id <;> decide

theorem removebackslashes_escapeArg (a : List Byte) (ha : ∀ b ∈ a, b ≠ 0 ∧ b ≠ 92) :
    removebackslashes (escapeArg a) = a := by
  unfold removebackslashes
  induction a with
  | nil => rfl
  | cons b bs ih =>
    have hb := (ha b (List.mem_cons_self _ _)).2
    have ih1 := ih (fun x hx => ha x (List.mem_cons_of_mem _ hx))
    by_cases h47 : b = 47
    · subst h47
      rw [escapeArg, if_pos rfl]
      simp [removebackslashesFrom, ih1]
    · rw [escapeArg, if_neg h47]
      simp [removebackslashesFrom, hb, ih1]

theorem escapeArg_length_pos (a : List Byte) : 0 < (escapeArg a).length ↔ a ≠ [] := by
  cases a with
  | nil => simp [escapeArg]
  | cons b bs =>
    by_cases h47 : b = 47 <;> simp [escapeArg, h47]

theorem parseLoop_step (cmdline rest : List Byte) (pos : Nat) (ch : Byte) (s s1 : Parser)
    (h0 : ch ≠ 0) (h : parseStep cmdline pos ch s = Except.ok s1) :
    parseLoop cmdline (ch :: rest) pos s = parseLoop cmdline rest (pos + 1) s1 := by
  rw [parseLoop, if_neg h0, h]

theorem parseStep_inarg_skip (cmdline : List Byte) (pos : Nat) (ch : Byte) (s : Parser)
    (hc : s.incomment = false) (hi : s.inarglist = true)
    (h : ¬ (ch = 47 ∧ s.escaped = false)) :
    parseStep cmdline pos ch s = Except.ok { s with escaped := decide (ch = 92) } := by
  unfold parseStep
  rw [if_neg (by simp [hc]), if_pos hi, if_neg h]

theorem parseLoop_escapeArg (cmdline a rest : List Byte) (s : Parser)
    (hc : s.incomment = false) (hi : s.inarglist = true) (he : s.escaped = false)
    (ha : ∀ b ∈ a, b ≠ 0 ∧ b ≠ 92) (pos : Nat) :
    parseLoop cmdline (escapeArg a ++ rest) pos s
      = parseLoop cmdline rest (pos + (escapeArg a).length) s := by
  induction a generalizing pos with
  | nil => rfl
  | cons b bs ih =>
    have hb := ha b (List.mem_cons_self _ _)
    have ih1 := fun p => ih (fun x hx => ha x (List.mem_cons_of_mem _ hx)) p
    by_cases h47 : b = 47
    · subst h47
      rw [escapeArg, if_pos rfl, List.cons_append, List.cons_append]
      have s1 : parseStep cmdline pos 92 s = Except.ok { s with escaped := true } := by
        rw [parseStep_inarg_skip _ _ _ _ hc hi (fun h => absurd h.1 (by decide))]
        rfl
      have s2 : parseStep cmdline (pos + 1) 47 { s with escaped := true } = Except.ok s := by
        rw [parseStep_inarg_skip cmdline (pos + 1) 47 { s with escaped := true } hc hi
          (fun h => Bool.noConfusion h.2)]
        cases s
        simp_all
      rw [parseLoop_step _ _ _ _ _ _ (by decide) s1, parseLoop_step _ _ _ _ _ _ (by decide) s2,
        ih1]
      have e : pos + 1 + 1 + (escapeArg bs).length
          = pos + (92 :: 47 :: escapeArg bs).length := by
        simp only [List.length_cons]; omega
      rw [e]
    · rw [escapeArg, if_neg h47, List.cons_append]
      have s1 : parseStep cmdline pos b s = Except.ok s := by
        rw [parseStep_inarg_skip _ _ _ _ hc hi (fun h => h47 h.1)]
        cases s
        simp_all
      rw [parseLoop_step _ _ _ _ _ _ hb.1 s1, ih1]
      have e : pos + 1 + (escapeArg bs).length = pos + (b :: escapeArg bs).length := by
        simp only [List.length_cons]; omega
      rw [e]

theorem set_append_replicate (done : List (Option (List Byte))) (x : Option (List Byte))
    (n : Nat) :
    (done ++ List.replicate (n + 1) none).set done.length x
      = done ++ x :: List.replicate n none := by
  induction done with
  | nil => rfl
  | cons d ds ih => simp only [List.cons_append, List.length_cons, List.set_cons_succ, ih]

theorem parseStep_close_last (cmdline : List Byte) (pos : Nat) (s : Parser) (c : Cmd)
    (hc : s.incomment = false) (hi : s.inarglist = true) (he : s.escaped = false)
    (hcur : s.currcmd = some c) (hlast : 0 = szsub (argcnt c.id) (uadd s.argind 1)) :
    parseStep cmdline pos 47 s = Except.ok
      { s with
        cmds := s.cmds ++ [{ c with args := (c.args.set s.argind
          (if 0 < pos - s.argbegin then
            some (removebackslashes (slice cmdline s.argbegin (pos - s.argbegin))) else none)) }],
        currcmd := none, inarglist := false, argbegin := pos + 1, argind := uadd s.argind 1,
        escaped := false } := by
  unfold parseStep
  rw [if_neg (by simp [hc]), if_pos hi, if_pos ⟨rfl, he⟩, hcur]
  simp only
  rw [if_pos hlast]
  rfl

theorem parseStep_close_more (cmdline : List Byte) (pos : Nat) (s : Parser) (c : Cmd)
    (hc : s.incomment = false) (hi : s.inarglist = true) (he : s.escaped = false)
    (hcur : s.currcmd = some c) (hmore : ¬ 0 = szsub (argcnt c.id) (uadd s.argind 1)) :
    parseStep cmdline pos 47 s = Except.ok
      { s with
        currcmd := some { c with args := (c.args.set s.argind
          (if 0 < pos - s.argbegin then
            some (removebackslashes (slice cmdline s.argbegin (pos - s.argbegin))) else none)) },
        argbegin := pos + 1, argind := uadd s.argind 1, escaped := false } := by
  unfold parseStep
  rw [if_neg (by simp [hc]), if_pos hi, if_pos ⟨rfl, he⟩, hcur]
  simp only
  rw [if_neg hmore]
  rfl

/-- The argument that the parser stores at the `/` that closes the text of
the argument `a`. -/
theorem stored_arg (cmdline pre post a : List Byte) (ha : ∀ b ∈ a, b ≠ 0 ∧ b ≠ 92)
    (hcl : cmdline = pre ++ escapeArg a ++ post) :
    (if 0 < pre.length + (escapeArg a).length - pre.length then
        some (removebackslashes
          (slice cmdline pre.length (pre.length + (escapeArg a).length - pre.length)))
      else none) = recorded a := by
  have e : pre.length + (escapeArg a).length - pre.length = (escapeArg a).length := by omega
  rw [e, hcl, slice_append_mid, removebackslashes_escapeArg a ha, recorded]
  by_cases h : a = []
  · rw [if_pos h, if_neg ((escapeArg_length_pos a).not.mpr (not_not.mpr h))]
  · rw [if_neg h, if_pos ((escapeArg_length_pos a).mpr h)]

theorem parseLoop_args (cmdline post : List Byte) (rest : List (List Byte)) :
    ∀ (done : List (Option (List Byte))) (pre : List Byte) (s : Parser) (c : Cmd),
      cmdline = pre ++ (renderArgs rest ++ post) →
      s.currcmd = some c → s.inarglist = true → s.incomment = false → s.escaped = false →
      s.argind = done.length → s.argbegin = pre.length →
      c.args = done ++ List.replicate rest.length none →
      argcnt c.id = done.length + rest.length → rest ≠ [] →
      (∀ a ∈ rest, ∀ b ∈ a, b ≠ 0 ∧ b ≠ 92) →
      ∃ s1, Idle s1 ∧ s1.cmds = s.cmds ++ [⟨c.id, done ++ rest.map recorded, c.regex⟩] ∧
        parseLoop cmdline (renderArgs rest ++ post) pre.length s
          = parseLoop cmdline post (pre.length + (renderArgs rest).length) s1 := by
  induction rest with
  | nil => intro _ _ _ _ _ _ _ _ _ _ _ _ _ hne; exact absurd rfl hne
  | cons a r ih =>
    intro done pre s c hcl hcur hi hc he hind hbeg hargs hcnt _ hnice
    have ha := hnice a (List.mem_cons_self _ _)
    have hr := fun x hx => hnice x (List.mem_cons_of_mem _ hx)
    have hle := argcnt_le c.id
    rw [List.length_cons] at hcnt hargs
    have hu : uadd s.argind 1 = done.length + 1 := by
      rw [hind]; simp only [uadd, UINT_MOD]; omega
    have hsz : szsub (argcnt c.id) (uadd s.argind 1) = r.length := by
      rw [hu, szsub_eq (by omega) (by simp only [SIZE_MOD]; omega)]; omega
    have hcl1 : cmdline = pre ++ escapeArg a ++ (47 :: (renderArgs r ++ post)) := by
      rw [hcl, renderArgs]; simp
    have harg := stored_arg cmdline pre _ a ha hcl1
    have hset : c.args.set s.argind (recorded a)
        = done ++ recorded a :: List.replicate r.length none := by
      rw [hargs, hind, set_append_replicate]
    have hloop : renderArgs (a :: r) ++ post = escapeArg a ++ (47 :: (renderArgs r ++ post)) := by
      rw [renderArgs]; simp
    rw [hloop, parseLoop_escapeArg cmdline a _ s hc hi he ha]
    by_cases hlast : r = []
    · subst hlast
      have hstep := parseStep_close_last cmdline (pre.length + (escapeArg a).length) s c hc hi he
        hcur (by rw [hsz]; rfl)
      rw [hbeg, harg, hset] at hstep
      obtain ⟨s1, hs1, hidle, hcmds⟩ : ∃ s1,
          parseStep cmdline (pre.length + (escapeArg a).length) 47 s = Except.ok s1 ∧ Idle s1 ∧
            s1.cmds = s.cmds ++ [⟨c.id, done ++ [recorded a], c.regex⟩] :=
        ⟨_, hstep, ⟨rfl, rfl, hc, rfl⟩, rfl⟩
      rw [parseLoop_step _ _ _ _ _ _ (by decide) hs1]
      refine ⟨s1, hidle, hcmds, ?_⟩
      have e : pre.length + (escapeArg a).length + 1
          = pre.length + (renderArgs [a]).length := by
        simp only [renderArgs, List.length_append, List.length_cons, List.length_nil]
        omega
      rw [e]
      rfl
    · have hpos : 0 < r.length := List.length_pos.mpr hlast
      have hstep := parseStep_close_more cmdline (pre.length + (escapeArg a).length) s c hc hi he
        hcur (by rw [hsz]; omega)
      rw [hbeg, harg, hset, hu] at hstep
      have hpre : (pre ++ escapeArg a ++ [47]).length = pre.length + (escapeArg a).length + 1 := by
        simp only [List.length_append, List.length_singleton]
      obtain ⟨s2, hs2, h2cur, h2i, h2c, h2e, h2ind, h2beg, h2cmds⟩ : ∃ s2,
          parseStep cmdline (pre.length + (escapeArg a).length) 47 s = Except.ok s2 ∧
            s2.currcmd = some ⟨c.id, done ++ recorded a :: List.replicate r.length none, c.regex⟩ ∧
            s2.inarglist = true ∧ s2.incomment = false ∧ s2.escaped = false ∧
            s2.argind = done.length + 1 ∧ s2.argbegin = pre.length + (escapeArg a).length + 1 ∧
            s2.cmds = s.cmds :=
        ⟨_, hstep, rfl, hi, hc, rfl, rfl, rfl, rfl⟩
      rw [parseLoop_step _ _ _ _ _ _ (by decide) hs2]
      obtain ⟨s1, hidle, hcmds, hrun⟩ := ih (done ++ [recorded a]) (pre ++ escapeArg a ++ [47])
        s2 _ (by rw [hcl1]; simp) h2cur h2i h2c h2e
        (by rw [h2ind]; simp only [List.length_append, List.length_singleton])
        (by rw [h2beg, hpre])
        (by simp only [List.append_assoc, List.singleton_append])
        (by simp only [List.length_append, List.length_singleton]; omega) hlast hr
      rw [hpre] at hrun
      rw [hrun]
      refine ⟨s1, hidle, ?_, ?_⟩
      · rw [hcmds, h2cmds]
        simp only [List.append_assoc, List.singleton_append, List.map_cons]
      · have e : pre.length + (escapeArg a).length + 1 + (renderArgs r).length
            = pre.length + (escapeArg a ++ 47 :: renderArgs r).length := by
          simp only [List.length_append, List.length_cons]; omega
        rw [e]
        rfl

theorem parseStep_letter (cmdline : List Byte) (pos : Nat) (s : Parser) (id : CmdId)
    (hs : Idle s) :
    parseStep cmdline pos (cmdch id) s = Except.ok
      (if argcnt id = 0 then
        { s with cmds := s.cmds ++ [addcmd id], currcmd := none, argind := 0, escaped := false }
      else
        { s with currcmd := some (addcmd id), argind := 0, escaped := false }) := by
  obtain ⟨h0, h47, h35, h92, hsp⟩ := cmdch_plain id
  obtain ⟨hcur, hi, hc, he⟩ := hs
  unfold parseStep
  rw [if_neg (by simp [hc]), if_neg (by simp [hi]), if_neg (fun h => h47 h.1),
    if_neg (by simp [hsp]), if_neg h35, chtocmdid_cmdch]
  by_cases ha : argcnt id = 0
  · simp only [ha, if_true, hcur, Option.toList_none, List.append_nil, h92, decide_False]
  · simp only [ha, if_false, hcur, Option.toList_none, List.append_nil, h92, decide_False]

theorem parseStep_open (cmdline : List Byte) (pos : Nat) (s : Parser) (c : Cmd)
    (hcur : s.currcmd = some c) (hi : s.inarglist = false) (hc : s.incomment = false)
    (he : s.escaped = false) (hind : s.argind = 0) (hcnt : 0 < argcnt c.id) :
    parseStep cmdline pos 47 s
      = Except.ok { s with inarglist := true, argbegin := pos + 1, escaped := false } := by
  have hle := argcnt_le c.id
  have hsz : 0 < szsub (argcnt c.id) s.argind := by
    rw [hind, szsub_eq (Nat.zero_le _) (by simp only [SIZE_MOD]; omega)]; omega
  unfold parseStep
  rw [if_neg (by simp [hc]), if_neg (by simp [hi]), if_pos ⟨rfl, he⟩, hcur]
  simp only
  rw [if_pos hsz]
  rfl

theorem parseLoop_renderCmd (cmdline pre post : List Byte) (c : CmdId × List (List Byte))
    (s : Parser) (hcl : cmdline = pre ++ (renderCmd c ++ post)) (hs : Idle s)
    (hlen : c.2.length = argcnt c.1) (hnice : ∀ a ∈ c.2, ∀ b ∈ a, b ≠ 0 ∧ b ≠ 92) :
    ∃ s1, Idle s1 ∧ s1.cmds = s.cmds ++ [⟨c.1, c.2.map recorded, none⟩] ∧
      parseLoop cmdline (renderCmd c ++ post) pre.length s
        = parseLoop cmdline post (pre.length + (renderCmd c).length) s1 := by
  obtain ⟨id, args⟩ := c
  simp only at hlen hnice hcl ⊢
  have hletter := parseStep_letter cmdline pre.length s id hs
  obtain ⟨hcur, hi, hc, he⟩ := hs
  by_cases ha : argcnt id = 0
  · have hargs : args = [] := List.length_eq_zero.mp (hlen.trans ha)
    subst hargs
    rw [if_pos ha] at hletter
    obtain ⟨s1, hs1, hidle, hcmds⟩ : ∃ s1,
        parseStep cmdline pre.length (cmdch id) s = Except.ok s1 ∧ Idle s1 ∧
          s1.cmds = s.cmds ++ [addcmd id] :=
      ⟨_, hletter, ⟨rfl, hi, hc, rfl⟩, rfl⟩
    have hr : renderCmd (id, []) = [cmdch id] := by
      simp only [renderCmd, ha, Nat.lt_irrefl, if_false]
    rw [hr, List.singleton_append, parseLoop_step _ _ _ _ _ _ (cmdch_plain id).1 hs1]
    refine ⟨s1, hidle, ?_, rfl⟩
    rw [hcmds, addcmd, ha]
    rfl
  · have hpos : 0 < argcnt id := Nat.pos_of_ne_zero ha
    rw [if_neg ha] at hletter
    obtain ⟨s1, hs1, h1cur, h1i, h1c, h1e, h1ind, h1cmds⟩ : ∃ s1,
        parseStep cmdline pre.length (cmdch id) s = Except.ok s1 ∧
          s1.currcmd = some (addcmd id) ∧ s1.inarglist = false ∧ s1.incomment = false ∧
          s1.escaped = false ∧ s1.argind = 0 ∧ s1.cmds = s.cmds :=
      ⟨_, hletter, rfl, hi, hc, rfl, rfl, rfl⟩
    have hopen := parseStep_open cmdline (pre.length + 1) s1 (addcmd id) h1cur h1i h1c h1e h1ind
      hpos
    obtain ⟨s2, hs2, h2cur, h2i, h2c, h2e, h2ind, h2beg, h2cmds⟩ : ∃ s2,
        parseStep cmdline (pre.length + 1) 47 s1 = Except.ok s2 ∧
          s2.currcmd = some (addcmd id) ∧ s2.inarglist = true ∧ s2.incomment = false ∧
          s2.escaped = false ∧ s2.argind = 0 ∧ s2.argbegin = pre.length + 1 + 1 ∧
          s2.cmds = s.cmds :=
      ⟨_, hopen, h1cur, rfl, h1c, rfl, h1ind, rfl, h1cmds⟩
    have hr : renderCmd (id, args) = cmdch id :: 47 :: renderArgs args := by
      simp only [renderCmd, hpos, if_true]
    have hpre : (pre ++ [cmdch id, 47]).length = pre.length + 1 + 1 := by
      simp only [List.length_append, List.length_cons, List.length_nil]
    have hne : args ≠ [] := by
      intro h
      rw [h] at hlen
      exact ha hlen.symm
    obtain ⟨s3, hidle, hcmds, hrun⟩ := parseLoop_args cmdline post args [] (pre ++ [cmdch id, 47])
      s2 (addcmd id) (by rw [hcl, hr]; simp) h2cur h2i h2c h2e h2ind (by rw [h2beg, hpre])
      (by rw [hlen]; rfl) (by rw [hlen]; simp [addcmd]) hne hnice
    rw [hpre] at hrun
    rw [hr, List.cons_append, List.cons_append,
      parseLoop_step _ _ _ _ _ _ (cmdch_plain id).1 hs1, parseLoop_step _ _ _ _ _ _ (by decide) hs2,
      hrun]
    refine ⟨s3, hidle, ?_, ?_⟩
    · rw [hcmds, h2cmds]
      rfl
    · have e : pre.length + 1 + 1 + (renderArgs args).length
          = pre.length + (cmdch id :: 47 :: renderArgs args).length := by
        simp only [List.length_cons]; omega
      rw [e]

theorem parseLoop_render (cmdline : List Byte) (prog : List (CmdId × List (List Byte))) :
    ∀ (pre : List Byte) (s : Parser), cmdline = pre ++ render prog → Idle s →
      (∀ c ∈ prog, c.2.length = argcnt c.1 ∧ ∀ a ∈ c.2, ∀ b ∈ a, b ≠ 0 ∧ b ≠ 92) →
      ∃ s1, Idle s1 ∧
        s1.cmds = s.cmds ++ prog.map (fun c => (⟨c.1, c.2.map recorded, none⟩ : Cmd)) ∧
        parseLoop cmdline (render prog) pre.length s = Except.ok s1 := by
  induction prog with
  | nil =>
    intro pre s _ hs _
    exact ⟨s, hs, by simp, rfl⟩
  | cons c rest ih =>
    intro pre s hcl hs hok
    have hc := hok c (List.mem_cons_self _ _)
    rw [render] at hcl ⊢
    obtain ⟨s1, hidle1, hcmds1, hrun1⟩ := parseLoop_renderCmd cmdline pre (render rest) c s hcl hs
      hc.1 hc.2
    obtain ⟨s2, hidle2, hcmds2, hrun2⟩ := ih (pre ++ renderCmd c) s1
      (by rw [hcl, List.append_assoc]) hidle1 (fun x hx => hok x (List.mem_cons_of_mem _ hx))
    rw [List.length_append] at hrun2
    rw [hrun1, hrun2]
    refine ⟨s2, hidle2, ?_, rfl⟩
    rw [hcmds2, hcmds1, List.append_assoc]
    rfl

/-- C18: round trip of `parsecmds`.  For every sequence of commands over the
24 kinds, each with as many arguments as its kind takes and with arguments
that contain no NUL byte and no backslash, parsing with `quiet` set the text
that writes each command as its letter followed, when it takes arguments, by
`/` and each argument with every `/` written as `\/` and terminated by `/`,
returns that sequence of commands in order: an empty argument is recorded as
absent and a non-empty argument is equal to the original string. -/
theorem parsecmds_round_trip (prog : List (CmdId × List (List Byte)))
    (hok : ∀ c ∈ prog, c.2.length = argcnt c.1 ∧ ∀ a ∈ c.2, ∀ b ∈ a, b ≠ 0 ∧ b ≠ 92) :
    programOf (parsecmds true (render prog))
      = some (prog.map (fun c => (c.1, c.2.map recorded))) := by
  obtain ⟨s1, ⟨hcur, hi, _, _⟩, hcmds, hrun⟩ := parseLoop_render (render prog) prog [] Parser.init
    rfl ⟨rfl, rfl, rfl, rfl⟩ hok
  rw [List.length_nil] at hrun
  have hp : parsecmds true (render prog) = Except.ok s1.cmds := by
    unfold parsecmds
    rw [hrun]
    simp [hcur, hi]
  rw [hp, hcmds]
  simp [programOf, Parser.init]

/-- C18 at the program `s/a\//` with an empty second argument, followed by
`p`: the text is `s/a\///p`. -/
theorem parsecmds_round_trip_witness :
    render [(CmdId.CMD_SUB, [[97, 47], []]), (CmdId.CMD_PRINT, [])]
        = [115, 47, 97, 92, 47, 47, 47, 112] ∧
      programOf (parsecmds true (render [(CmdId.CMD_SUB, [[97, 47], []]), (CmdId.CMD_PRINT, [])]))
        = some [(CmdId.CMD_SUB, [some [97, 47], none]), (CmdId.CMD_PRINT, [])] :=
  ⟨by decide, parsecmds_round_trip [(CmdId.CMD_SUB, [[97, 47], []]), (CmdId.CMD_PRINT, [])]
    (by decide)⟩

/-! ### C15: the commands preserve I1 and I2 -/

theorem I1_cons_of (a : Intval) (l : List Intval)
    (ha : ∀ x ∈ l, a.from_ + a.len ≤ x.from_) (hl : I1 l) : I1 (a :: l) := by
  cases l with
  | nil => rfl
  | cons b rest => exact (I1_cons_cons a b rest).mpr ⟨ha b (List.mem_cons_self _ _), hl⟩

theorem I1_sublist {l1 l2 : List Intval} (hs : List.Sublist l1 l2) (h : I1 l2) : I1 l1 := by
  induction hs with
  | slnil => rfl
  | cons a _ ih => exact ih (I1_tail a _ h)
  | cons₂ a hsub ih =>
    exact I1_cons_of a _ (fun x hx => I1_head_le a _ h x (hsub.subset hx)) (ih (I1_tail a _ h))

theorem I2_sublist {n : Nat} {l1 l2 : List Intval} (hs : List.Sublist l1 l2) (h : I2 n l2) :
    I2 n l1 :=
  fun iv hiv => h iv (hs.subset hiv)

theorem guardinternal_inv (st : State) (cmd : Cmd) (negated : Bool)
    (h1 : I1 st.sels) (h2 : I2 st.buflen st.sels) :
    (guardinternal st cmd negated).buffer = st.buffer ∧
      (guardinternal st cmd negated).buflen = st.buflen ∧
      List.Sublist (guardinternal st cmd negated).sels st.sels ∧
      I1 (guardinternal st cmd negated).sels ∧ I2 st.buflen (guardinternal st cmd negated).sels := by
  have hs : List.Sublist (guardinternal st cmd negated).sels st.sels := by
    simp only [guardinternal, guardSels_filter, List.nil_append]
    exact List.filter_sublist _
  exact ⟨rfl, rfl, hs, I1_sublist hs h1, I2_sublist hs h2⟩

theorem gap_len (s f : Nat) (hs : s ≤ f) (hf : f < SIZE_MOD) :
    szadd (szsub (szsub f 1) s) 1 = f - s := by
  simp only [szadd, szsub, SIZE_MOD] at *
  omega

theorem flipGaps_inv (lo : Nat) (rest : List Intval) :
    ∀ (prev : Intval) (acc : List Intval), I1 (prev :: rest) →
      (∀ iv ∈ prev :: rest, iv.from_ + iv.len < SIZE_MOD) →
      I1 acc → (∀ g ∈ acc, lo ≤ g.from_ ∧ g.from_ + g.len ≤ prev.from_) → lo ≤ prev.from_ →
      I1 (flipGaps prev rest acc) ∧
        ∀ g ∈ flipGaps prev rest acc,
          lo ≤ g.from_ ∧ g.from_ + g.len ≤ (lastIv prev rest).from_ := by
  induction rest with
  | nil =>
    intro prev acc _ _ hacc1 hacc _
    exact ⟨hacc1, hacc⟩
  | cons intv rest ih =>
    intro prev acc h1 hfit hacc1 hacc hlo
    have hpi := ((I1_cons_cons prev intv rest).mp h1).1
    have h1r := ((I1_cons_cons prev intv rest).mp h1).2
    have hfp := hfit prev (List.mem_cons_self _ _)
    have hfi := hfit intv (List.mem_cons_of_mem _ (List.mem_cons_self _ _))
    have hstart : szadd prev.from_ prev.len = prev.from_ + prev.len := szadd_eq hfp
    have hgap := gap_len (prev.from_ + prev.len) intv.from_ hpi (by omega)
    rw [flipGaps, lastIv]
    simp only [hstart, hgap, addintv]
    refine ih intv _ h1r (fun iv hiv => hfit iv (List.mem_cons_of_mem _ hiv)) ?_ ?_ (by omega)
    · split
      · refine I1_append _ _ hacc1 rfl ?_
        intro x hx y hy
        rw [List.mem_singleton] at hy
        subst hy
        have := (hacc x hx).2
        show x.from_ + x.len ≤ prev.from_ + prev.len
        omega
      · exact hacc1
    · intro g hg
      have hold : ∀ g ∈ acc, lo ≤ g.from_ ∧ g.from_ + g.len ≤ intv.from_ := by
        intro g hg
        have := hacc g hg
        omega
      split at hg
      · rw [List.mem_append, List.mem_singleton] at hg
        rcases hg with hg | hg
        · exact hold g hg
        · subst hg
          show lo ≤ prev.from_ + prev.len ∧
            prev.from_ + prev.len + (intv.from_ - (prev.from_ + prev.len)) ≤ intv.from_
          omega
      · exact hold g hg

theorem lastIv_mem (a : Intval) (rest : List Intval) : lastIv a rest ∈ a :: rest := by
  induction rest generalizing a with
  | nil => exact List.mem_cons_self _ _
  | cons b rest ih => exact List.mem_cons_of_mem _ (ih b)

/-- The function `flipintvals` on a list that satisfies I1 and lies inside the
bound, `*lastintv` being its final element or `NULL`: the new list satisfies
I1 and lies inside the bound. -/
theorem flipintvals_inv (bound : Intval) (intvs out : List Intval) (lastintv : Option Intval)
    (h1 : I1 intvs)
    (hin : ∀ iv ∈ intvs, bound.from_ ≤ iv.from_ ∧ iv.from_ + iv.len ≤ bound.from_ + bound.len)
    (hfit : bound.from_ + bound.len < SIZE_MOD)
    (hlast : lastintv = none ∨ lastintv = intvs.getLast?)
    (hrun : flipintvals bound intvs lastintv = some out) : Within bound out := by
  cases intvs with
  | nil =>
    simp only [flipintvals, addintv, List.nil_append, Option.some.injEq] at hrun
    subst hrun
    refine ⟨rfl, ?_⟩
    intro m hm
    rw [List.mem_singleton] at hm
    subst hm
    exact ⟨Nat.le_refl _, Nat.le_refl _⟩
  | cons first rest =>
    rw [flipintvals] at hrun
    by_cases hb : first.from_ = bound.from_ ∧ first.len = bound.len
    · rw [if_pos hb] at hrun
      cases hrun
      exact ⟨rfl, fun m hm => absurd hm (List.not_mem_nil m)⟩
    · rw [if_neg hb] at hrun
      rcases hlast with hl | hl
      · rw [hl] at hrun
        cases hrun
      · rw [hl, getLast?_lastIv] at hrun
        simp only [Option.some.injEq] at hrun
        have hf := hin first (List.mem_cons_self _ _)
        have hL := hin _ (lastIv_mem first rest)
        have hnew1 : ∀ g ∈ (if bound.from_ < first.from_ then
              addintv bound.from_ (szsub first.from_ bound.from_) [] else []),
            bound.from_ ≤ g.from_ ∧ g.from_ + g.len ≤ first.from_ := by
          intro g hg
          split at hg
          · rw [addintv, List.nil_append, List.mem_singleton] at hg
            subst hg
            have := szsub_eq hf.1 (show first.from_ < SIZE_MOD by omega)
            show bound.from_ ≤ bound.from_ ∧
              bound.from_ + szsub first.from_ bound.from_ ≤ first.from_
            omega
          · exact absurd hg (List.not_mem_nil g)
        have hnew1I : I1 (if bound.from_ < first.from_ then
              addintv bound.from_ (szsub first.from_ bound.from_) [] else []) := by
          split <;> rfl
        obtain ⟨hI, hW⟩ := flipGaps_inv bound.from_ rest first _ h1
          (fun iv hiv => by have := hin iv hiv; omega) hnew1I hnew1 hf.1
        have hstart : szadd (lastIv first rest).from_ (lastIv first rest).len
            = (lastIv first rest).from_ + (lastIv first rest).len := szadd_eq (by omega)
        have hend : szadd bound.from_ bound.len = bound.from_ + bound.len := szadd_eq hfit
        rw [hstart, hend] at hrun
        have hW2 : ∀ g ∈ flipGaps first rest (if bound.from_ < first.from_ then
              addintv bound.from_ (szsub first.from_ bound.from_) [] else []),
            bound.from_ ≤ g.from_ ∧ g.from_ + g.len ≤ bound.from_ + bound.len := by
          intro g hg
          have := hW g hg
          omega
        by_cases hz : bound.from_ + bound.len = 0
        · exfalso
          apply hb
          omega
        · have he : szsub (bound.from_ + bound.len) 1 = bound.from_ + bound.len - 1 :=
            szsub_eq (by omega) hfit
          rw [he] at hrun
          split at hrun
          · rename_i hlt
            have hlen : szsub (bound.from_ + bound.len - 1)
                ((lastIv first rest).from_ + (lastIv first rest).len)
                = bound.from_ + bound.len - 1
                  - ((lastIv first rest).from_ + (lastIv first rest).len) :=
              szsub_eq (by omega) (by omega)
            rw [hlen, addintv] at hrun
            subst hrun
            refine ⟨I1_append _ _ hI rfl ?_, ?_⟩
            · intro x hx y hy
              rw [List.mem_singleton] at hy
              subst hy
              have := (hW x hx).2
              show x.from_ + x.len ≤ (lastIv first rest).from_ + (lastIv first rest).len
              omega
            · intro m hm
              rw [List.mem_append, List.mem_singleton] at hm
              rcases hm with hm | hm
              · exact hW2 m hm
              · subst hm
                show bound.from_ ≤ (lastIv first rest).from_ + (lastIv first rest).len ∧
                  (lastIv first rest).from_ + (lastIv first rest).len
                    + (bound.from_ + bound.len - 1
                      - ((lastIv first rest).from_ + (lastIv first rest).len))
                    ≤ bound.from_ + bound.len
                omega
          · subst hrun
            exact ⟨hI, hW2⟩

theorem takeWhile_length_le (p : Byte → Bool) (xs ys : List Byte) (z : Byte) (hz : p z = false) :
    ((xs ++ z :: ys).takeWhile p).length ≤ xs.length := by
  induction xs with
  | nil => simp [List.takeWhile, hz]
  | cons x xs ih =>
    rw [List.cons_append, List.takeWhile_cons]
    split
    · simp only [List.length_cons]
      omega
    · simp

theorem cstrAt_length_le (B : List Byte) (pos end_ : Nat) (hpos : pos ≤ end_)
    (hend : end_ ≤ B.length) : (cstrAt B pos end_).length ≤ end_ - pos := by
  have hlen : (B.take end_).length = end_ := by
    rw [List.length_take]; omega
  have h := takeWhile_length_le (fun b => decide (b ≠ 0)) ((B.take end_).drop pos)
    (B.drop (end_ + 1)) 0 (by decide)
  rw [List.length_drop, hlen] at h
  rw [cstrAt, patched, List.append_assoc, List.drop_append_of_le_length (by omega)]
  exact h

theorem charAt_end (B : List Byte) (end_ : Nat) (hend : end_ ≤ B.length) :
    charAt B end_ end_ = 0 := by
  have hlen : (B.take end_).length = end_ := by
    rw [List.length_take]; omega
  rw [charAt, patched, List.append_assoc, List.getD_eq_getElem?_getD,
    List.getElem?_append_right (by omega), hlen, Nat.sub_self]
  simp

theorem xtractLoop_inv (re : Regex) (hre : MatchesInside re) (B : List Byte) (lo end_ : Nat)
    (hend : end_ ≤ B.length) (hfit : end_ < SIZE_MOD) (fuel : Nat) :
    ∀ (pos : Nat) (acc out : List Intval), pos ≤ end_ → I1 acc →
      (∀ m ∈ acc, lo ≤ m.from_ ∧ m.from_ + m.len ≤ pos) → lo ≤ pos →
      xtractLoop fuel re B pos end_ acc = some out →
      I1 out ∧ ∀ m ∈ out, lo ≤ m.from_ ∧ m.from_ + m.len ≤ end_ := by
  induction fuel with
  | zero =>
    intro pos acc out _ _ _ _ hrun
    cases hrun
  | succ k ih =>
    intro pos acc out hpos hI hacc hlo hrun
    rw [xtractLoop] at hrun
    have hlen := cstrAt_length_le B pos end_ hpos hend
    rcases hm : re (cstrAt B pos end_) with _ | ⟨so, eo⟩
    · rw [hm] at hrun
      cases hrun
      exact ⟨hI, fun m h => by have := hacc m h; omega⟩
    · rw [hm] at hrun
      obtain ⟨hso, heo⟩ := hre _ so eo hm
      simp only at hrun
      by_cases h0 : eo = 0
      · rw [if_pos h0] at hrun
        by_cases hc : charAt B pos end_ ≠ 0
        · rw [if_pos hc] at hrun
          have hne : pos ≠ end_ := by
            intro h
            rw [h] at hc
            exact hc (charAt_end B end_ hend)
          exact ih (pos + 1) acc out (by omega) hI
            (fun m h => by have := hacc m h; omega) (by omega) hrun
        · rw [if_neg hc] at hrun
          cases hrun
          exact ⟨hI, fun m h => by have := hacc m h; omega⟩
      · rw [if_neg h0] at hrun
        have e1 : szadd pos so = pos + so := szadd_eq (by omega)
        have e2 : szsub eo so = eo - so := szsub_eq hso (by omega)
        rw [e1, e2, addintv] at hrun
        refine ih (pos + eo) _ out (by omega) ?_ ?_ (by omega) hrun
        · refine I1_append _ _ hI rfl ?_
          intro x hx y hy
          rw [List.mem_singleton] at hy
          subst hy
          have := (hacc x hx).2
          show x.from_ + x.len ≤ pos + so
          omega
        · intro m h
          rw [List.mem_append, List.mem_singleton] at h
          rcases h with h | h
          · have := hacc m h
            omega
          · subst h
            show lo ≤ pos + so ∧ pos + so + (eo - so) ≤ pos + eo
            omega

theorem xtractMatches_inv (fuel : Nat) (regex : Option Regex)
    (hre : ∀ re, regex = some re → MatchesInside re) (B : List Byte) (sel : Intval)
    (negated : Bool) (ms : List Intval)
    (hend : sel.from_ + sel.len ≤ B.length) (hfit : sel.from_ + sel.len < SIZE_MOD)
    (hrun : xtractMatches fuel regex B sel negated = some ms) : Within sel ms := by
  have hsz : szadd sel.from_ sel.len = sel.from_ + sel.len := szadd_eq hfit
  have hfound : ∀ found, (match regex with
      | none => some []
      | some re => xtractLoop fuel re B sel.from_ (szadd sel.from_ sel.len) []) = some found →
      Within sel found := by
    intro found hf
    cases regex with
    | none =>
      cases hf
      exact ⟨rfl, fun m hm => absurd hm (List.not_mem_nil m)⟩
    | some re =>
      simp only [hsz] at hf
      exact xtractLoop_inv re (hre re rfl) B sel.from_ (sel.from_ + sel.len) hend hfit fuel
        sel.from_ [] found (by omega) rfl (fun m hm => absurd hm (List.not_mem_nil m))
        (Nat.le_refl _) hf
  unfold xtractMatches at hrun
  simp only at hrun
  rcases hf : (match regex with
      | none => some []
      | some re => xtractLoop fuel re B sel.from_ (szadd sel.from_ sel.len) []) with _ | found
  · rw [hf] at hrun
    cases hrun
  · rw [hf] at hrun
    have hW := hfound found hf
    simp only at hrun
    cases negated with
    | false =>
      simp only [Bool.false_eq_true, if_false, Option.some.injEq] at hrun
      subst hrun
      exact hW
    | true =>
      simp only [if_true] at hrun
      exact flipintvals_inv sel found ms _ hW.1 hW.2 hfit (Or.inr rfl) hrun

theorem xtractinternal_inv (fuel : Nat) (regex : Option Regex)
    (hre : ∀ re, regex = some re → MatchesInside re) (B : List Byte) (done : List Intval)
    (sel : Intval) (negated : Bool) (done1 : List Intval)
    (hend : sel.from_ + sel.len ≤ B.length) (hfit : sel.from_ + sel.len < SIZE_MOD)
    (hrun : xtractinternal fuel regex B done sel negated = some done1) :
    ∃ ms, Within sel ms ∧ done1 = done ++ ms := by
  rw [xtractinternal] at hrun
  rcases hm : xtractMatches fuel regex B sel negated with _ | ms
  · rw [hm] at hrun
    cases hrun
  · rw [hm] at hrun
    have hW := xtractMatches_inv fuel regex hre B sel negated ms hend hfit hm
    refine ⟨ms, hW, ?_⟩
    simp only at hrun
    by_cases he : ms = [sel]
    · rw [if_pos he, Option.some.injEq] at hrun
      rw [← hrun, he]
    · rw [if_neg he, Option.some.injEq] at hrun
      exact hrun.symm

theorem xtractSels_inv (fuel : Nat) (regex : Option Regex)
    (hre : ∀ re, regex = some re → MatchesInside re) (B : List Byte) (n : Nat)
    (hB : n ≤ B.length) (hfit : n < SIZE_MOD) (negated : Bool) (sels : List Intval) :
    ∀ (done out : List Intval) (prevsel : Option Intval), I1 sels → I2 n sels → I1 done →
      I2 n done → (∀ d ∈ done, ∀ s ∈ sels, d.from_ + d.len ≤ s.from_) →
      xtractSels fuel regex B negated done sels = some (out, prevsel) →
      I1 out ∧ I2 n out := by
  induction sels with
  | nil =>
    intro done out prevsel _ _ hd1 hd2 _ hrun
    simp only [xtractSels, Option.some.injEq, Prod.mk.injEq] at hrun
    rw [← hrun.1]
    exact ⟨hd1, hd2⟩
  | cons sel next ih =>
    intro done out prevsel h1 h2 hd1 hd2 hcross hrun
    have hs2 := h2 sel (List.mem_cons_self _ _)
    rw [xtractSels] at hrun
    rcases hx : xtractinternal fuel regex B done sel negated with _ | done1
    · rw [hx] at hrun
      cases hrun
    · rw [hx] at hrun
      obtain ⟨ms, hW, hdone1⟩ := xtractinternal_inv fuel regex hre B done sel negated done1
        (by omega) (by omega) hx
      simp only at hrun
      rcases hl : done1.getLast? with _ | l
      · rw [hl] at hrun
        simp only [Option.some.injEq, Prod.mk.injEq] at hrun
        have hnil : done1 = [] := List.getLast?_eq_none_iff.mp hl
        rw [← hrun.1, hnil, List.nil_append]
        exact ⟨I1_tail sel next h1, fun iv hiv => h2 iv (List.mem_cons_of_mem _ hiv)⟩
      · rw [hl] at hrun
        simp only at hrun
        refine ih done1 out prevsel (I1_tail sel next h1)
          (fun iv hiv => h2 iv (List.mem_cons_of_mem _ hiv)) ?_ ?_ ?_ hrun
        · rw [hdone1]
          refine I1_append _ _ hd1 hW.1 ?_
          intro d hd m hm
          have := hcross d hd sel (List.mem_cons_self _ _)
          have := (hW.2 m hm).1
          omega
        · rw [hdone1]
          intro iv hiv
          rw [List.mem_append] at hiv
          rcases hiv with hiv | hiv
          · exact hd2 iv hiv
          · have := (hW.2 iv hiv).2
            omega
        · rw [hdone1]
          intro d hd s hs
          rw [List.mem_append] at hd
          rcases hd with hd | hd
          · exact hcross d hd s (List.mem_cons_of_mem _ hs)
          · have := (hW.2 d hd).2
            have := I1_head_le sel next h1 s hs
            omega

theorem subLoop_spec (re : Regex) (hre : MatchesInside re) (B : List Byte) (end_ : Nat)
    (hend : end_ ≤ B.length) (hfit : end_ < SIZE_MOD) (fuel : Nat) :
    ∀ (pos : Nat) (acc0 res : SubAcc), pos ≤ end_ →
      subLoop fuel re B pos end_ acc0 = some res →
      (I1 (subMs fuel re B pos end_) ∧
        ∀ m ∈ subMs fuel re B pos end_, pos ≤ m.from_ ∧ m.from_ + m.len ≤ end_) ∧
      (subMs fuel re B pos end_).length ≤ end_ - pos + 1 ∧
      ∀ (acc : List Intval) (k r : Nat),
        k + (subMs fuel re B pos end_).length < UINT_MOD →
        r + lenSum (subMs fuel re B pos end_) < SIZE_MOD →
        subLoop fuel re B pos end_ ⟨acc, k, r⟩
          = some ⟨acc ++ subMs fuel re B pos end_, k + (subMs fuel re B pos end_).length,
              r + lenSum (subMs fuel re B pos end_)⟩ := by
  induction fuel with
  | zero =>
    intro pos acc0 res _ hrun
    cases hrun
  | succ n ih =>
    intro pos acc0 res hpos hrun
    rw [subLoop] at hrun
    have hlen := cstrAt_length_le B pos end_ hpos hend
    rcases hm : re (cstrAt B pos end_) with _ | ⟨so, eo⟩
    · have hMs : subMs (n + 1) re B pos end_ = [] := by
        rw [subMs, hm]
      rw [hMs]
      refine ⟨⟨rfl, fun m h => absurd h (List.not_mem_nil m)⟩, Nat.zero_le _, ?_⟩
      intro acc k r _ _
      rw [subLoop, hm]
      simp [lenSum]
    · rw [hm] at hrun
      obtain ⟨hso, heo⟩ := hre _ so eo hm
      have e1 : szadd pos so = pos + so := szadd_eq (by omega)
      have e2 : szsub eo so = eo - so := szsub_eq hso (by omega)
      simp only at hrun
      by_cases hc : charAt B (pos + eo) end_ = 0
      · have hMs : subMs (n + 1) re B pos end_ = [⟨pos + so, eo - so⟩] := by
          rw [subMs, hm]
          simp only [hc, if_true]
        rw [hMs]
        refine ⟨⟨rfl, ?_⟩, by simp, ?_⟩
        · intro m h
          rw [List.mem_singleton] at h
          subst h
          show pos ≤ pos + so ∧ pos + so + (eo - so) ≤ end_
          omega
        · intro acc k r hk hr
          simp only [lenSum, List.length_singleton, Nat.add_zero] at hk hr ⊢
          have e3 : uadd k 1 = k + 1 := by
            simp only [uadd, UINT_MOD] at *; omega
          have e4 : szadd r (eo - so) = r + (eo - so) := szadd_eq hr
          rw [subLoop, hm]
          simp only [hc, if_true, e1, e2, e3, e4, addintv]
      · rw [if_neg hc] at hrun
        have hpos1 : 1 ≤ eo := by
          rcases Nat.eq_zero_or_pos eo with h0 | h0
          · exfalso
            subst h0
            have hso0 : so = 0 := by omega
            subst hso0
            rw [Nat.add_zero] at hrun hc
            rw [subLoop_stuck re B pos end_ hm hc n _] at hrun
            cases hrun
          · exact h0
        obtain ⟨⟨hI, hW⟩, hL, hF⟩ := ih (pos + eo) _ res (by omega) hrun
        have hMs : subMs (n + 1) re B pos end_
            = ⟨pos + so, eo - so⟩ :: subMs n re B (pos + eo) end_ := by
          rw [subMs, hm]
          simp only [hc, if_false]
        rw [hMs]
        refine ⟨⟨?_, ?_⟩, ?_, ?_⟩
        · refine I1_cons_of _ _ ?_ hI
          intro x hx
          have := (hW x hx).1
          show pos + so + (eo - so) ≤ x.from_
          omega
        · intro m h
          rw [List.mem_cons] at h
          rcases h with h | h
          · subst h
            show pos ≤ pos + so ∧ pos + so + (eo - so) ≤ end_
            omega
          · have := hW m h
            omega
        · simp only [List.length_cons]
          omega
        · intro acc k r hk hr
          simp only [lenSum, List.length_cons] at hk hr ⊢
          have e3 : uadd k 1 = k + 1 := by
            simp only [uadd, UINT_MOD] at *; omega
          have e4 : szadd r (eo - so) = r + (eo - so) := szadd_eq (by omega)
          rw [subLoop, hm]
          simp only [hc, if_false, e1, e2, e3, e4, addintv]
          rw [hF (acc ++ [(⟨pos + so, eo - so⟩ : Intval)]) (k + 1) (r + (eo - so)) (by omega)
            (by omega)]
          simp only [List.append_assoc, List.singleton_append, Option.some.injEq,
            SubAcc.mk.injEq, true_and]
          omega

theorem subMatch_spec (fuel : Nat) (cmd : Cmd)
    (hre : ∀ re, cmd.regex = some re → MatchesInside re) (B : List Byte) (sel : Intval)
    (acc0 : List Intval) (res : SubAcc)
    (hend : sel.from_ + sel.len ≤ B.length) (hfit : sel.from_ + sel.len < SIZE_MOD)
    (hcnt : (cmd.arg 0 = some PAT_START ∨ cmd.arg 0 = some PAT_END) ∨ sel.len + 1 < UINT_MOD)
    (hrun : subMatch fuel cmd B sel acc0 = some res) :
    Within sel (subM fuel cmd B sel) ∧ (subM fuel cmd B sel).length ≤ sel.len + 1 ∧
      ∀ acc, subMatch fuel cmd B sel acc
        = some ⟨acc ++ subM fuel cmd B sel, (subM fuel cmd B sel).length,
            lenSum (subM fuel cmd B sel)⟩ := by
  have hsz : szadd sel.from_ sel.len = sel.from_ + sel.len := szadd_eq hfit
  unfold subMatch at hrun
  rcases ha : cmd.arg 0 with _ | pat
  · rw [ha] at hrun
    cases hrun
  · rw [ha] at hrun
    simp only at hrun
    by_cases h1 : pat = PAT_START
    · subst h1
      have hM : subM fuel cmd B sel = anchorStart sel := by
        simp only [subM, ha, if_true]
      rw [hM]
      refine ⟨⟨rfl, ?_⟩, by simp [anchorStart], ?_⟩
      · intro m hm
        rw [anchorStart, List.mem_singleton] at hm
        subst hm
        show sel.from_ ≤ sel.from_ ∧ sel.from_ + 0 ≤ sel.from_ + sel.len
        omega
      · intro acc
        simp [subMatch, ha, anchorStart, addintv, lenSum]
    · by_cases h2 : pat = PAT_END
      · subst h2
        have hM : subM fuel cmd B sel = anchorEnd sel := by
          simp only [subM, ha, Option.some.injEq, h1, if_false, if_true]
        rw [hM]
        refine ⟨⟨rfl, ?_⟩, by simp [anchorEnd], ?_⟩
        · intro m hm
          rw [anchorEnd, List.mem_singleton] at hm
          subst hm
          show sel.from_ ≤ sel.from_ + sel.len ∧ sel.from_ + sel.len + 0 ≤ sel.from_ + sel.len
          omega
        · intro acc
          simp [subMatch, ha, h1, hsz, anchorEnd, addintv, lenSum]
      · by_cases h3 : pat = PAT_EMPTY
        · subst h3
          have hM : subM fuel cmd B sel = anchorEmpty sel := by
            simp only [subM, ha, Option.some.injEq, h1, h2, if_false, if_true]
          rw [hM]
          by_cases hz : sel.len = 0
          · refine ⟨⟨?_, ?_⟩, by simp [anchorEmpty, hz], ?_⟩
            · simp only [anchorEmpty, hz, if_true]
              rfl
            · intro m hm
              simp only [anchorEmpty, hz, if_true, List.mem_singleton] at hm
              subst hm
              show sel.from_ ≤ sel.from_ ∧ sel.from_ + 0 ≤ sel.from_ + sel.len
              omega
            · intro acc
              simp [subMatch, ha, h1, h2, hz, anchorEmpty, addintv, lenSum, szadd]
          · refine ⟨⟨?_, ?_⟩, by simp [anchorEmpty, hz], ?_⟩
            · simp only [anchorEmpty, hz, if_false]
              rfl
            · intro m hm
              simp only [anchorEmpty, hz, if_false, List.not_mem_nil] at hm
            · intro acc
              simp [subMatch, ha, h1, h2, hz, anchorEmpty, lenSum]
        · rw [if_neg h1, if_neg h2, if_neg h3] at hrun
          rcases hr : cmd.regex with _ | re
          · rw [hr] at hrun
            cases hrun
          · rw [hr, hsz] at hrun
            have hM : subM fuel cmd B sel = subMs fuel re B sel.from_ (sel.from_ + sel.len) := by
              simp only [subM, ha, Option.some.injEq, h1, h2, h3, if_false, hr]
            obtain ⟨⟨hI, hW⟩, hL, hF⟩ := subLoop_spec re (hre re hr) B (sel.from_ + sel.len)
              hend hfit fuel sel.from_ _ res (by omega) hrun
            rw [hM]
            have hWi : Within sel (subMs fuel re B sel.from_ (sel.from_ + sel.len)) := ⟨hI, hW⟩
            have hLs := within_lenSum_le sel _ hWi
            have hcnt1 : sel.len + 1 < UINT_MOD := by
              rcases hcnt with (h | h) | h
              · rw [ha, Option.some.injEq] at h
                exact absurd h h1
              · rw [ha, Option.some.injEq] at h
                exact absurd h h2
              · exact h
            refine ⟨hWi, by omega, ?_⟩
            intro acc
            have := hF acc 0 0 (by omega) (by omega)
            simp only [Nat.zero_add] at this
            rw [← this]
            simp only [subMatch, ha, h1, h2, h3, if_false, hr, hsz]

theorem subSels_some (fuel : Nat) (cmd : Cmd) (B : List Byte) (t : Nat) (sels : List Intval) :
    ∀ (s0 s : SubState), subSels fuel cmd B t sels s0 = some s →
      ∀ sel ∈ sels, ∃ acc res, subMatch fuel cmd B sel acc = some res := by
  induction sels with
  | nil => intro _ _ _ sel hsel; exact absurd hsel (List.not_mem_nil sel)
  | cons x rest ih =>
    intro s0 s hrun sel hsel
    rw [subSels] at hrun
    rcases hm : subMatch fuel cmd B x s0.matchintvs with _ | acc
    · rw [hm] at hrun
      cases hrun
    · rw [hm] at hrun
      rw [List.mem_cons] at hsel
      rcases hsel with hsel | hsel
      · subst hsel
        exact ⟨_, _, hm⟩
      · exact ih _ s hrun sel hsel

theorem shiftSels_I1 (t : Nat) (M : Intval → List Intval) (sels : List Intval) :
    ∀ (c p : Nat), I1 (shiftSels t M c p sels) := by
  induction sels with
  | nil => intro _ _; rfl
  | cons s rest ih =>
    intro c p
    rw [shiftSels]
    exact I1_cons_of _ _ (fun x hx => shiftSels_from_ge t M rest _ _ x hx) (ih _ _)

theorem shiftSels_length (t : Nat) (M : Intval → List Intval) (sels : List Intval) :
    ∀ (c p : Nat), (shiftSels t M c p sels).length = sels.length := by
  induction sels with
  | nil => intro _ _; rfl
  | cons s rest ih =>
    intro c p
    rw [shiftSels, List.length_cons, List.length_cons, ih]

theorem lenSum_flatMap_le (M : Intval → List Intval) (sels : List Intval)
    (hW : ∀ x ∈ sels, Within x (M x)) : lenSum (sels.flatMap M) ≤ lenSum sels := by
  induction sels with
  | nil => exact Nat.le_refl _
  | cons s rest ih =>
    have h1 := within_lenSum_le s (M s) (hW s (List.mem_cons_self _ _))
    have h2 := ih (fun x hx => hW x (List.mem_cons_of_mem _ hx))
    rw [List.flatMap_cons, lenSum_append, lenSum]
    omega

theorem flatMap_length_le_lenSum (M : Intval → List Intval) (sels : List Intval)
    (hL : ∀ x ∈ sels, (M x).length ≤ x.len + 1) :
    (sels.flatMap M).length ≤ lenSum sels + sels.length := by
  induction sels with
  | nil => exact Nat.le_refl _
  | cons s rest ih =>
    have h1 := hL s (List.mem_cons_self _ _)
    have h2 := ih (fun x hx => hL x (List.mem_cons_of_mem _ hx))
    rw [List.flatMap_cons, List.length_append, lenSum, List.length_cons]
    omega

theorem shiftSels_I2 (t n : Nat) (M : Intval → List Intval) (sels : List Intval) :
    ∀ (c p : Nat), I1 sels → I2 n sels → (∀ x ∈ sels, c ≤ x.from_) → c ≤ n →
      (∀ x ∈ sels, Within x (M x)) →
      ∀ x ∈ shiftSels t M c p sels,
        x.from_ + x.len + lenSum (sels.flatMap M) ≤ p + (n - c) + (sels.flatMap M).length * t := by
  induction sels with
  | nil => intro _ _ _ _ _ _ _ x hx; exact absurd hx (List.not_mem_nil x)
  | cons s rest ih =>
    intro c p h1 h2 hc hcn hW x hx
    have hs2 := h2 s (List.mem_cons_self _ _)
    have hsc := hc s (List.mem_cons_self _ _)
    have hLs := within_lenSum_le s (M s) (hW s (List.mem_cons_self _ _))
    have hWr : ∀ y ∈ rest, Within y (M y) := fun y hy => hW y (List.mem_cons_of_mem _ hy)
    have h1r := I1_tail s rest h1
    have h2r : I2 n rest := fun y hy => h2 y (List.mem_cons_of_mem _ hy)
    have hLr := lenSum_flatMap_le M rest hWr
    have hLn := lenSum_le n rest (s.from_ + s.len) h1r h2r (I1_head_le s rest h1) hs2
    rw [List.flatMap_cons, lenSum_append, List.length_append, Nat.add_mul]
    rw [shiftSels, List.mem_cons] at hx
    rcases hx with hx | hx
    · subst hx
      show p + (s.from_ - c) + (s.len - lenSum (M s) + (M s).length * t)
          + (lenSum (M s) + lenSum (rest.flatMap M))
        ≤ p + (n - c) + ((M s).length * t + (rest.flatMap M).length * t)
      omega
    · have := ih (s.from_ + s.len) _ h1r h2r (I1_head_le s rest h1) hs2 hWr x hx
      omega

theorem subM_anchor (fuel : Nat) (cmd : Cmd) (B : List Byte) (sel : Intval)
    (h : cmd.arg 0 = some PAT_START ∨ cmd.arg 0 = some PAT_END) :
    (subM fuel cmd B sel).length ≤ 1 ∧ lenSum (subM fuel cmd B sel) = 0 := by
  rcases h with h | h
  · simp [subM, h, anchorStart, lenSum]
  · have hne : ¬ PAT_END = PAT_START := by decide
    simp [subM, h, hne, anchorEnd, lenSum]

theorem cmd_sub_matches (fuel : Nat) (st st' : State) (cmd : Cmd)
    (hgo : ¬ (cmd.regex.isNone ∧
      (cmd.arg 0 = none ∨ (cmd.arg 0 ≠ some PAT_START ∧ cmd.arg 0 ≠ some PAT_END))))
    (hrun : cmd_sub fuel st cmd = some st') :
    ∀ sel ∈ st.sels, ∃ acc res, subMatch fuel cmd st.buffer sel acc = some res := by
  unfold cmd_sub at hrun
  simp only at hrun
  rw [if_neg hgo] at hrun
  rcases hs : subSels fuel cmd st.buffer (arglen (cmd.arg 1)) st.sels ⟨[], 0, 0, 0, []⟩ with _ | s
  · rw [hs] at hrun
    cases hrun
  · exact subSels_some fuel cmd st.buffer _ st.sels _ s hs

theorem cmd_sub_core (fuel : Nat) (st st' : State) (cmd : Cmd) (M : Intval → List Intval)
    (hB : st.buffer.length = st.buflen) (h1 : I1 st.sels) (h2 : I2 st.buflen st.sels)
    (hfit : st.buflen < SIZE_MOD)
    (hgo : ¬ (cmd.regex.isNone ∧
      (cmd.arg 0 = none ∨ (cmd.arg 0 ≠ some PAT_START ∧ cmd.arg 0 ≠ some PAT_END))))
    (hM : ∀ sel ∈ st.sels, ∀ acc, subMatch fuel cmd st.buffer sel acc
      = some ⟨acc ++ M sel, (M sel).length, lenSum (M sel)⟩)
    (hW : ∀ x ∈ st.sels, Within x (M x))
    (hcnt : (st.sels.flatMap M).length < UINT_MOD)
    (hnew : st.buflen + (st.sels.flatMap M).length * arglen (cmd.arg 1)
      < SIZE_MOD + lenSum (st.sels.flatMap M))
    (hrun : cmd_sub fuel st cmd = some st') :
    st'.buffer.length = st'.buflen ∧ I1 st'.sels ∧ I2 st'.buflen st'.sels ∧
      st'.sels.length = st.sels.length ∧
      st'.buflen ≤ st.buflen + (st.sels.flatMap M).length * arglen (cmd.arg 1) := by
  obtain ⟨st2, hst2, _, hlen, hsels, _, hbl⟩ :=
    cmd_sub_spec fuel st cmd M hB h1 h2 hfit hgo hM hW hcnt hnew
  rw [hrun, Option.some.injEq] at hst2
  subst hst2
  have hI2 := shiftSels_I2 (arglen (cmd.arg 1)) st.buflen M st.sels 0 0 h1 h2
    (fun _ _ => Nat.zero_le _) (Nat.zero_le _) hW
  refine ⟨hbl, ?_, ?_, ?_, by omega⟩
  · rw [hsels]
    exact shiftSels_I1 _ _ _ _ _
  · rw [hsels, hlen]
    intro x hx
    have := hI2 x hx
    omega
  · rw [hsels, shiftSels_length]

/-- The command `s` keeps the buffer length, I1 and I2, when it returns. -/
theorem cmd_sub_inv (fuel : Nat) (st st' : State) (cmd : Cmd)
    (hre : ∀ re, cmd.regex = some re → MatchesInside re)
    (hB : st.buffer.length = st.buflen) (h1 : I1 st.sels) (h2 : I2 st.buflen st.sels)
    (hcnt : st.buflen + st.sels.length < UINT_MOD)
    (hnew : (st.buflen + st.sels.length) * (arglen (cmd.arg 1) + 1) < SIZE_MOD)
    (hrun : cmd_sub fuel st cmd = some st') :
    st'.buffer.length = st'.buflen ∧ I1 st'.sels ∧ I2 st'.buflen st'.sels := by
  have hfit : st.buflen < SIZE_MOD := by
    simp only [SIZE_MOD, UINT_MOD] at *; omega
  by_cases hgo : cmd.regex.isNone ∧
      (cmd.arg 0 = none ∨ (cmd.arg 0 ≠ some PAT_START ∧ cmd.arg 0 ≠ some PAT_END))
  · unfold cmd_sub at hrun
    simp only at hrun
    rw [if_pos hgo, Option.some.injEq] at hrun
    subst hrun
    exact ⟨hB, h1, h2⟩
  · have hsome := cmd_sub_matches fuel st st' cmd hgo hrun
    have hspec : ∀ sel ∈ st.sels, Within sel (subM fuel cmd st.buffer sel) ∧
        (subM fuel cmd st.buffer sel).length ≤ sel.len + 1 ∧
        ∀ acc, subMatch fuel cmd st.buffer sel acc
          = some ⟨acc ++ subM fuel cmd st.buffer sel, (subM fuel cmd st.buffer sel).length,
              lenSum (subM fuel cmd st.buffer sel)⟩ := by
      intro sel hsel
      obtain ⟨acc, res, hr⟩ := hsome sel hsel
      have hs2 := h2 sel hsel
      have hpos : 0 < st.sels.length := List.length_pos_of_mem hsel
      exact subMatch_spec fuel cmd hre st.buffer sel acc res (by omega) (by omega)
        (Or.inr (by omega)) hr
    have hLs := lenSum_le st.buflen st.sels 0 h1 h2 (fun _ _ => Nat.zero_le _) (Nat.zero_le _)
    have hF := flatMap_length_le_lenSum (subM fuel cmd st.buffer) st.sels
      (fun x hx => (hspec x hx).2.1)
    have hmul := Nat.mul_le_mul_right (arglen (cmd.arg 1)) (show
      (st.sels.flatMap (subM fuel cmd st.buffer)).length ≤ st.buflen + st.sels.length by omega)
    rw [Nat.mul_add, Nat.mul_one] at hnew
    obtain ⟨a, b, c, _, _⟩ := cmd_sub_core fuel st st' cmd (subM fuel cmd st.buffer) hB h1 h2 hfit
      hgo (fun x hx => (hspec x hx).2.2) (fun x hx => (hspec x hx).1) (by omega) (by omega) hrun
    exact ⟨a, b, c⟩

/-- The commands `i` and `a`, as `cmd_sub` on the proxy command, keep the
buffer length, I1, I2 and the number of selections. -/
theorem cmd_sub_anchor_inv (fuel : Nat) (st st' : State) (pat : List Byte)
    (hpat : pat = PAT_START ∨ pat = PAT_END) (str : Option (List Byte))
    (hB : st.buffer.length = st.buflen) (h1 : I1 st.sels) (h2 : I2 st.buflen st.sels)
    (hcnt : st.sels.length < UINT_MOD)
    (hnew : st.buflen + st.sels.length * arglen str < SIZE_MOD)
    (hrun : cmd_sub fuel st ⟨CmdId.CMD_SUB, [some pat, str], none⟩ = some st') :
    st'.buffer.length = st'.buflen ∧ I1 st'.sels ∧ I2 st'.buflen st'.sels ∧
      st'.sels.length = st.sels.length ∧
      st'.buflen ≤ st.buflen + st.sels.length * arglen str := by
  have ha0 : (⟨CmdId.CMD_SUB, [some pat, str], none⟩ : Cmd).arg 0 = some pat := rfl
  have ha1 : (⟨CmdId.CMD_SUB, [some pat, str], none⟩ : Cmd).arg 1 = str := by
    cases str <;> rfl
  have hanch : (⟨CmdId.CMD_SUB, [some pat, str], none⟩ : Cmd).arg 0 = some PAT_START ∨
      (⟨CmdId.CMD_SUB, [some pat, str], none⟩ : Cmd).arg 0 = some PAT_END := by
    rw [ha0]
    rcases hpat with h | h
    · exact Or.inl (congrArg some h)
    · exact Or.inr (congrArg some h)
  have hgo : ¬ ((⟨CmdId.CMD_SUB, [some pat, str], none⟩ : Cmd).regex.isNone ∧
      ((⟨CmdId.CMD_SUB, [some pat, str], none⟩ : Cmd).arg 0 = none ∨
        ((⟨CmdId.CMD_SUB, [some pat, str], none⟩ : Cmd).arg 0 ≠ some PAT_START ∧
          (⟨CmdId.CMD_SUB, [some pat, str], none⟩ : Cmd).arg 0 ≠ some PAT_END))) := by
    rintro ⟨_, h | ⟨h3, h4⟩⟩
    · rw [ha0] at h
      cases h
    · rcases hanch with h | h
      · exact h3 h
      · exact h4 h
  have hfit : st.buflen < SIZE_MOD := by omega
  have hsome := cmd_sub_matches fuel st st' _ hgo hrun
  have hspec : ∀ sel ∈ st.sels,
      Within sel (subM fuel ⟨CmdId.CMD_SUB, [some pat, str], none⟩ st.buffer sel) ∧
      (subM fuel ⟨CmdId.CMD_SUB, [some pat, str], none⟩ st.buffer sel).length ≤ sel.len + 1 ∧
      ∀ acc, subMatch fuel ⟨CmdId.CMD_SUB, [some pat, str], none⟩ st.buffer sel acc
        = some ⟨acc ++ subM fuel ⟨CmdId.CMD_SUB, [some pat, str], none⟩ st.buffer sel,
            (subM fuel ⟨CmdId.CMD_SUB, [some pat, str], none⟩ st.buffer sel).length,
            lenSum (subM fuel ⟨CmdId.CMD_SUB, [some pat, str], none⟩ st.buffer sel)⟩ := by
    intro sel hsel
    obtain ⟨acc, res, hr⟩ := hsome sel hsel
    have hs2 := h2 sel hsel
    exact subMatch_spec fuel _ (fun re h => by cases h) st.buffer sel acc res (by omega)
      (by omega) (Or.inl hanch) hr
  have hF := flatMap_length_le (subM fuel ⟨CmdId.CMD_SUB, [some pat, str], none⟩ st.buffer)
    st.sels (fun x _ => (subM_anchor fuel _ st.buffer x hanch).1)
  have hZ := flatMap_lenSum_zero (subM fuel ⟨CmdId.CMD_SUB, [some pat, str], none⟩ st.buffer)
    st.sels (fun x _ => (subM_anchor fuel _ st.buffer x hanch).2)
  have hmul := Nat.mul_le_mul_right (arglen str) hF
  obtain ⟨a, b, c, d, e⟩ := cmd_sub_core fuel st st' _
    (subM fuel ⟨CmdId.CMD_SUB, [some pat, str], none⟩ st.buffer) hB h1 h2 hfit
    hgo (fun x hx => (hspec x hx).2.2) (fun x hx => (hspec x hx).1) (by omega)
    (by rw [ha1]; omega) hrun
  rw [ha1] at e
  exact ⟨a, b, c, d, by omega⟩

theorem cmd_change_inv (st : State) (cmd : Cmd)
    (hB : st.buffer.length = st.buflen) (h1 : I1 st.sels) (h2 : I2 st.buflen st.sels)
    (hfit : st.buflen < SIZE_MOD)
    (hnew : st.buflen - lenSum st.sels + st.sels.length * arglen (cmd.arg 0) < SIZE_MOD) :
    (cmd_change st cmd).buffer.length = (cmd_change st cmd).buflen ∧
      I1 (cmd_change st cmd).sels ∧ I2 (cmd_change st cmd).buflen (cmd_change st cmd).sels := by
  refine ⟨(cmd_change_buffer st cmd hB h1 h2 hfit hnew).2.2, ?_, ?_⟩
  · unfold cmd_change
    simp only
    split <;> rfl
  · unfold cmd_change
    simp only
    split
    · intro iv hiv
      exact absurd hiv (List.not_mem_nil iv)
    · intro iv hiv
      simp only [addintv, List.nil_append, List.mem_singleton] at hiv
      subst hiv
      exact Nat.le_of_eq (Nat.zero_add _)

theorem cmd_xtract_inv (fuel : Nat) (st st' : State) (cmd : Cmd)
    (hre : ∀ re, cmd.regex = some re → MatchesInside re)
    (hB : st.buffer.length = st.buflen) (h1 : I1 st.sels) (h2 : I2 st.buflen st.sels)
    (hfit : st.buflen < SIZE_MOD) (hrun : cmd_xtract fuel st cmd = some st') :
    st'.buffer.length = st'.buflen ∧ I1 st'.sels ∧ I2 st'.buflen st'.sels := by
  unfold cmd_xtract at hrun
  by_cases hz : zeroLengthPattern cmd = true
  · rw [if_pos hz, Option.some.injEq] at hrun
    subst hrun
    exact ⟨hB, rfl, fun iv hiv => absurd hiv (List.not_mem_nil iv)⟩
  · rw [if_neg hz] at hrun
    rcases hx : xtractSels fuel cmd.regex st.buffer false [] st.sels with _ | ⟨sels, prevsel⟩
    · rw [hx] at hrun
      cases hrun
    · rw [hx] at hrun
      simp only [Option.some.injEq] at hrun
      subst hrun
      obtain ⟨a, b⟩ := xtractSels_inv fuel cmd.regex hre st.buffer st.buflen (Nat.le_of_eq hB.symm)
        hfit false st.sels [] sels prevsel h1 h2 rfl
        (fun iv hiv => absurd hiv (List.not_mem_nil iv))
        (fun d hd => absurd hd (List.not_mem_nil d)) hx
      exact ⟨hB, a, b⟩

theorem cmd_ytract_inv (fuel : Nat) (st st' : State) (cmd : Cmd)
    (hre : ∀ re, cmd.regex = some re → MatchesInside re)
    (hB : st.buffer.length = st.buflen) (h1 : I1 st.sels) (h2 : I2 st.buflen st.sels)
    (hfit : st.buflen < SIZE_MOD) (hrun : cmd_ytract fuel st cmd = some st') :
    st'.buffer.length = st'.buflen ∧ I1 st'.sels ∧ I2 st'.buflen st'.sels := by
  unfold cmd_ytract at hrun
  by_cases hz : zeroLengthPattern cmd = true
  · rw [if_pos hz, Option.some.injEq] at hrun
    subst hrun
    exact ⟨hB, h1, h2⟩
  · rw [if_neg hz] at hrun
    rcases hx : xtractSels fuel cmd.regex st.buffer true [] st.sels with _ | ⟨sels, prevsel⟩
    · rw [hx] at hrun
      cases hrun
    · rw [hx] at hrun
      simp only [Option.some.injEq] at hrun
      subst hrun
      obtain ⟨a, b⟩ := xtractSels_inv fuel cmd.regex hre st.buffer st.buflen (Nat.le_of_eq hB.symm)
        hfit true st.sels [] sels prevsel h1 h2 rfl
        (fun iv hiv => absurd hiv (List.not_mem_nil iv))
        (fun d hd => absurd hd (List.not_mem_nil d)) hx
      exact ⟨hB, a, b⟩

theorem lineEnd_le (xs : List Byte) (e : Nat) (h : lineEnd xs = some e) : e ≤ xs.length :=
  (lineIntvs_some 0 0 xs e h).2.1

theorem linesRegex_inside : MatchesInside linesRegex := by
  intro str so eo h
  simp only [linesRegex, Option.map_eq_some', Prod.mk.injEq] at h
  obtain ⟨e, he, hso, heo⟩ := h
  have := lineEnd_le str e he
  omega

theorem cmd_flip_inv (st st' : State)
    (hB : st.buffer.length = st.buflen) (h1 : I1 st.sels) (h2 : I2 st.buflen st.sels)
    (hfit : st.buflen < SIZE_MOD)
    (hlast : st.lastsel = none ∨ st.lastsel = st.sels.getLast?)
    (hrun : cmd_flip st = some st') :
    st'.buffer.length = st'.buflen ∧ I1 st'.sels ∧ I2 st'.buflen st'.sels := by
  unfold cmd_flip at hrun
  rcases hf : flipintvals ⟨0, st.buflen⟩ st.sels st.lastsel with _ | out
  · rw [hf] at hrun
    cases hrun
  · rw [hf] at hrun
    simp only [Option.some.injEq] at hrun
    subst hrun
    have hW := flipintvals_inv ⟨0, st.buflen⟩ st.sels out st.lastsel h1
      (fun iv hiv => ⟨Nat.zero_le _, by have := h2 iv hiv; show iv.from_ + iv.len ≤ 0 + st.buflen; omega⟩)
      (by show 0 + st.buflen < SIZE_MOD; omega) hlast hf
    refine ⟨hB, hW.1, ?_⟩
    intro iv hiv
    have := (hW.2 iv hiv).2
    show iv.from_ + iv.len ≤ st.buflen
    have e : (⟨0, st.buflen⟩ : Intval).from_ + (⟨0, st.buflen⟩ : Intval).len = st.buflen :=
      Nat.zero_add _
    omega

theorem size_bound (n s a0 a1 : Nat) : n + s * a0 + s * a1 ≤ (n + s) * (a0 + a1 + 1) := by
  have h : (n + s) * (a0 + a1 + 1) = n * a0 + s * a0 + n * a1 + s * a1 + n + s := by ring
  omega

theorem arg_single (a : Option (List Byte)) (id : CmdId) (re : Option Regex) :
    (⟨id, [a], re⟩ : Cmd).arg 0 = a := by
  cases a <;> rfl

theorem cmd_surround_inv (fuel : Nat) (st st' : State) (cmd : Cmd)
    (hB : st.buffer.length = st.buflen) (h1 : I1 st.sels) (h2 : I2 st.buflen st.sels)
    (hcnt : st.sels.length < UINT_MOD)
    (hnew : st.buflen + st.sels.length * arglen (cmd.arg 0)
      + st.sels.length * arglen (cmd.arg 1) < SIZE_MOD)
    (hrun : cmd_surround fuel st cmd = some st') :
    st'.buffer.length = st'.buflen ∧ I1 st'.sels ∧ I2 st'.buflen st'.sels := by
  unfold cmd_surround at hrun
  rcases hi : cmd_insert fuel st ⟨CmdId.CMD_INSERT, [cmd.arg 0], none⟩ with _ | st1
  · rw [hi] at hrun
    cases hrun
  · rw [hi, Option.some_bind] at hrun
    rw [cmd_insert, arg_single] at hi
    rw [cmd_append, arg_single] at hrun
    obtain ⟨a, b, c, d, e⟩ := cmd_sub_anchor_inv fuel st st1 PAT_START (Or.inl rfl) (cmd.arg 0)
      hB h1 h2 hcnt (by omega) hi
    obtain ⟨a2, b2, c2, _, _⟩ := cmd_sub_anchor_inv fuel st1 st' PAT_END (Or.inr rfl) (cmd.arg 1)
      a b c (by omega) (by rw [d]; omega) hrun
    exact ⟨a2, b2, c2⟩

theorem xtractLoop_total (re : Regex) (hre : MatchesInside re) (B : List Byte) (end_ : Nat)
    (hend : end_ ≤ B.length) (fuel : Nat) :
    ∀ (pos : Nat) (acc : List Intval), pos ≤ end_ → end_ - pos < fuel →
      ∃ out, xtractLoop fuel re B pos end_ acc = some out := by
  induction fuel with
  | zero => intro pos acc _ h; omega
  | succ k ih =>
    intro pos acc hpos hfuel
    rw [xtractLoop]
    have hlen := cstrAt_length_le B pos end_ hpos hend
    rcases hm : re (cstrAt B pos end_) with _ | ⟨so, eo⟩
    · exact ⟨acc, rfl⟩
    · obtain ⟨hso, heo⟩ := hre _ so eo hm
      simp only
      by_cases h0 : eo = 0
      · rw [if_pos h0]
        by_cases hc : charAt B pos end_ ≠ 0
        · rw [if_pos hc]
          have hne : pos ≠ end_ := by
            intro h
            rw [h] at hc
            exact hc (charAt_end B end_ hend)
          exact ih (pos + 1) acc (by omega) (by omega)
        · rw [if_neg hc]
          exact ⟨acc, rfl⟩
      · rw [if_neg h0]
        exact ih (pos + eo) _ (by omega) (by omega)

theorem flipintvals_total (bound : Intval) (intvs : List Intval) :
    ∃ out, flipintvals bound intvs intvs.getLast? = some out := by
  cases intvs with
  | nil => exact ⟨_, rfl⟩
  | cons first rest =>
    rw [flipintvals, getLast?_lastIv]
    by_cases hb : first.from_ = bound.from_ ∧ first.len = bound.len
    · rw [if_pos hb]
      exact ⟨_, rfl⟩
    · rw [if_neg hb]
      exact ⟨_, rfl⟩

theorem xtractinternal_total (fuel : Nat) (regex : Option Regex)
    (hre : ∀ re, regex = some re → MatchesInside re) (B : List Byte) (done : List Intval)
    (sel : Intval) (negated : Bool)
    (hend : sel.from_ + sel.len ≤ B.length) (hfit : sel.from_ + sel.len < SIZE_MOD)
    (hfuel : sel.len < fuel) :
    ∃ done1, xtractinternal fuel regex B done sel negated = some done1 := by
  have hsz : szadd sel.from_ sel.len = sel.from_ + sel.len := szadd_eq hfit
  have hfound : ∃ found, (match regex with
      | none => some []
      | some re => xtractLoop fuel re B sel.from_ (szadd sel.from_ sel.len) []) = some found := by
    cases regex with
    | none => exact ⟨[], rfl⟩
    | some re =>
      simp only [hsz]
      exact xtractLoop_total re (hre re rfl) B _ hend fuel sel.from_ [] (by omega) (by omega)
  obtain ⟨found, hf⟩ := hfound
  have hM : ∃ ms, xtractMatches fuel regex B sel negated = some ms := by
    unfold xtractMatches
    simp only
    rw [hf]
    simp only
    cases negated with
    | false => exact ⟨found, by simp⟩
    | true =>
      obtain ⟨out, ho⟩ := flipintvals_total sel found
      exact ⟨out, by simp [ho]⟩
  obtain ⟨ms, hms⟩ := hM
  rw [xtractinternal, hms]
  simp only
  by_cases he : ms = [sel]
  · rw [if_pos he]
    exact ⟨_, rfl⟩
  · rw [if_neg he]
    exact ⟨_, rfl⟩

theorem xtractSels_total (fuel : Nat) (regex : Option Regex)
    (hre : ∀ re, regex = some re → MatchesInside re) (B : List Byte) (n : Nat)
    (hB : n ≤ B.length) (hfit : n < SIZE_MOD) (hfuel : n < fuel) (negated : Bool)
    (sels : List Intval) :
    ∀ (done : List Intval), I2 n sels →
      ∃ r, xtractSels fuel regex B negated done sels = some r := by
  induction sels with
  | nil => intro done _; exact ⟨_, rfl⟩
  | cons sel next ih =>
    intro done h2
    have hs2 := h2 sel (List.mem_cons_self _ _)
    obtain ⟨done1, hd⟩ := xtractinternal_total fuel regex hre B done sel negated (by omega)
      (by omega) (by omega)
    rw [xtractSels, hd]
    simp only
    rcases hl : done1.getLast? with _ | l
    · exact ⟨_, rfl⟩
    · exact ih done1 (fun iv hiv => h2 iv (List.mem_cons_of_mem _ hiv))

theorem cmd_xtract_total (fuel : Nat) (st : State) (cmd : Cmd)
    (hre : ∀ re, cmd.regex = some re → MatchesInside re)
    (hB : st.buffer.length = st.buflen) (h2 : I2 st.buflen st.sels)
    (hfit : st.buflen < SIZE_MOD) (hfuel : st.buflen < fuel) :
    ∃ st', cmd_xtract fuel st cmd = some st' := by
  unfold cmd_xtract
  by_cases hz : zeroLengthPattern cmd = true
  · rw [if_pos hz]
    exact ⟨_, rfl⟩
  · rw [if_neg hz]
    obtain ⟨r, hr⟩ := xtractSels_total fuel cmd.regex hre st.buffer st.buflen
      (Nat.le_of_eq hB.symm) hfit hfuel false st.sels [] h2
    rw [hr]
    exact ⟨_, rfl⟩

theorem cmd_ytract_total (fuel : Nat) (st : State) (cmd : Cmd)
    (hre : ∀ re, cmd.regex = some re → MatchesInside re)
    (hB : st.buffer.length = st.buflen) (h2 : I2 st.buflen st.sels)
    (hfit : st.buflen < SIZE_MOD) (hfuel : st.buflen < fuel) :
    ∃ st', cmd_ytract fuel st cmd = some st' := by
  unfold cmd_ytract
  by_cases hz : zeroLengthPattern cmd = true
  · rw [if_pos hz]
    exact ⟨_, rfl⟩
  · rw [if_neg hz]
    obtain ⟨r, hr⟩ := xtractSels_total fuel cmd.regex hre st.buffer st.buflen
      (Nat.le_of_eq hB.symm) hfit hfuel true st.sels [] h2
    rw [hr]
    exact ⟨_, rfl⟩

theorem cmd_flip_total (st : State) (hlast : st.lastsel = st.sels.getLast?) :
    ∃ st', cmd_flip st = some st' := by
  obtain ⟨out, ho⟩ := flipintvals_total ⟨0, st.buflen⟩ st.sels
  rw [cmd_flip, hlast, ho]
  exact ⟨_, rfl⟩

theorem litRegex_inside (c : Byte) : MatchesInside (litRegex c) := by
  intro str so eo h
  unfold litRegex at h
  split at h
  · simp only [Option.some.injEq, Prod.mk.injEq] at h
    omega
  · cases h

/-- The part of C15 that holds: the commands `p d c s i a S g v x y L u`
preserve the invariants, and so does `~` when `lastsel` is in step with the
selection list.  The state holds a buffer of `buflen` bytes and a selection list with I1 and
I2; the regex of the command is any oracle that reports its match inside the
string it is given; for `~` the pointer `lastsel` designates the final
selection or is `NULL`; the sizes fit the machine integers (for `s` the
buffer length plus the number of selections, which bounds the number of
matches, is below `2^32`, for `i`, `a`, `S` the number of selections is, and
the new buffer is shorter than `2^64`).  Then every state that the command returns again holds a buffer of
`buflen` bytes and a selection list with I1 and I2.  Moreover every command
but `s` does return a state when the fuel of the match loops exceeds the
length of the buffer (for `~`, when `lastsel` designates the final
selection). -/
theorem commands_preserve_I1_I2 (fuel : Nat) (st : State) (cmd : Cmd)
    (hB : st.buffer.length = st.buflen) (h1 : I1 st.sels) (h2 : I2 st.buflen st.sels)
    (hre : ∀ re, cmd.regex = some re → MatchesInside re)
    (hlast : cmd.id = CmdId.CMD_FLIP → st.lastsel = none ∨ st.lastsel = st.sels.getLast?)
    (hcnt : cmd.id = CmdId.CMD_SUB → st.buflen + st.sels.length < UINT_MOD)
    (hsel : cmd.id ∈ [CmdId.CMD_INSERT, CmdId.CMD_APPEND, CmdId.CMD_SURROUND] →
      st.sels.length < UINT_MOD)
    (hnew : (st.buflen + st.sels.length) * (arglen (cmd.arg 0) + arglen (cmd.arg 1) + 1)
      < SIZE_MOD) :
    (∀ st', callback fuel st cmd = some st' →
      st'.buffer.length = st'.buflen ∧ I1 st'.sels ∧ I2 st'.buflen st'.sels) ∧
    (cmd.id ∈ [CmdId.CMD_PRINT, CmdId.CMD_DELETE, CmdId.CMD_CHANGE, CmdId.CMD_INSERT,
        CmdId.CMD_APPEND, CmdId.CMD_SURROUND, CmdId.CMD_GUARD, CmdId.CMD_VGUARD,
        CmdId.CMD_XTRACT, CmdId.CMD_YTRACT, CmdId.CMD_LINES, CmdId.CMD_FLIP,
        CmdId.CMD_UNDOX] →
      st.buflen < fuel → (cmd.id = CmdId.CMD_FLIP → st.lastsel = st.sels.getLast?) →
      ∃ st', callback fuel st cmd = some st') := by
  have hsize := size_bound st.buflen st.sels.length (arglen (cmd.arg 0)) (arglen (cmd.arg 1))
  have hfit : st.buflen < SIZE_MOD := by omega
  have hsub : (st.buflen + st.sels.length) * (arglen (cmd.arg 1) + 1) < SIZE_MOD :=
    Nat.lt_of_le_of_lt (Nat.mul_le_mul_left _ (by omega)) hnew
  have hu : (cmd_undox st).buffer.length = (cmd_undox st).buflen ∧ I1 (cmd_undox st).sels ∧
      I2 (cmd_undox st).buflen (cmd_undox st).sels := by
    refine ⟨hB, rfl, ?_⟩
    intro iv hiv
    simp only [cmd_undox, addintv, List.nil_append, List.mem_singleton] at hiv
    subst hiv
    exact Nat.le_of_eq (Nat.zero_add _)
  have hlines : ∀ re, (⟨CmdId.CMD_XTRACT, [some LINES_REGX], some linesRegex⟩ : Cmd).regex
      = some re → MatchesInside re := by
    intro re h
    cases h
    exact linesRegex_inside
  refine ⟨?_, ?_⟩
  · intro st' hrun
    unfold callback at hrun
    cases hid : cmd.id <;> rw [hid] at hrun <;> simp only [Option.some.injEq] at hrun
    case CMD_PRINT =>
      subst hrun
      exact ⟨hB, h1, h2⟩
    case CMD_DELETE =>
      subst hrun
      exact cmd_change_inv st _ hB h1 h2 hfit
        (by show st.buflen - lenSum st.sels + st.sels.length * 0 < SIZE_MOD; omega)
    case CMD_CHANGE =>
      subst hrun
      exact cmd_change_inv st cmd hB h1 h2 hfit (by omega)
    case CMD_SUB =>
      exact cmd_sub_inv fuel st st' cmd hre hB h1 h2 (hcnt hid) hsub hrun
    case CMD_GUARD =>
      subst hrun
      obtain ⟨_, _, _, a, b⟩ := guardinternal_inv st cmd false h1 h2
      exact ⟨hB, a, b⟩
    case CMD_VGUARD =>
      subst hrun
      obtain ⟨_, _, _, a, b⟩ := guardinternal_inv st cmd true h1 h2
      exact ⟨hB, a, b⟩
    case CMD_XTRACT => exact cmd_xtract_inv fuel st st' cmd hre hB h1 h2 hfit hrun
    case CMD_YTRACT => exact cmd_ytract_inv fuel st st' cmd hre hB h1 h2 hfit hrun
    case CMD_INSERT =>
      have hc := hsel (by rw [hid]; decide)
      obtain ⟨a, b, c, _, _⟩ := cmd_sub_anchor_inv fuel st st' PAT_START (Or.inl rfl) (cmd.arg 0)
        hB h1 h2 (by omega) (by omega) hrun
      exact ⟨a, b, c⟩
    case CMD_APPEND =>
      have hc := hsel (by rw [hid]; decide)
      obtain ⟨a, b, c, _, _⟩ := cmd_sub_anchor_inv fuel st st' PAT_END (Or.inr rfl) (cmd.arg 0)
        hB h1 h2 (by omega) (by omega) hrun
      exact ⟨a, b, c⟩
    case CMD_SURROUND =>
      have hc := hsel (by rw [hid]; decide)
      exact cmd_surround_inv fuel st st' cmd hB h1 h2 (by omega) (by omega) hrun
    case CMD_FLIP => exact cmd_flip_inv st st' hB h1 h2 hfit (hlast hid) hrun
    case CMD_UNDOX =>
      subst hrun
      exact hu
    case CMD_LINES => exact cmd_xtract_inv fuel st st' _ hlines hB h1 h2 hfit hrun
    all_goals cases hrun
  · intro hmem hfuel hl
    unfold callback
    cases hid : cmd.id <;> rw [hid] at hmem <;> simp only
    case CMD_PRINT => exact ⟨_, rfl⟩
    case CMD_DELETE => exact ⟨_, rfl⟩
    case CMD_CHANGE => exact ⟨_, rfl⟩
    case CMD_GUARD => exact ⟨_, rfl⟩
    case CMD_VGUARD => exact ⟨_, rfl⟩
    case CMD_UNDOX => exact ⟨_, rfl⟩
    case CMD_XTRACT => exact cmd_xtract_total fuel st cmd hre hB h2 hfit hfuel
    case CMD_YTRACT => exact cmd_ytract_total fuel st cmd hre hB h2 hfit hfuel
    case CMD_LINES => exact cmd_xtract_total fuel st _ hlines hB h2 hfit hfuel
    case CMD_INSERT => exact cmd_sub_anchor_some fuel st PAT_START (Or.inl rfl) _ none
    case CMD_APPEND => exact cmd_sub_anchor_some fuel st PAT_END (Or.inr rfl) _ none
    case CMD_SURROUND =>
      obtain ⟨st1, h1s⟩ := cmd_sub_anchor_some fuel st PAT_START (Or.inl rfl)
        ((⟨CmdId.CMD_INSERT, [cmd.arg 0], none⟩ : Cmd).arg 0) none
      obtain ⟨st2, h2s⟩ := cmd_sub_anchor_some fuel st1 PAT_END (Or.inr rfl)
        ((⟨CmdId.CMD_APPEND, [cmd.arg 1], none⟩ : Cmd).arg 0) none
      refine ⟨st2, ?_⟩
      rw [cmd_surround, cmd_insert, h1s, Option.some_bind, cmd_append, h2s]
    case CMD_FLIP => exact cmd_flip_total st (hl hid)
    all_goals exact absurd hmem (by decide)

/-- The preservation of the invariants at the buffer `"abcb"` with the seed
selection and the command `s/b/XY/`: the command returns the buffer `"aXYcXY"` with the selection
`(0, 6)`. -/
theorem commands_preserve_I1_I2_witness :
    callback 7 (initState [97, 98, 99, 98])
        ⟨CmdId.CMD_SUB, [some [98], some [88, 89]], some (litRegex 98)⟩
      = some ⟨[97, 88, 89, 99, 88, 89], 6, [⟨0, 6⟩], some ⟨0, 6⟩, []⟩ ∧
    ([97, 88, 89, 99, 88, 89] : List Byte).length = 6 ∧ I1 [⟨0, 6⟩] ∧ I2 6 [⟨0, 6⟩] :=
  ⟨by decide,
    (commands_preserve_I1_I2 7 (initState [97, 98, 99, 98])
      ⟨CmdId.CMD_SUB, [some [98], some [88, 89]], some (litRegex 98)⟩
      (by decide) (by decide) (by decide)
      (fun re h => Option.some.inj h ▸ litRegex_inside 98)
      (fun h => absurd h (by decide)) (fun _ => by decide)
      (fun h => absurd h (by decide)) (by decide)).1
      ⟨[97, 88, 89, 99, 88, 89], 6, [⟨0, 6⟩], some ⟨0, 6⟩, []⟩ (by decide)⟩

theorem parseStep_error (cmdline : List Byte) (pos : Nat) (ch : Byte) (s : Parser) (e : Nat)
    (h : parseStep cmdline pos ch s = Except.error e) : e = ERR_INVALID_CMDLINE := by
  unfold parseStep at h
  dsimp only at h
  repeat' split at h
  all_goals (cases h <;> rfl)

theorem parseLoop_error (cmdline : List Byte) (rest : List Byte) :
    ∀ (pos : Nat) (s : Parser) (e : Nat), parseLoop cmdline rest pos s = Except.error e →
      e = ERR_INVALID_CMDLINE := by
  induction rest with
  | nil => intro pos s e h; cases h
  | cons ch rest ih =>
    intro pos s e h
    rw [parseLoop] at h
    by_cases h0 : ch = 0
    · rw [if_pos h0] at h
      cases h
    · rw [if_neg h0] at h
      rcases hs : parseStep cmdline pos ch s with e1 | s1
      · rw [hs] at h
        injection h with h
        rw [← h]
        exact parseStep_error cmdline pos ch s e1 hs
      · rw [hs] at h
        exact ih _ _ _ h

theorem parsecmds_unterminated_state (quiet : Bool) (cmdline : List Byte) (s : Parser)
    (hrun : parseLoop cmdline cmdline 0 Parser.init = Except.ok s)
    (h : s.currcmd.isSome = true ∨ s.inarglist = true) :
    parsecmds quiet cmdline = Except.error ERR_INVALID_CMDLINE := by
  unfold parsecmds
  rw [hrun]
  simp only
  rw [if_pos h]

theorem parseLoop_render_post (cmdline post : List Byte)
    (prog : List (CmdId × List (List Byte))) :
    ∀ (pre : List Byte) (s : Parser), cmdline = pre ++ (render prog ++ post) → Idle s →
      (∀ c ∈ prog, c.2.length = argcnt c.1 ∧ ∀ a ∈ c.2, ∀ b ∈ a, b ≠ 0 ∧ b ≠ 92) →
      ∃ s1, Idle s1 ∧
        s1.cmds = s.cmds ++ prog.map (fun c => (⟨c.1, c.2.map recorded, none⟩ : Cmd)) ∧
        parseLoop cmdline (render prog ++ post) pre.length s
          = parseLoop cmdline post (pre.length + (render prog).length) s1 := by
  induction prog with
  | nil =>
    intro pre s _ hs _
    exact ⟨s, hs, by simp, rfl⟩
  | cons c rest ih =>
    intro pre s hcl hs hok
    have hc := hok c (List.mem_cons_self _ _)
    rw [render, List.append_assoc] at hcl ⊢
    obtain ⟨s1, hidle1, hcmds1, hrun1⟩ := parseLoop_renderCmd cmdline pre (render rest ++ post) c s
      hcl hs hc.1 hc.2
    obtain ⟨s2, hidle2, hcmds2, hrun2⟩ := ih (pre ++ renderCmd c) s1
      (by rw [hcl, List.append_assoc]) hidle1 (fun x hx => hok x (List.mem_cons_of_mem _ hx))
    rw [List.length_append] at hrun2
    rw [hrun1, hrun2]
    refine ⟨s2, hidle2, ?_, ?_⟩
    · rw [hcmds2, hcmds1, List.append_assoc]
      rfl
    · rw [List.length_append, Nat.add_assoc]

theorem isspace_plain (b : Nat) (h : isspace b = true) : b ≠ 0 ∧ b ≠ 47 ∧ b ≠ 92 ∧ b ≠ 35 := by
  have h1 : b = 32 ∨ (9 ≤ b ∧ b ≤ 13) := by
    simpa [isspace] using h
  omega

theorem parseLoop_ws (cmdline ws post : List Byte) (hws : ∀ b ∈ ws, isspace b = true) :
    ∀ (pos : Nat) (s : Parser), s.inarglist = false → s.incomment = false →
      s.escaped = false →
      parseLoop cmdline (ws ++ post) pos s = parseLoop cmdline post (pos + ws.length) s := by
  induction ws with
  | nil => intro pos s _ _ _; rfl
  | cons b bs ih =>
    intro pos s hi hc he
    have hb := hws b (List.mem_cons_self _ _)
    obtain ⟨h0, h47, h92, _⟩ := isspace_plain b hb
    have hstep : parseStep cmdline pos b s = Except.ok s := by
      unfold parseStep
      rw [if_neg (by simp [hc]), if_neg (by simp [hi]), if_neg (fun h => h47 h.1), if_pos hb]
      cases s
      simp_all
    rw [List.cons_append, parseLoop_step _ _ _ _ _ _ h0 hstep,
      ih (fun x hx => hws x (List.mem_cons_of_mem _ hx)) _ s hi hc he, List.length_cons]
    have e : pos + 1 + bs.length = pos + (bs.length + 1) := by omega
    rw [e]

theorem parseLoop_args_open (cmdline post : List Byte) (rest : List (List Byte)) :
    ∀ (done pos : Nat) (s : Parser) (c : Cmd),
      s.currcmd = some c → s.inarglist = true → s.incomment = false → s.escaped = false →
      s.argind = done → done + rest.length < argcnt c.id →
      (∀ a ∈ rest, ∀ b ∈ a, b ≠ 0 ∧ b ≠ 92) →
      ∃ s1, s1.currcmd.isSome = true ∧ s1.inarglist = true ∧ s1.incomment = false ∧
        s1.escaped = false ∧
        parseLoop cmdline (renderArgs rest ++ post) pos s
          = parseLoop cmdline post (pos + (renderArgs rest).length) s1 := by
  induction rest with
  | nil =>
    intro done pos s c hcur hi hc he _ _ _
    exact ⟨s, by rw [hcur]; rfl, hi, hc, he, rfl⟩
  | cons a r ih =>
    intro done pos s c hcur hi hc he hind hcnt hnice
    have ha := hnice a (List.mem_cons_self _ _)
    have hle := argcnt_le c.id
    rw [List.length_cons] at hcnt
    have hu : uadd s.argind 1 = done + 1 := by
      rw [hind]; simp only [uadd, UINT_MOD]; omega
    have hsz : szsub (argcnt c.id) (uadd s.argind 1) = argcnt c.id - (done + 1) := by
      rw [hu, szsub_eq (by omega) (by simp only [SIZE_MOD]; omega)]
    have hstep := parseStep_close_more cmdline (pos + (escapeArg a).length) s c hc hi he hcur
      (by rw [hsz]; omega)
    rw [hu] at hstep
    obtain ⟨s2, hs2, c2, h2cur, h2id, h2i, h2c, h2e, h2ind⟩ : ∃ s2,
        parseStep cmdline (pos + (escapeArg a).length) 47 s = Except.ok s2 ∧
          ∃ c2, s2.currcmd = some c2 ∧ c2.id = c.id ∧ s2.inarglist = true ∧
            s2.incomment = false ∧ s2.escaped = false ∧ s2.argind = done + 1 :=
      ⟨_, hstep, _, rfl, rfl, hi, hc, rfl, rfl⟩
    obtain ⟨s1, p1, p2, p3, p4, hrun⟩ := ih (done + 1) (pos + (escapeArg a).length + 1) s2 c2
      h2cur h2i h2c h2e h2ind (by rw [h2id]; omega)
      (fun x hx => hnice x (List.mem_cons_of_mem _ hx))
    refine ⟨s1, p1, p2, p3, p4, ?_⟩
    have hloop : renderArgs (a :: r) ++ post = escapeArg a ++ (47 :: (renderArgs r ++ post)) := by
      rw [renderArgs]; simp
    rw [hloop, parseLoop_escapeArg cmdline a _ s hc hi he ha,
      parseLoop_step _ _ _ _ _ _ (by decide) hs2, hrun]
    have e : pos + (escapeArg a).length + 1 + (renderArgs r).length
        = pos + (renderArgs (a :: r)).length := by
      simp only [renderArgs, List.length_append, List.length_cons]; omega
    rw [e]

theorem parsecmds_exit_code (quiet : Bool) (cmdline : List Byte) (e : Nat)
    (h : exitOf (parsecmds quiet cmdline) = some e) : e = ERR_INVALID_CMDLINE := by
  unfold parsecmds at h
  rcases hl : parseLoop cmdline cmdline 0 Parser.init with e1 | s
  · rw [hl] at h
    simp only [exitOf, Option.some.injEq] at h
    rw [← h]
    exact parseLoop_error cmdline cmdline 0 _ e1 hl
  · rw [hl] at h
    dsimp only at h
    repeat' split at h
    all_goals simp only [exitOf, Option.some.injEq] at h
    all_goals first
      | exact h.symm
      | cases h

/-- C21: when the input ends while the command opened last still awaits its
first argument (the letter of a kind with arguments, followed by nothing but
whitespace), or inside the body of an argument, or behind the first argument
of a command with two arguments (`done` has one element and the body `a` is
empty), `parsecmds` ends with the exit code 2 and returns no program, whatever
well-formed commands come before and whether `quiet` is set or not.  The
exit code 2 is the only one with which `parsecmds` ends the program. -/
theorem parsecmds_unterminated (quiet : Bool) (prog : List (CmdId × List (List Byte)))
    (id : CmdId) (done : List (List Byte)) (a ws : List Byte)
    (hok : ∀ c ∈ prog, c.2.length = argcnt c.1 ∧ ∀ a ∈ c.2, ∀ b ∈ a, b ≠ 0 ∧ b ≠ 92)
    (hdone : done.length < argcnt id)
    (hnice : ∀ x ∈ a :: done, ∀ b ∈ x, b ≠ 0 ∧ b ≠ 92)
    (hws : ∀ b ∈ ws, isspace b = true) :
    exitOf (parsecmds quiet (render prog ++ cmdch id :: ws)) = some 2 ∧
    programOf (parsecmds quiet (render prog ++ cmdch id :: ws)) = none ∧
    exitOf (parsecmds quiet (render prog ++ cmdch id :: 47 :: (renderArgs done ++ escapeArg a)))
      = some 2 ∧
    programOf (parsecmds quiet (render prog ++ cmdch id :: 47 :: (renderArgs done ++ escapeArg a)))
      = none ∧
    (∀ cmdline e, exitOf (parsecmds quiet cmdline) = some e → e = 2) := by
  have hne : ¬ argcnt id = 0 := by omega
  have hpos : 0 < argcnt id := by omega
  have key : ∀ post : List Byte, ∃ s2, s2.currcmd = some (addcmd id) ∧ s2.inarglist = false ∧
      s2.incomment = false ∧ s2.escaped = false ∧ s2.argind = 0 ∧
      parseLoop (render prog ++ cmdch id :: post) (render prog ++ cmdch id :: post) 0 Parser.init
        = parseLoop (render prog ++ cmdch id :: post) post ((render prog).length + 1) s2 := by
    intro post
    obtain ⟨s1, hidle, _, hrun⟩ := parseLoop_render_post (render prog ++ cmdch id :: post)
      (cmdch id :: post) prog [] Parser.init rfl ⟨rfl, rfl, rfl, rfl⟩ hok
    have hletter := parseStep_letter (render prog ++ cmdch id :: post)
      (([] : List Byte).length + (render prog).length) s1 id hidle
    rw [if_neg hne] at hletter
    obtain ⟨s2, hs2, q1, q2, q3, q4, q5⟩ : ∃ s2,
        parseStep (render prog ++ cmdch id :: post)
            (([] : List Byte).length + (render prog).length) (cmdch id) s1 = Except.ok s2 ∧
          s2.currcmd = some (addcmd id) ∧ s2.inarglist = false ∧ s2.incomment = false ∧
          s2.escaped = false ∧ s2.argind = 0 :=
      ⟨_, hletter, rfl, hidle.2.1, hidle.2.2.1, rfl, rfl⟩
    refine ⟨s2, q1, q2, q3, q4, q5, ?_⟩
    rw [List.length_nil] at hrun hs2
    rw [hrun, parseLoop_step _ _ _ _ _ _ (cmdch_plain id).1 hs2, Nat.zero_add]
  have h1 : parsecmds quiet (render prog ++ cmdch id :: ws)
      = Except.error ERR_INVALID_CMDLINE := by
    obtain ⟨s2, q1, q2, q3, q4, _, hrun⟩ := key ws
    have hw := parseLoop_ws (render prog ++ cmdch id :: ws) ws [] hws
      ((render prog).length + 1) s2 q2 q3 q4
    rw [List.append_nil] at hw
    rw [hw, parseLoop] at hrun
    exact parsecmds_unterminated_state quiet _ s2 hrun (Or.inl (by rw [q1]; rfl))
  have h2 : parsecmds quiet (render prog ++ cmdch id :: 47 :: (renderArgs done ++ escapeArg a))
      = Except.error ERR_INVALID_CMDLINE := by
    obtain ⟨s2, q1, q2, q3, q4, q5, hrun⟩ := key (47 :: (renderArgs done ++ escapeArg a))
    have hopen := parseStep_open
      (render prog ++ cmdch id :: 47 :: (renderArgs done ++ escapeArg a))
      ((render prog).length + 1) s2 (addcmd id) q1 q2 q3 q4 q5 hpos
    obtain ⟨s3, hs3, r1, r2, r3, r4, r5⟩ : ∃ s3,
        parseStep (render prog ++ cmdch id :: 47 :: (renderArgs done ++ escapeArg a))
            ((render prog).length + 1) 47 s2 = Except.ok s3 ∧
          s3.currcmd = some (addcmd id) ∧ s3.inarglist = true ∧ s3.incomment = false ∧
          s3.escaped = false ∧ s3.argind = 0 :=
      ⟨_, hopen, q1, rfl, q3, rfl, q5⟩
    obtain ⟨s4, t1, t2, t3, t4, hargs⟩ := parseLoop_args_open
      (render prog ++ cmdch id :: 47 :: (renderArgs done ++ escapeArg a)) (escapeArg a) done
      0 ((render prog).length + 1 + 1) s3 (addcmd id) r1 r2 r3 r4 r5
      (by show 0 + done.length < argcnt id; omega)
      (fun x hx => hnice x (List.mem_cons_of_mem _ hx))
    have hbody := parseLoop_escapeArg
      (render prog ++ cmdch id :: 47 :: (renderArgs done ++ escapeArg a)) a [] s4 t3 t2 t4
      (hnice a (List.mem_cons_self _ _))
      ((render prog).length + 1 + 1 + (renderArgs done).length)
    rw [List.append_nil] at hbody
    rw [parseLoop_step _ _ _ _ _ _ (by decide) hs3, hargs, hbody, parseLoop] at hrun
    exact parsecmds_unterminated_state quiet _ s4 hrun (Or.inr t2)
  refine ⟨?_, ?_, ?_, ?_, ?_⟩
  · rw [h1]; rfl
  · rw [h1]; rfl
  · rw [h2]; rfl
  · rw [h2]; rfl
  · intro cmdline e he
    exact parsecmds_exit_code quiet cmdline e he

/-- C21 at the command lines `p s` (the letter `s` awaits its first argument),
`ps/a` (inside the first argument) and `ps/a/` (the second argument of `s`
has not been opened). -/
theorem parsecmds_unterminated_witness :
    exitOf (parsecmds false [112, 115, 32]) = some 2 ∧
    exitOf (parsecmds false [112, 115, 47, 97]) = some 2 ∧
    exitOf (parsecmds false [112, 115, 47, 97, 47]) = some 2 :=
  ⟨(parsecmds_unterminated false [(CmdId.CMD_PRINT, [])] CmdId.CMD_SUB [] [] [32]
      (by decide) (by decide) (by decide) (by decide)).1,
    (parsecmds_unterminated false [(CmdId.CMD_PRINT, [])] CmdId.CMD_SUB [] [97] []
      (by decide) (by decide) (by decide) (by decide)).2.2.1,
    (parsecmds_unterminated false [(CmdId.CMD_PRINT, [])] CmdId.CMD_SUB [[97]] [] []
      (by decide) (by decide) (by decide) (by decide)).2.2.1⟩

/-! ### C22: the command letters -/

theorem chtocmdid_other (c : Nat) (hc : c ∉ letters) : chtocmdid c = none := by
  simp only [letters, letterTable, List.map_cons, List.map_nil, List.mem_cons,
    List.mem_singleton, List.not_mem_nil, or_false, not_or] at hc
  obtain ⟨h1, h2, h3, h4, h5, h6, h7, h8, h9, h10, h11, h12, h13, h14, h15, h16, h17, h18,
    h19, h20, h21, h22, h23, h24⟩ := hc
  simp [chtocmdid, cmddescs, List.find?_cons, Ne.symm h1, Ne.symm h2, Ne.symm h3, Ne.symm h4,
    Ne.symm h5, Ne.symm h6, Ne.symm h7, Ne.symm h8, Ne.symm h9, Ne.symm h10, Ne.symm h11,
    Ne.symm h12, Ne.symm h13, Ne.symm h14, Ne.symm h15, Ne.symm h16, Ne.symm h17, Ne.symm h18,
    Ne.symm h19, Ne.symm h20, Ne.symm h21, Ne.symm h22, Ne.symm h23, Ne.symm h24]

theorem parseStep_idle_other (cmdline : List Byte) (pos : Nat) (ch : Nat) (s : Parser)
    (hs : Idle s) (hsp : isspace ch = false) (h35 : ch ≠ 35) (hl : ch ∉ letters) :
    parseStep cmdline pos ch s = Except.error ERR_INVALID_CMDLINE := by
  obtain ⟨hcur, hi, hc, he⟩ := hs
  unfold parseStep
  rw [if_neg (by simp [hc]), if_neg (by simp [hi])]
  by_cases h47 : ch = 47
  · rw [if_pos ⟨h47, he⟩, hcur]
  · rw [if_neg (fun h => h47 h.1), if_neg (by simp [hsp]), if_neg h35, chtocmdid_other ch hl]

/-- C22: `chtocmdid` with the table `cmddescs` maps each of the 24 letters of
the specification to its kind, whose letter and argument count are those of
the specification; the 24 letters are distinct, so are the 24 kinds, which are
all the kinds; every other character is not found.  A character `ch` that is
neither whitespace, `#` nor one of the letters makes every step of the parser
in the idle state fail with the exit code 2, and so does `parsecmds` on a
command line in which `ch` follows well-formed commands. -/
theorem letters_and_idle_errors (quiet : Bool) (prog : List (CmdId × List (List Byte)))
    (ch : Nat) (post : List Byte)
    (hok : ∀ c ∈ prog, c.2.length = argcnt c.1 ∧ ∀ a ∈ c.2, ∀ b ∈ a, b ≠ 0 ∧ b ≠ 92)
    (h0 : ch ≠ 0) (hsp : isspace ch = false) (h35 : ch ≠ 35) (hl : ch ∉ letters) :
    (∀ e ∈ letterTable, chtocmdid e.1 = some e.2.1 ∧ cmdch e.2.1 = e.1 ∧ argcnt e.2.1 = e.2.2) ∧
    letterTable.length = 24 ∧ letters.Nodup ∧ (letterTable.map (fun e => e.2.1)).Nodup ∧
    (∀ id : CmdId, id ∈ letterTable.map (fun e => e.2.1)) ∧
    (∀ c : Nat, chtocmdid c = none ↔ c ∉ letters) ∧
    (∀ cmdline pos s, Idle s → parseStep cmdline pos ch s = Except.error 2) ∧
    exitOf (parsecmds quiet (render prog ++ ch :: post)) = some 2 ∧
    programOf (parsecmds quiet (render prog ++ ch :: post)) = none := by
  have htab : ∀ e ∈ letterTable,
      chtocmdid e.1 = some e.2.1 ∧ cmdch e.2.1 = e.1 ∧ argcnt e.2.1 = e.2.2 := by
    decide
  have hp : parsecmds quiet (render prog ++ ch :: post) = Except.error ERR_INVALID_CMDLINE := by
    obtain ⟨s1, hidle, _, hrun⟩ := parseLoop_render_post (render prog ++ ch :: post)
      (ch :: post) prog [] Parser.init rfl ⟨rfl, rfl, rfl, rfl⟩ hok
    have hstep := parseStep_idle_other (render prog ++ ch :: post)
      (([] : List Byte).length + (render prog).length) ch s1 hidle hsp h35 hl
    rw [parseLoop, if_neg h0, hstep] at hrun
    have hrun2 : parseLoop (render prog ++ ch :: post) (render prog ++ ch :: post) 0 Parser.init
        = Except.error ERR_INVALID_CMDLINE := hrun
    unfold parsecmds
    rw [hrun2]
  refine ⟨htab, by decide, by decide, by decide, ?_, ?_, ?_, ?_, ?_⟩
  · intro id
    cases id <;> decide
  · intro c
    constructor
    · intro hn hc
      rw [letters, List.mem_map] at hc
      obtain ⟨e, he, hec⟩ := hc
      have := (htab e he).1
      rw [hec, hn] at this
      cases this
    · exact chtocmdid_other c
  · intro cmdline pos s hs
    exact parseStep_idle_other cmdline pos ch s hs hsp h35 hl
  · rw [hp]; rfl
  · rw [hp]; rfl

/-- C22 at the command line `p;p`: the character `;` is no command letter. -/
theorem letters_and_idle_errors_witness :
    chtocmdid 59 = none ∧ exitOf (parsecmds false [112, 59, 112]) = some 2 :=
  ⟨((letters_and_idle_errors false [(CmdId.CMD_PRINT, [])] 59 [112]
      (by decide) (by decide) (by decide) (by decide) (by decide)).2.2.2.2.2.1 59).mpr
      (by decide),
    (letters_and_idle_errors false [(CmdId.CMD_PRINT, [])] 59 [112]
      (by decide) (by decide) (by decide) (by decide) (by decide)).2.2.2.2.2.2.2.1⟩

/-! ### C23: the implicit print -/

theorem parseLoop_blank (cmdline : List Byte) (text : List Byte) :
    ∀ (c : Bool) (pos : Nat) (s : Parser), onlyBlank c text = true →
      s.currcmd = none → s.inarglist = false → s.incomment = c →
      (c = false → s.escaped = false) →
      ∃ s1, parseLoop cmdline text pos s = Except.ok s1 ∧ s1.cmds = s.cmds ∧
        s1.currcmd = none ∧ s1.inarglist = false := by
  induction text with
  | nil =>
    intro c pos s _ hcur hi _ _
    exact ⟨s, rfl, rfl, hcur, hi⟩
  | cons b rest ih =>
    intro c pos s hb hcur hi hc he
    rw [parseLoop]
    by_cases h0 : b = 0
    · rw [if_pos h0]
      exact ⟨s, rfl, rfl, hcur, hi⟩
    · rw [if_neg h0]
      cases c with
      | true =>
        rw [onlyBlank] at hb
        have hstep : ∃ s2, parseStep cmdline pos b s = Except.ok s2 ∧ s2.cmds = s.cmds ∧
            s2.currcmd = none ∧ s2.inarglist = false ∧ s2.incomment = decide (b ≠ 10) ∧
            (decide (b ≠ 10) = false → s2.escaped = false) := by
          unfold parseStep
          rw [if_pos hc]
          by_cases h10 : b = 10
          · rw [if_pos h10]
            refine ⟨_, rfl, rfl, hcur, hi, ?_, ?_⟩
            · simp [h10]
            · intro _
              simp [h10]
          · rw [if_neg h10]
            refine ⟨_, rfl, rfl, hcur, hi, ?_, ?_⟩
            · simp [h10, hc]
            · intro h
              simp [h10] at h
        obtain ⟨s2, hs2, q1, q2, q3, q4, q5⟩ := hstep
        rw [hs2]
        obtain ⟨s1, r1, r2, r3, r4⟩ := ih _ (pos + 1) s2 hb q2 q3 q4 q5
        exact ⟨s1, r1, r2.trans q1, r3, r4⟩
      | false =>
        have he1 := he rfl
        rw [onlyBlank] at hb
        by_cases h35 : b = 35
        · rw [if_pos h35] at hb
          have hstep : ∃ s2, parseStep cmdline pos b s = Except.ok s2 ∧ s2.cmds = s.cmds ∧
              s2.currcmd = none ∧ s2.inarglist = false ∧ s2.incomment = true := by
            unfold parseStep
            rw [if_neg (by simp [hc]), if_neg (by simp [hi]),
              if_neg (fun h => by rw [h35] at h; exact absurd h.1 (by decide)),
              if_neg (by rw [h35]; decide), if_pos h35]
            exact ⟨_, rfl, rfl, hcur, hi, rfl⟩
          obtain ⟨s2, hs2, q1, q2, q3, q4⟩ := hstep
          rw [hs2]
          obtain ⟨s1, r1, r2, r3, r4⟩ := ih true (pos + 1) s2 hb q2 q3 q4
            (fun h => Bool.noConfusion h)
          exact ⟨s1, r1, r2.trans q1, r3, r4⟩
        · rw [if_neg h35, Bool.and_eq_true] at hb
          obtain ⟨_, h47, h92, _⟩ := isspace_plain b hb.1
          have hstep : parseStep cmdline pos b s = Except.ok s := by
            unfold parseStep
            rw [if_neg (by simp [hc]), if_neg (by simp [hi]), if_neg (fun h => h47 h.1),
              if_pos hb.1]
            cases s
            simp_all
          rw [hstep]
          exact ih false (pos + 1) s hb.2 hcur hi hc he

theorem run_print (fuel : Nat) (B : List Byte) :
    (run fuel [addcmd CmdId.CMD_PRINT] B).map (fun st => st.out) = some B := by
  have h : (cmd_print (initState B)).out = B := by
    simp only [cmd_print, initState, addintv, List.nil_append, List.foldl_cons, List.foldl_nil]
    exact slice_arg B
  simp only [run, runCmds, emptyargerr, addcmd, callback, Bool.false_eq_true, if_false,
    Option.map_some', cleanupsels]
  exact congrArg some h

/-- C23: let the loop of `parsecmds` end in the state `s` without an open
command.  With `quiet` set the program is the list `s.cmds` of the parsed
commands; without `quiet` it is the same list when its last command is `p`,
and the same list followed by one `p` command otherwise, also when the list is
empty.  A command line made only of whitespace and comments has the empty
list, so that its program without `quiet` is the single command `p`, and the
run of that program on the input `B` writes `B`. -/
theorem implicit_print (cmdline : List Byte) (s : Parser) (fuel : Nat) (B : List Byte)
    (hrun : parseLoop cmdline cmdline 0 Parser.init = Except.ok s)
    (hcur : s.currcmd = none) (hi : s.inarglist = false) :
    parsecmds true cmdline = Except.ok s.cmds ∧
    (s.cmds.getLast?.map (fun c => c.id) = some CmdId.CMD_PRINT →
      parsecmds false cmdline = Except.ok s.cmds) ∧
    (s.cmds.getLast?.map (fun c => c.id) ≠ some CmdId.CMD_PRINT →
      parsecmds false cmdline = Except.ok (s.cmds ++ [addcmd CmdId.CMD_PRINT])) ∧
    (onlyBlank false cmdline = true →
      s.cmds = [] ∧ programOf (parsecmds false cmdline) = some [(CmdId.CMD_PRINT, [])] ∧
      (run fuel [addcmd CmdId.CMD_PRINT] B).map (fun st => st.out) = some B) := by
  have hnot : ¬ (s.currcmd.isSome = true ∨ s.inarglist = true) := by
    rw [hcur, hi]
    simp
  have hq : parsecmds true cmdline = Except.ok s.cmds := by
    unfold parsecmds
    rw [hrun]
    simp only
    rw [if_neg hnot, if_neg (fun h => Bool.noConfusion h.1), hcur, Option.toList_none,
      List.append_nil]
  have hp : s.cmds.getLast?.map (fun c => c.id) = some CmdId.CMD_PRINT →
      parsecmds false cmdline = Except.ok s.cmds := by
    intro hl
    unfold parsecmds
    rw [hrun]
    simp only
    rw [if_neg hnot, hcur, Option.toList_none, List.append_nil]
    rcases hg : s.cmds.getLast? with _ | c
    · rw [hg] at hl
      cases hl
    · rw [hg, Option.map_some', Option.some.injEq] at hl
      simp [hl]
  have hn : s.cmds.getLast?.map (fun c => c.id) ≠ some CmdId.CMD_PRINT →
      parsecmds false cmdline = Except.ok (s.cmds ++ [addcmd CmdId.CMD_PRINT]) := by
    intro hl
    unfold parsecmds
    rw [hrun]
    simp only
    rw [if_neg hnot, hcur, Option.toList_none, List.append_nil]
    rcases hg : s.cmds.getLast? with _ | c
    · simp
    · rw [hg, Option.map_some'] at hl
      have hne : c.id ≠ CmdId.CMD_PRINT := fun h => hl (congrArg some h)
      simp [hne]
  refine ⟨hq, hp, hn, ?_⟩
  intro hb
  obtain ⟨s1, r1, r2, _, _⟩ := parseLoop_blank cmdline cmdline false 0 Parser.init hb rfl rfl rfl
    (fun _ => rfl)
  rw [hrun, Except.ok.injEq] at r1
  have hnil : s.cmds = [] := by
    rw [r1, r2]
    rfl
  refine ⟨hnil, ?_, run_print fuel B⟩
  rw [hn (by rw [hnil]; simp), hnil]
  rfl

/-- C23 at the command line `x/a/ # print` followed by a newline: the loop
ends with the single command `x`, and `p` is appended without `quiet`. -/
theorem implicit_print_witness :
    programOf (parsecmds true [120, 47, 97, 47, 32, 35, 32, 112, 10])
      = some [(CmdId.CMD_XTRACT, [some [97]])] ∧
    programOf (parsecmds false [120, 47, 97, 47, 32, 35, 32, 112, 10])
      = some [(CmdId.CMD_XTRACT, [some [97]]), (CmdId.CMD_PRINT, [])] :=
  ⟨by decide,
    by
      have h := (implicit_print [120, 47, 97, 47, 32, 35, 32, 112, 10]
        ⟨[⟨CmdId.CMD_XTRACT, [some [97]], none⟩], none, false, 1, 4, false, false⟩ 0 []
        rfl rfl rfl).2.2.1 (by decide)
      rw [h]
      decide⟩

/-! ### C24: `removebackslashes` -/

theorem removebackslashesFrom_true (c : Byte) (rest : List Byte) :
    removebackslashesFrom (c :: rest) true = c :: removebackslashesFrom rest false := by
  rw [removebackslashesFrom, if_neg (fun h => Bool.noConfusion h.2)]

theorem removebackslashesFrom_other (b : Byte) (rest : List Byte) (e : Bool) (hb : b ≠ 92) :
    removebackslashesFrom (b :: rest) e = b :: removebackslashesFrom rest false := by
  rw [removebackslashesFrom, if_neg (fun h => hb h.1)]

theorem removebackslashesFrom_backslash (rest : List Byte) :
    removebackslashesFrom (92 :: rest) false = removebackslashesFrom rest true := by
  rw [removebackslashesFrom, if_pos ⟨rfl, rfl⟩]

theorem removebackslashes_eq_spec (n : Nat) :
    ∀ s : List Byte, s.length ≤ n → removebackslashesFrom s false = unescapeSpec s := by
  induction n with
  | zero =>
    intro s hs
    have : s = [] := List.length_eq_zero.mp (Nat.le_zero.mp hs)
    subst this
    rfl
  | succ k ih =>
    intro s hs
    match s, hs with
    | [], _ => rfl
    | [b], _ =>
      rw [unescapeSpec]
      by_cases hb : b = 92
      · subst hb
        rw [if_pos rfl, removebackslashesFrom_backslash]
        rfl
      · rw [if_neg hb, removebackslashesFrom_other b [] false hb]
        rfl
    | b :: c :: rest, hs =>
      rw [unescapeSpec]
      simp only [List.length_cons] at hs
      by_cases hb : b = 92
      · subst hb
        rw [if_pos rfl, removebackslashesFrom_backslash, removebackslashesFrom_true,
          ih rest (by omega)]
      · rw [if_neg hb, removebackslashesFrom_other b _ false hb,
          ih (c :: rest) (by simp only [List.length_cons]; omega)]

theorem removebackslashesFrom_sublist (s : List Byte) :
    ∀ e, (removebackslashesFrom s e).Sublist s := by
  induction s with
  | nil => intro _; exact List.Sublist.slnil
  | cons c rest ih =>
    intro e
    rw [removebackslashesFrom]
    split
    · exact List.Sublist.cons _ (ih true)
    · exact List.Sublist.cons₂ _ (ih false)

theorem removebackslashesFrom_append_last (t : List Byte) (b : Byte) (hb : b ≠ 92) :
    ∀ e, removebackslashesFrom (t ++ [b, 92]) e = removebackslashesFrom (t ++ [b]) e := by
  induction t with
  | nil =>
    intro e
    rw [List.nil_append, List.nil_append, removebackslashesFrom_other b _ e hb,
      removebackslashesFrom_other b _ e hb, removebackslashesFrom_backslash]
    rfl
  | cons c rest ih =>
    intro e
    rw [List.cons_append, List.cons_append, removebackslashesFrom, removebackslashesFrom]
    split
    · exact ih true
    · rw [ih false]

/-- C24: `removebackslashes` follows the unescaping rule of the specification
(`unescapeSpec`): a backslash that has not been consumed is dropped and the
byte behind it is kept, so `\c` becomes `c` for every byte `c` and `\\` a
single backslash; a byte that is not a backslash is kept; a lone backslash at
the end is dropped; the kept bytes are in the order of the input, and the
result is not longer than the input. -/
theorem removebackslashes_unescapes (s : List Byte) :
    removebackslashes s = unescapeSpec s ∧
    (removebackslashes s).Sublist s ∧
    (removebackslashes s).length ≤ s.length ∧
    (∀ c rest, removebackslashes (92 :: c :: rest) = c :: removebackslashes rest) ∧
    (∀ b rest, b ≠ 92 → removebackslashes (b :: rest) = b :: removebackslashes rest) ∧
    (∀ c, removebackslashes [92, c] = [c]) ∧
    removebackslashes [92, 92] = [92] ∧
    removebackslashes [92] = [] ∧
    (∀ t b, b ≠ 92 → removebackslashes (t ++ [b, 92]) = removebackslashes (t ++ [b])) := by
  have hsub := removebackslashesFrom_sublist s false
  have hpair : ∀ c rest, removebackslashes (92 :: c :: rest) = c :: removebackslashes rest := by
    intro c rest
    rw [removebackslashes, removebackslashesFrom_backslash, removebackslashesFrom_true]
    rfl
  refine ⟨removebackslashes_eq_spec s.length s (Nat.le_refl _), hsub, hsub.length_le, hpair,
    ?_, ?_, hpair 92 [], rfl, ?_⟩
  · intro b rest hb
    exact removebackslashesFrom_other b rest false hb
  · intro c
    exact hpair c []
  · intro t b hb
    exact removebackslashesFrom_append_last t b hb false

/-! ### C25: `escapechars` -/

theorem escapecharsFrom_skip (c : Byte) (rest : List Byte) :
    escapecharsFrom (c :: rest) true = escapecharsFrom rest false := by
  rw [escapecharsFrom, if_pos rfl]

theorem escapechars_eq_spec (n : Nat) :
    ∀ s : List Byte, s.length ≤ n → (∀ b ∈ s, b ≠ 0) →
      escapecharsFrom s false = escapeSpec s ∧
        (escapecharsFrom s false).length + replacedCount s = s.length := by
  induction n with
  | zero =>
    intro s hs _
    have : s = [] := List.length_eq_zero.mp (Nat.le_zero.mp hs)
    subst this
    exact ⟨rfl, rfl⟩
  | succ k ih =>
    intro s hs h0
    match s, hs, h0 with
    | [], _, _ => exact ⟨rfl, rfl⟩
    | [b], _, h0 =>
      have hb : b ≠ 0 := h0 b (List.mem_cons_self _ _)
      have e : escapecharsFrom [b] false = [b] := by
        rw [escapecharsFrom, if_neg (fun h => Bool.noConfusion h), if_neg hb,
          if_neg (fun h => absurd h.2 (by decide)), if_neg (fun h => absurd h.2 (by decide))]
        rfl
      rw [e]
      exact ⟨rfl, rfl⟩
    | b :: c :: rest, hs, h0 =>
      have hb : b ≠ 0 := h0 b (List.mem_cons_self _ _)
      have h0c : ∀ x ∈ c :: rest, x ≠ 0 := fun x hx => h0 x (List.mem_cons_of_mem _ hx)
      have h0r : ∀ x ∈ rest, x ≠ 0 := fun x hx => h0c x (List.mem_cons_of_mem _ hx)
      simp only [List.length_cons] at hs
      obtain ⟨i1, i2⟩ := ih rest (by omega) h0r
      obtain ⟨j1, j2⟩ := ih (c :: rest) (by simp only [List.length_cons]; omega) h0c
      rw [escapecharsFrom, if_neg (fun h => Bool.noConfusion h), if_neg hb, escapeSpec,
        replacedCount]
      simp only [List.headD_cons, List.length_cons] at j2 ⊢
      by_cases hn : b = 92 ∧ c = 110
      · rw [if_pos hn, if_pos hn, if_pos ⟨hn.1, Or.inl hn.2⟩, escapecharsFrom_skip, i1]
        refine ⟨rfl, ?_⟩
        simp only [List.length_cons]
        rw [← i1]
        omega
      · rw [if_neg hn, if_neg hn]
        by_cases ht : b = 92 ∧ c = 116
        · rw [if_pos ht, if_pos ht, if_pos ⟨ht.1, Or.inr ht.2⟩, escapecharsFrom_skip, i1]
          refine ⟨rfl, ?_⟩
          simp only [List.length_cons]
          rw [← i1]
          omega
        · have hno : ¬ (b = 92 ∧ (c = 110 ∨ c = 116)) := by
            rintro ⟨h1, h2 | h2⟩
            · exact hn ⟨h1, h2⟩
            · exact ht ⟨h1, h2⟩
          rw [if_neg ht, if_neg ht, if_neg hno, j1]
          refine ⟨rfl, ?_⟩
          simp only [List.length_cons]
          rw [← j1]
          omega

theorem escapeSpec_plain (s : List Byte) (h : 92 ∉ s) : escapeSpec s = s := by
  induction s with
  | nil => rfl
  | cons b rest ih =>
    have hb : b ≠ 92 := fun e => h (e ▸ List.mem_cons_self _ _)
    have ihr := ih (fun hm => h (List.mem_cons_of_mem _ hm))
    cases rest with
    | nil => rfl
    | cons c rest2 =>
      rw [escapeSpec, if_neg (fun e => hb e.1), if_neg (fun e => hb e.1), ihr]

/-- C25: on a string without NUL byte, `escapechars` is the escape pass of the
specification (`escapeSpec`), a scan from left to right in which the two bytes
backslash `n` become one LF byte and the two bytes backslash `t` one HT byte,
every other byte being copied, also a backslash in front of any other byte or
at the end (the last five parts say so on the code, by the first bytes of
the string); the length of the new string is the length of the string minus
the number of replaced sequences; a string without backslash is copied. -/
theorem escapechars_replaces (s : List Byte) (h0 : ∀ b ∈ s, b ≠ 0) :
    escapechars s = escapeSpec s ∧
    (escapechars s).length + replacedCount s = s.length ∧
    (92 ∉ s → escapechars s = s) ∧
    (∀ rest, s = 92 :: 110 :: rest → escapechars s = 10 :: escapechars rest) ∧
    (∀ rest, s = 92 :: 116 :: rest → escapechars s = 9 :: escapechars rest) ∧
    (∀ c rest, s = 92 :: c :: rest → c ≠ 110 → c ≠ 116 →
      escapechars s = 92 :: escapechars (c :: rest)) ∧
    (∀ b rest, s = b :: rest → b ≠ 92 → escapechars s = b :: escapechars rest) ∧
    (s = [92] → escapechars s = [92]) := by
  obtain ⟨h1, h2⟩ := escapechars_eq_spec s.length s (Nat.le_refl _) h0
  refine ⟨h1, h2, ?_, ?_, ?_, ?_, ?_, ?_⟩
  · intro h
    rw [escapechars, h1, escapeSpec_plain s h]
  · intro rest hs
    subst hs
    rw [escapechars, escapecharsFrom, if_neg (fun h => Bool.noConfusion h),
      if_neg (by decide), if_pos ⟨rfl, rfl⟩, escapecharsFrom_skip]
    rfl
  · intro rest hs
    subst hs
    rw [escapechars, escapecharsFrom, if_neg (fun h => Bool.noConfusion h),
      if_neg (by decide),
      if_neg (fun h => absurd (show (116 : Nat) = 110 from h.2) (by decide)),
      if_pos ⟨rfl, rfl⟩, escapecharsFrom_skip]
    rfl
  · intro c rest hs hn ht
    subst hs
    rw [escapechars, escapecharsFrom, if_neg (fun h => Bool.noConfusion h),
      if_neg (by decide), if_neg (fun h => hn h.2), if_neg (fun h => ht h.2)]
    rfl
  · intro b rest hs hb
    subst hs
    rw [escapechars, escapecharsFrom, if_neg (fun h => Bool.noConfusion h),
      if_neg (h0 b (List.mem_cons_self _ _)), if_neg (fun h => hb h.1),
      if_neg (fun h => hb h.1)]
    rfl
  · intro hs
    subst hs
    rfl

/-- C25 at the string `a\n\\t\x\`, whose escape pass gives `a`, LF, `\`, HT,
`\x\`: two sequences are replaced. -/
theorem escapechars_replaces_witness :
    escapechars [97, 92, 110, 92, 92, 116, 92, 120, 92] = [97, 10, 92, 9, 92, 120, 92] ∧
    replacedCount [97, 92, 110, 92, 92, 116, 92, 120, 92] = 2 :=
  ⟨(escapechars_replaces [97, 92, 110, 92, 92, 116, 92, 120, 92] (by decide)).1.trans
      (by decide),
    by decide⟩

/-! ### C28: the stored arguments -/

theorem removebackslashesFrom_snoc (t : List Byte) (b : Byte) (hb : b ≠ 92) :
    ∀ e, ∃ u, removebackslashesFrom (t ++ [b]) e = u ++ [b] := by
  induction t with
  | nil =>
    intro e
    exact ⟨[], by rw [List.nil_append, removebackslashesFrom_other b [] e hb]; rfl⟩
  | cons c rest ih =>
    intro e
    rw [List.cons_append, removebackslashesFrom]
    split
    · exact ih true
    · obtain ⟨u, hu⟩ := ih false
      exact ⟨c :: u, by rw [hu]; rfl⟩

theorem argOk_snoc (u : List Byte) (b : Byte) (hb : b ≠ 92) : argOk (some (u ++ [b])) = true := by
  simp [argOk, hb]

theorem slice_snoc (B : List Byte) (f l : Nat) (b : Byte) (h : B[f + l]? = some b) :
    slice B f (l + 1) = slice B f l ++ [b] := by
  rw [slice, slice, List.take_succ, List.getElem?_drop, h]
  rfl

theorem addcmd_ok (id : CmdId) : AllOk (addcmd id) := by
  intro a ha
  rw [addcmd] at ha
  rw [List.eq_of_mem_replicate ha]
  rfl

theorem set_ok (c : Cmd) (i : Nat) (arg : Option (List Byte)) (hc : AllOk c)
    (harg : argOk arg = true) : AllOk { c with args := c.args.set i arg } := by
  intro a ha
  rcases List.mem_or_eq_of_mem_set ha with h | h
  · exact hc a h
  · rw [h]
    exact harg

theorem stored_arg_ok (cmdline : List Byte) (pos argbegin : Nat)
    (hpos : pos ≤ cmdline.length)
    (hesc : ∀ k, k + 1 = pos → cmdline[k]? ≠ some 92) :
    argOk (if 0 < pos - argbegin then
      some (removebackslashes (slice cmdline argbegin (pos - argbegin))) else none) = true := by
  by_cases h : 0 < pos - argbegin
  · rw [if_pos h]
    have hlt : pos - 1 < cmdline.length := by omega
    have hget : cmdline[argbegin + (pos - 1 - argbegin)]? = some (cmdline[pos - 1]) := by
      have e : argbegin + (pos - 1 - argbegin) = pos - 1 := by omega
      rw [e]
      exact List.getElem?_eq_getElem hlt
    have hne : cmdline[pos - 1] ≠ 92 := by
      intro h92
      apply hesc (pos - 1) (by omega)
      rw [List.getElem?_eq_getElem hlt, h92]
    have e2 : pos - argbegin = pos - 1 - argbegin + 1 := by omega
    rw [e2, slice_snoc cmdline argbegin _ _ hget]
    obtain ⟨u, hu⟩ := removebackslashesFrom_snoc
      (slice cmdline argbegin (pos - 1 - argbegin)) _ hne false
    rw [removebackslashes, hu]
    exact argOk_snoc u _ hne
  · rw [if_neg h]
    rfl

theorem parseStep_ok (cmdline : List Byte) (pos : Nat) (ch : Byte) (s s1 : Parser)
    (hget : cmdline[pos]? = some ch) (hK : ParserOk s)
    (hesc : s.escaped = false → ∀ k, k + 1 = pos → cmdline[k]? ≠ some 92)
    (h : parseStep cmdline pos ch s = Except.ok s1) :
    ParserOk s1 ∧ (s1.escaped = false → ∀ k, k + 1 = pos + 1 → cmdline[k]? ≠ some 92) := by
  have hpos : pos < cmdline.length := by
    rcases Nat.lt_or_ge pos cmdline.length with hl | hl
    · exact hl
    · rw [List.getElem?_eq_none hl] at hget
      cases hget
  have hnext : ∀ s2 : Parser, s2.escaped = decide (ch = 92) →
      (s2.escaped = false → ∀ k, k + 1 = pos + 1 → cmdline[k]? ≠ some 92) := by
    intro s2 he hf k hk
    have hk2 : k = pos := by omega
    rw [hk2, hget]
    rw [he] at hf
    intro h92
    rw [Option.some.injEq] at h92
    simp [h92] at hf
  obtain ⟨hcmds, hcur⟩ := hK
  unfold parseStep at h
  by_cases hc : s.incomment = true
  · rw [if_pos hc] at h
    by_cases h10 : ch = 10
    · rw [if_pos h10, Except.ok.injEq] at h
      subst h
      exact ⟨⟨hcmds, hcur⟩, hnext _ rfl⟩
    · rw [if_neg h10, Except.ok.injEq] at h
      subst h
      exact ⟨⟨hcmds, hcur⟩, hnext _ rfl⟩
  · rw [if_neg hc] at h
    by_cases hi : s.inarglist = true
    · rw [if_pos hi] at h
      by_cases hclose : ch = 47 ∧ s.escaped = false
      · rw [if_pos hclose] at h
        rcases hcc : s.currcmd with _ | c
        · rw [hcc] at h
          cases h
        · rw [hcc] at h
          dsimp only at h
          have harg := stored_arg_ok cmdline pos s.argbegin (Nat.le_of_lt hpos) (hesc hclose.2)
          have hc1 := set_ok c s.argind _ (hcur c hcc) harg
          split at h
          · rw [Except.ok.injEq] at h
            subst h
            refine ⟨⟨?_, ?_⟩, hnext _ rfl⟩
            · intro x hx
              rw [List.mem_append, List.mem_singleton] at hx
              rcases hx with hx | hx
              · exact hcmds x hx
              · rw [hx]
                exact hc1
            · intro x hx
              cases hx
          · rw [Except.ok.injEq] at h
            subst h
            refine ⟨⟨hcmds, ?_⟩, hnext _ rfl⟩
            intro x hx
            rw [Option.some.injEq] at hx
            rw [← hx]
            exact hc1
      · rw [if_neg hclose, Except.ok.injEq] at h
        subst h
        exact ⟨⟨hcmds, hcur⟩, hnext _ rfl⟩
    · rw [if_neg hi] at h
      by_cases hopen : ch = 47 ∧ s.escaped = false
      · rw [if_pos hopen] at h
        rcases hcc : s.currcmd with _ | c
        · rw [hcc] at h
          cases h
        · rw [hcc] at h
          dsimp only at h
          split at h
          · rw [Except.ok.injEq] at h
            subst h
            exact ⟨⟨hcmds, fun x hx => hcur x (hcc.trans hx)⟩, hnext _ rfl⟩
          · cases h
      · rw [if_neg hopen] at h
        have hall : ∀ x ∈ s.cmds ++ s.currcmd.toList, AllOk x := by
          intro x hx
          rw [List.mem_append, Option.mem_toList] at hx
          rcases hx with hx | hx
          · exact hcmds x hx
          · exact hcur x hx
        by_cases hsp : isspace ch = true
        · rw [if_pos hsp, Except.ok.injEq] at h
          subst h
          exact ⟨⟨hcmds, hcur⟩, hnext _ rfl⟩
        · rw [if_neg hsp] at h
          by_cases h35 : ch = 35
          · rw [if_pos h35, Except.ok.injEq] at h
            subst h
            exact ⟨⟨hcmds, hcur⟩, hnext _ rfl⟩
          · rw [if_neg h35] at h
            rcases hid : chtocmdid ch with _ | cmdid
            · rw [hid] at h
              cases h
            · rw [hid] at h
              dsimp only at h
              split at h
              · rw [Except.ok.injEq] at h
                subst h
                refine ⟨⟨?_, ?_⟩, hnext _ rfl⟩
                · intro x hx
                  rw [List.mem_append, List.mem_singleton] at hx
                  rcases hx with hx | hx
                  · exact hall x hx
                  · rw [hx]
                    exact addcmd_ok cmdid
                · intro x hx
                  cases hx
              · rw [Except.ok.injEq] at h
                subst h
                refine ⟨⟨hall, ?_⟩, hnext _ rfl⟩
                intro x hx
                rw [Option.some.injEq] at hx
                rw [← hx]
                exact addcmd_ok cmdid

theorem parseLoop_ok (cmdline : List Byte) (rest : List Byte) :
    ∀ (pos : Nat) (s s1 : Parser), cmdline.drop pos = rest → ParserOk s →
      (s.escaped = false → ∀ k, k + 1 = pos → cmdline[k]? ≠ some 92) →
      parseLoop cmdline rest pos s = Except.ok s1 → ParserOk s1 := by
  induction rest with
  | nil =>
    intro pos s s1 _ hK _ h
    rw [parseLoop, Except.ok.injEq] at h
    rw [← h]
    exact hK
  | cons ch rest ih =>
    intro pos s s1 hdrop hK hesc h
    rw [parseLoop] at h
    by_cases h0 : ch = 0
    · rw [if_pos h0, Except.ok.injEq] at h
      rw [← h]
      exact hK
    · rw [if_neg h0] at h
      have hget : cmdline[pos]? = some ch := by
        have := List.getElem?_drop cmdline pos 0
        rw [hdrop] at this
        simpa using this.symm
      have hdrop1 : cmdline.drop (pos + 1) = rest := by
        rw [← List.tail_drop, hdrop]
        rfl
      rcases hs : parseStep cmdline pos ch s with e | s2
      · rw [hs] at h
        cases h
      · rw [hs] at h
        obtain ⟨hK2, hesc2⟩ := parseStep_ok cmdline pos ch s s2 hget hK hesc hs
        exact ih (pos + 1) s2 s1 hdrop1 hK2 hesc2 h

/-- C28: in every program that `parsecmds` returns, with or without `quiet`,
every stored argument of every command is absent (`NULL`) or is a string that
is not empty and whose last byte is not a backslash. -/
theorem parsecmds_stored_args (quiet : Bool) (cmdline : List Byte) (cmds : List Cmd)
    (h : parsecmds quiet cmdline = Except.ok cmds) :
    ∀ c ∈ cmds, ∀ a ∈ c.args,
      a = none ∨ ∃ str, a = some str ∧ str ≠ [] ∧ str.getLast? ≠ some 92 := by
  have hall : ∀ c ∈ cmds, AllOk c := by
    unfold parsecmds at h
    rcases hl : parseLoop cmdline cmdline 0 Parser.init with e | s
    · rw [hl] at h
      cases h
    · rw [hl] at h
      have hK : ParserOk s := parseLoop_ok cmdline cmdline 0 Parser.init s rfl
        ⟨fun c hc => absurd hc (List.not_mem_nil c), fun c hc => by cases hc⟩
        (fun _ k hk => absurd hk (Nat.succ_ne_zero k)) hl
      have hlist : ∀ x ∈ s.cmds ++ s.currcmd.toList, AllOk x := by
        intro x hx
        rw [List.mem_append, Option.mem_toList] at hx
        rcases hx with hx | hx
        · exact hK.1 x hx
        · exact hK.2 x hx
      dsimp only at h
      split at h
      · cases h
      · split at h
        · rw [Except.ok.injEq] at h
          subst h
          intro c hc
          rw [List.mem_append, List.mem_singleton] at hc
          rcases hc with hc | hc
          · exact hlist c hc
          · rw [hc]
            exact addcmd_ok _
        · rw [Except.ok.injEq] at h
          subst h
          exact hlist
  intro c hc a ha
  have hok := hall c hc a ha
  cases a with
  | none => exact Or.inl rfl
  | some str =>
    right
    simp only [argOk, Bool.and_eq_true, decide_eq_true_eq] at hok
    exact ⟨str, rfl, hok.1, hok.2⟩

/-- C28 at the command line `s/a\/b//`: the stored arguments are `a/b` and
`NULL`. -/
theorem parsecmds_stored_args_witness :
    programOf (parsecmds true [115, 47, 97, 92, 47, 98, 47, 47])
      = some [(CmdId.CMD_SUB, [some [97, 47, 98], none])] ∧
    ∀ c ∈ [(⟨CmdId.CMD_SUB, [some [97, 47, 98], none], none⟩ : Cmd)], ∀ a ∈ c.args,
      a = none ∨ ∃ str, a = some str ∧ str ≠ [] ∧ str.getLast? ≠ some 92 :=
  ⟨by decide,
    parsecmds_stored_args true [115, 47, 97, 92, 47, 98, 47, 47]
      [⟨CmdId.CMD_SUB, [some [97, 47, 98], none], none⟩] rfl⟩

/-! ### C27: the pointer `lastsel` -/

/-- The commands `~`, `u`, `c` and `d` leave `lastsel` at the final
selection, `NULL` when there is none. -/
theorem lastsel_kept_by_flip_undox_change (st : State) (cmd : Cmd) :
    (∀ st', cmd_flip st = some st' → st'.lastsel = st'.sels.getLast?) ∧
    (cmd_undox st).lastsel = (cmd_undox st).sels.getLast? ∧
    (cmd_change st cmd).lastsel = (cmd_change st cmd).sels.getLast? ∧
    (cmd_delete st).lastsel = (cmd_delete st).sels.getLast? := by
  have hc : ∀ c, (cmd_change st c).lastsel = (cmd_change st c).sels.getLast? := by
    intro c
    unfold cmd_change
    dsimp only
    split <;> rfl
  refine ⟨?_, rfl, hc cmd, hc _⟩
  intro st' h
  unfold cmd_flip at h
  split at h
  · cases h
  · rw [Option.some.injEq] at h
    rw [← h]

/-- C27, evaluated on the code: on the buffer `"a\nb\n"`, after `L` the
selections are the two lines and `lastsel` designates the second.  The command
`g/a/` removes the second selection and leaves `lastsel` at the removed
interval `(2, 2)`, which is not the final selection `(0, 2)`; the `~` that
follows computes the gap behind `(2, 2)` and returns no selection, the byte
range `(2, 2)` being lost.  The command `x/b/` instead of `g/a/` removes the
first selection and leaves `lastsel` `NULL` with the selection `(2, 2)` in the
list; the `~` that follows reads through `NULL` and returns no state. -/
theorem guard_and_xtract_leave_lastsel_stale :
    cmd_lines 5 (initState [97, 10, 98, 10])
      = some ⟨[97, 10, 98, 10], 4, [⟨0, 2⟩, ⟨2, 2⟩], some ⟨2, 2⟩, []⟩ ∧
    cmd_guard ⟨[97, 10, 98, 10], 4, [⟨0, 2⟩, ⟨2, 2⟩], some ⟨2, 2⟩, []⟩
        ⟨CmdId.CMD_GUARD, [some [97]], some (litRegex 97)⟩
      = ⟨[97, 10, 98, 10], 4, [⟨0, 2⟩], some ⟨2, 2⟩, []⟩ ∧
    ([⟨0, 2⟩] : List Intval).getLast? ≠ some ⟨2, 2⟩ ∧
    cmd_flip ⟨[97, 10, 98, 10], 4, [⟨0, 2⟩], some ⟨2, 2⟩, []⟩
      = some ⟨[97, 10, 98, 10], 4, [], none, []⟩ ∧
    cmd_xtract 5 ⟨[97, 10, 98, 10], 4, [⟨0, 2⟩, ⟨2, 2⟩], some ⟨2, 2⟩, []⟩
        ⟨CmdId.CMD_XTRACT, [some [98]], some (litRegex 98)⟩
      = some ⟨[97, 10, 98, 10], 4, [⟨2, 2⟩], none, []⟩ ∧
    cmd_flip ⟨[97, 10, 98, 10], 4, [⟨2, 2⟩], none, []⟩ = none := by
  refine ⟨by decide, by decide, by decide, by decide, by decide, by decide⟩

/-! ### C29: the selecting commands narrow the selections -/

theorem xtractSels_narrow (fuel : Nat) (regex : Option Regex)
    (hre : ∀ re, regex = some re → MatchesInside re) (B : List Byte) (n : Nat)
    (hB : n ≤ B.length) (hfit : n < SIZE_MOD) (negated : Bool) (orig sels : List Intval) :
    ∀ (done out : List Intval) (prevsel : Option Intval), I2 n sels →
      (∀ s ∈ sels, s ∈ orig) →
      (∀ d ∈ done, ∃ s ∈ orig, s.from_ ≤ d.from_ ∧ d.from_ + d.len ≤ s.from_ + s.len) →
      xtractSels fuel regex B negated done sels = some (out, prevsel) →
      ∀ iv ∈ out, ∃ s ∈ orig, s.from_ ≤ iv.from_ ∧ iv.from_ + iv.len ≤ s.from_ + s.len := by
  induction sels with
  | nil =>
    intro done out prevsel _ _ hd hrun
    simp only [xtractSels, Option.some.injEq, Prod.mk.injEq] at hrun
    rw [← hrun.1]
    exact hd
  | cons sel next ih =>
    intro done out prevsel h2 hsub hd hrun
    have hs2 := h2 sel (List.mem_cons_self _ _)
    rw [xtractSels] at hrun
    rcases hx : xtractinternal fuel regex B done sel negated with _ | done1
    · rw [hx] at hrun
      cases hrun
    · rw [hx] at hrun
      obtain ⟨ms, hW, hdone1⟩ := xtractinternal_inv fuel regex hre B done sel negated done1
        (by omega) (by omega) hx
      have hd1 : ∀ d ∈ done1,
          ∃ s ∈ orig, s.from_ ≤ d.from_ ∧ d.from_ + d.len ≤ s.from_ + s.len := by
        rw [hdone1]
        intro d hdm
        rw [List.mem_append] at hdm
        rcases hdm with hdm | hdm
        · exact hd d hdm
        · exact ⟨sel, hsub sel (List.mem_cons_self _ _), hW.2 d hdm⟩
      have hnext : ∀ s ∈ next, s ∈ orig := fun s hs => hsub s (List.mem_cons_of_mem _ hs)
      simp only at hrun
      rcases hl : done1.getLast? with _ | l
      · rw [hl] at hrun
        simp only [Option.some.injEq, Prod.mk.injEq] at hrun
        rw [← hrun.1]
        intro iv hiv
        rw [List.mem_append] at hiv
        rcases hiv with hiv | hiv
        · exact hd1 iv hiv
        · exact ⟨iv, hnext iv hiv, Nat.le_refl _, Nat.le_refl _⟩
      · rw [hl] at hrun
        simp only at hrun
        exact ih done1 out prevsel (fun iv hiv => h2 iv (List.mem_cons_of_mem _ hiv)) hnext hd1
          hrun

theorem covered_of_inside (T T1 : List Intval)
    (h : ∀ iv ∈ T1, ∃ s ∈ T, s.from_ ≤ iv.from_ ∧ iv.from_ + iv.len ≤ s.from_ + s.len)
    (i : Nat) (hc : covered T1 i = true) : covered T i = true := by
  simp only [covered, List.any_eq_true, Bool.and_eq_true, decide_eq_true_eq] at hc ⊢
  obtain ⟨iv, hiv, h1, h2⟩ := hc
  obtain ⟨s, hs, h3, h4⟩ := h iv hiv
  exact ⟨s, hs, by omega, by omega⟩

theorem cmd_xtract_narrow (fuel : Nat) (st st' : State) (cmd : Cmd) (negated : Bool)
    (hre : ∀ re, cmd.regex = some re → MatchesInside re)
    (hB : st.buffer.length = st.buflen) (h2 : I2 st.buflen st.sels)
    (hfit : st.buflen < SIZE_MOD)
    (hrun : (if negated then cmd_ytract fuel st cmd else cmd_xtract fuel st cmd) = some st') :
    st'.buffer = st.buffer ∧ st'.buflen = st.buflen ∧
      ∀ iv ∈ st'.sels,
        ∃ s ∈ st.sels, s.from_ ≤ iv.from_ ∧ iv.from_ + iv.len ≤ s.from_ + s.len := by
  have hself : ∀ iv ∈ st.sels,
      ∃ s ∈ st.sels, s.from_ ≤ iv.from_ ∧ iv.from_ + iv.len ≤ s.from_ + s.len :=
    fun iv hiv => ⟨iv, hiv, Nat.le_refl _, Nat.le_refl _⟩
  have hmain : ∀ r, xtractSels fuel cmd.regex st.buffer negated [] st.sels = some r →
      ∀ iv ∈ r.1,
        ∃ s ∈ st.sels, s.from_ ≤ iv.from_ ∧ iv.from_ + iv.len ≤ s.from_ + s.len := by
    intro r hr
    exact xtractSels_narrow fuel cmd.regex hre st.buffer st.buflen (Nat.le_of_eq hB.symm) hfit
      negated st.sels st.sels [] r.1 r.2 h2 (fun s hs => hs)
      (fun d hd => absurd hd (List.not_mem_nil d)) hr
  cases negated with
  | false =>
    simp only [Bool.false_eq_true, if_false] at hrun
    unfold cmd_xtract at hrun
    by_cases hz : zeroLengthPattern cmd = true
    · rw [if_pos hz, Option.some.injEq] at hrun
      subst hrun
      exact ⟨rfl, rfl, fun iv hiv => absurd hiv (List.not_mem_nil iv)⟩
    · rw [if_neg hz] at hrun
      rcases hx : xtractSels fuel cmd.regex st.buffer false [] st.sels with _ | r
      · rw [hx] at hrun
        cases hrun
      · rw [hx] at hrun
        simp only [Option.some.injEq] at hrun
        subst hrun
        exact ⟨rfl, rfl, hmain r hx⟩
  | true =>
    simp only [if_true] at hrun
    unfold cmd_ytract at hrun
    by_cases hz : zeroLengthPattern cmd = true
    · rw [if_pos hz, Option.some.injEq] at hrun
      subst hrun
      exact ⟨rfl, rfl, hself⟩
    · rw [if_neg hz] at hrun
      rcases hx : xtractSels fuel cmd.regex st.buffer true [] st.sels with _ | r
      · rw [hx] at hrun
        cases hrun
      · rw [hx] at hrun
        simp only [Option.some.injEq] at hrun
        subst hrun
        exact ⟨rfl, rfl, hmain r hx⟩

/-- C29: the commands `x`, `y`, `L`, `g` and `v` only narrow the selections.
The state holds a buffer of `buflen < 2^64` bytes and a selection list with
I2, and the regex is an oracle that reports its match inside the string it is
given.  Then every state that the command returns has the same buffer, and
each of its selections lies inside a selection of the list before the
command, so that a byte that is selected afterwards was selected before.
The command returns a state when the fuel of the match loops exceeds the
length of the buffer. -/
theorem selections_narrow (fuel : Nat) (st : State) (cmd : Cmd)
    (hid : cmd.id ∈ [CmdId.CMD_XTRACT, CmdId.CMD_YTRACT, CmdId.CMD_LINES, CmdId.CMD_GUARD,
      CmdId.CMD_VGUARD])
    (hB : st.buffer.length = st.buflen) (h2 : I2 st.buflen st.sels)
    (hfit : st.buflen < SIZE_MOD)
    (hre : ∀ re, cmd.regex = some re → MatchesInside re) :
    (∀ st', callback fuel st cmd = some st' →
      st'.buffer = st.buffer ∧ st'.buflen = st.buflen ∧
      (∀ iv ∈ st'.sels,
        ∃ s ∈ st.sels, s.from_ ≤ iv.from_ ∧ iv.from_ + iv.len ≤ s.from_ + s.len) ∧
      (∀ i, covered st'.sels i = true → covered st.sels i = true)) ∧
    (st.buflen < fuel → ∃ st', callback fuel st cmd = some st') := by
  have hlines : ∀ re, (⟨CmdId.CMD_XTRACT, [some LINES_REGX], some linesRegex⟩ : Cmd).regex
      = some re → MatchesInside re := by
    intro re h
    cases h
    exact linesRegex_inside
  have hguard : ∀ negated, (guardinternal st cmd negated).buffer = st.buffer ∧
      (guardinternal st cmd negated).buflen = st.buflen ∧
      ∀ iv ∈ (guardinternal st cmd negated).sels,
        ∃ s ∈ st.sels, s.from_ ≤ iv.from_ ∧ iv.from_ + iv.len ≤ s.from_ + s.len := by
    intro negated
    refine ⟨rfl, rfl, ?_⟩
    intro iv hiv
    have hs : List.Sublist (guardinternal st cmd negated).sels st.sels := by
      simp only [guardinternal, guardSels_filter, List.nil_append]
      exact List.filter_sublist _
    exact ⟨iv, hs.subset hiv, Nat.le_refl _, Nat.le_refl _⟩
  have hnarrow : ∀ st', callback fuel st cmd = some st' →
      st'.buffer = st.buffer ∧ st'.buflen = st.buflen ∧
      ∀ iv ∈ st'.sels,
        ∃ s ∈ st.sels, s.from_ ≤ iv.from_ ∧ iv.from_ + iv.len ≤ s.from_ + s.len := by
    intro st' hrun
    unfold callback at hrun
    cases hc : cmd.id <;> rw [hc] at hid hrun <;> simp only [Option.some.injEq] at hrun
    case CMD_XTRACT => exact cmd_xtract_narrow fuel st st' cmd false hre hB h2 hfit hrun
    case CMD_YTRACT => exact cmd_xtract_narrow fuel st st' cmd true hre hB h2 hfit hrun
    case CMD_LINES => exact cmd_xtract_narrow fuel st st' _ false hlines hB h2 hfit hrun
    case CMD_GUARD =>
      subst hrun
      exact hguard false
    case CMD_VGUARD =>
      subst hrun
      exact hguard true
    all_goals exact absurd hid (by decide)
  refine ⟨?_, ?_⟩
  · intro st' hrun
    obtain ⟨a, b, c⟩ := hnarrow st' hrun
    exact ⟨a, b, c, covered_of_inside st.sels st'.sels c⟩
  · intro hfuel
    unfold callback
    cases hc : cmd.id <;> rw [hc] at hid <;> simp only
    case CMD_XTRACT => exact cmd_xtract_total fuel st cmd hre hB h2 hfit hfuel
    case CMD_YTRACT => exact cmd_ytract_total fuel st cmd hre hB h2 hfit hfuel
    case CMD_LINES => exact cmd_xtract_total fuel st _ hlines hB h2 hfit hfuel
    case CMD_GUARD => exact ⟨_, rfl⟩
    case CMD_VGUARD => exact ⟨_, rfl⟩
    all_goals exact absurd hid (by decide)

/-- C29 at the buffer `"abcb"` with the selection `(1, 3)` and the command
`y/c/`: the selection that is left is `(1, 1)`. -/
theorem selections_narrow_witness :
    callback 5 ⟨[97, 98, 99, 98], 4, [⟨1, 3⟩], some ⟨1, 3⟩, []⟩
        ⟨CmdId.CMD_YTRACT, [some [99]], some (litRegex 99)⟩
      = some ⟨[97, 98, 99, 98], 4, [⟨1, 1⟩], some ⟨1, 1⟩, []⟩ ∧
    ∀ iv ∈ ([⟨1, 1⟩] : List Intval),
      ∃ s ∈ ([⟨1, 3⟩] : List Intval), s.from_ ≤ iv.from_ ∧ iv.from_ + iv.len ≤ s.from_ + s.len :=
  ⟨by decide,
    ((selections_narrow 5 ⟨[97, 98, 99, 98], 4, [⟨1, 3⟩], some ⟨1, 3⟩, []⟩
      ⟨CmdId.CMD_YTRACT, [some [99]], some (litRegex 99)⟩ (by decide) (by decide) (by decide)
      (by decide) (fun re h => Option.some.inj h ▸ litRegex_inside 99)).1
      ⟨[97, 98, 99, 98], 4, [⟨1, 1⟩], some ⟨1, 1⟩, []⟩ (by decide)).2.2.1⟩

/-! ### C26: the selections after a substitution -/

theorem shiftSels_eq_spec (t : Nat) (M : Intval → List Intval) (sels : List Intval) :
    ∀ (c p added removed : Nat), I1 sels → (∀ x ∈ sels, c ≤ x.from_) →
      (∀ x ∈ sels, Within x (M x)) → p + removed = c + added →
      shiftSels t M c p sels = shiftedSpec t M added removed sels := by
  induction sels with
  | nil => intro _ _ _ _ _ _ _ _; rfl
  | cons s rest ih =>
    intro c p added removed h1 hc hW hrel
    have hsc := hc s (List.mem_cons_self _ _)
    have hLs := within_lenSum_le s (M s) (hW s (List.mem_cons_self _ _))
    rw [shiftSels, shiftedSpec]
    have hrec := ih (s.from_ + s.len)
      (p + (s.from_ - c) + (s.len - lenSum (M s) + (M s).length * t))
      (added + (M s).length * t) (removed + lenSum (M s)) (I1_tail s rest h1)
      (fun x hx => I1_head_le s rest h1 x hx)
      (fun x hx => hW x (List.mem_cons_of_mem _ hx)) (by omega)
    rw [hrec]
    have e1 : p + (s.from_ - c) = s.from_ + added - removed := by omega
    have e2 : s.len - lenSum (M s) + (M s).length * t
        = s.len + (M s).length * t - lenSum (M s) := by omega
    rw [e1, e2]

theorem shiftedSpec_no_match (t : Nat) (sels : List Intval) :
    ∀ a, shiftedSpec t (fun _ => []) a a sels = sels := by
  induction sels with
  | nil => intro _; rfl
  | cons s rest ih =>
    intro a
    rw [shiftedSpec]
    simp only [List.length_nil, Nat.zero_mul, Nat.add_zero, lenSum, Nat.sub_zero,
      Nat.add_sub_cancel]
    rw [ih a]

theorem cmd_sub_rewrites (fuel : Nat) (st st' : State) (cmd : Cmd) (M : Intval → List Intval)
    (hB : st.buffer.length = st.buflen) (h1 : I1 st.sels) (h2 : I2 st.buflen st.sels)
    (hfit : st.buflen < SIZE_MOD)
    (hgo : ¬ (cmd.regex.isNone ∧
      (cmd.arg 0 = none ∨ (cmd.arg 0 ≠ some PAT_START ∧ cmd.arg 0 ≠ some PAT_END))))
    (hM : ∀ sel ∈ st.sels, ∀ acc, subMatch fuel cmd st.buffer sel acc
      = some ⟨acc ++ M sel, (M sel).length, lenSum (M sel)⟩)
    (hW : ∀ x ∈ st.sels, Within x (M x))
    (hcnt : (st.sels.flatMap M).length < UINT_MOD)
    (hnew : st.buflen + (st.sels.flatMap M).length * arglen (cmd.arg 1)
      < SIZE_MOD + lenSum (st.sels.flatMap M))
    (hrun : cmd_sub fuel st cmd = some st') :
    st'.sels = shiftedSpec (arglen (cmd.arg 1)) M 0 0 st.sels ∧
      selTexts st'.buffer st'.sels
        = st.sels.map (fun s =>
            rewriteSeg st.buffer (argbytes (cmd.arg 1)) (s.from_ + s.len) s.from_ (M s)) := by
  have hR : arglen (cmd.arg 1) = (argbytes (cmd.arg 1)).length := by
    cases cmd.arg 1 <;> rfl
  obtain ⟨st2, e, hbuf, _, hsels, _, _⟩ := cmd_sub_spec fuel st cmd M hB h1 h2 hfit hgo hM hW
    hcnt hnew
  rw [hrun, Option.some.injEq] at e
  subst e
  refine ⟨?_, ?_⟩
  · rw [hsels]
    exact shiftSels_eq_spec _ M st.sels 0 0 0 0 h1 (fun _ _ => Nat.zero_le _) hW rfl
  · have := selTexts_shift st.buffer (argbytes (cmd.arg 1)) st.buflen (by omega) M st.sels 0 []
      h1 h2 (fun _ _ => Nat.zero_le _) hW
    rw [List.nil_append, List.length_nil, ← hR] at this
    rw [hbuf, hsels, rewriteSpec, hB]
    exact this

theorem charAt_of_cstrAt_nil (B : List Byte) (pos end_ : Nat) (h : cstrAt B pos end_ = []) :
    charAt B pos end_ = 0 := by
  rw [cstrAt] at h
  rw [charAt, List.getD_eq_getElem?_getD]
  have hg := List.getElem?_drop (patched B end_) pos 0
  rw [Nat.add_zero] at hg
  rw [← hg]
  rcases hd : (patched B end_).drop pos with _ | ⟨x, xs⟩
  · rfl
  · rw [hd, List.takeWhile_cons] at h
    by_cases hx : x = 0
    · subst hx
      simp
    · simp [hx] at h

theorem subLoop_total (re : Regex) (hre : MatchesInside re) (hadv : AdvancesCursor re)
    (B : List Byte) (end_ : Nat) (hend : end_ ≤ B.length) (fuel : Nat) :
    ∀ (pos : Nat) (acc : SubAcc), pos ≤ end_ → end_ - pos < fuel →
      ∃ res, subLoop fuel re B pos end_ acc = some res := by
  induction fuel with
  | zero => intro pos acc _ h; omega
  | succ k ih =>
    intro pos acc hpos hfuel
    rw [subLoop]
    have hlen := cstrAt_length_le B pos end_ hpos hend
    rcases hm : re (cstrAt B pos end_) with _ | ⟨so, eo⟩
    · exact ⟨acc, rfl⟩
    · obtain ⟨hso, heo⟩ := hre _ so eo hm
      simp only
      by_cases hc : charAt B (pos + eo) end_ = 0
      · rw [if_pos hc]
        exact ⟨_, rfl⟩
      · rw [if_neg hc]
        have hpos1 : 1 ≤ eo := by
          rcases Nat.eq_zero_or_pos eo with h0 | h0
          · exfalso
            subst h0
            exact hc (charAt_of_cstrAt_nil B pos end_ (hadv _ so 0 hm rfl))
          · exact h0
        exact ih (pos + eo) _ (by omega) (by omega)

theorem subMatch_total (fuel : Nat) (cmd : Cmd)
    (hre : ∀ re, cmd.regex = some re → MatchesInside re)
    (hadv : ∀ re, cmd.regex = some re → AdvancesCursor re)
    (hpat : cmd.arg 0 ≠ none)
    (hgo : ¬ (cmd.regex.isNone ∧
      (cmd.arg 0 = none ∨ (cmd.arg 0 ≠ some PAT_START ∧ cmd.arg 0 ≠ some PAT_END))))
    (B : List Byte) (sel : Intval) (acc : List Intval)
    (hend : sel.from_ + sel.len ≤ B.length) (hfit : sel.from_ + sel.len < SIZE_MOD)
    (hfuel : sel.len < fuel) :
    ∃ res, subMatch fuel cmd B sel acc = some res := by
  have hsz : szadd sel.from_ sel.len = sel.from_ + sel.len := szadd_eq hfit
  unfold subMatch
  rcases ha : cmd.arg 0 with _ | pat
  · exact absurd ha hpat
  · simp only
    by_cases h1 : pat = PAT_START
    · rw [if_pos h1]
      exact ⟨_, rfl⟩
    · rw [if_neg h1]
      by_cases h2 : pat = PAT_END
      · rw [if_pos h2]
        exact ⟨_, rfl⟩
      · rw [if_neg h2]
        by_cases h3 : pat = PAT_EMPTY
        · rw [if_pos h3]
          split
          · exact ⟨_, rfl⟩
          · exact ⟨_, rfl⟩
        · rw [if_neg h3]
          rcases hr : cmd.regex with _ | re
          · exfalso
            apply hgo
            refine ⟨by rw [hr]; rfl, Or.inr ⟨?_, ?_⟩⟩
            · rw [ha]
              intro h
              exact h1 (Option.some.inj h)
            · rw [ha]
              intro h
              exact h2 (Option.some.inj h)
          · simp only [hsz]
            exact subLoop_total re (hre re hr) (hadv re hr) B _ hend fuel sel.from_ _ (by omega)
              (by omega)

theorem subSels_total (fuel : Nat) (cmd : Cmd)
    (hre : ∀ re, cmd.regex = some re → MatchesInside re)
    (hadv : ∀ re, cmd.regex = some re → AdvancesCursor re)
    (hpat : cmd.arg 0 ≠ none)
    (hgo : ¬ (cmd.regex.isNone ∧
      (cmd.arg 0 = none ∨ (cmd.arg 0 ≠ some PAT_START ∧ cmd.arg 0 ≠ some PAT_END))))
    (B : List Byte) (n t : Nat) (hB : n ≤ B.length) (hfit : n < SIZE_MOD) (hfuel : n < fuel)
    (sels : List Intval) :
    ∀ s0, I2 n sels → ∃ s, subSels fuel cmd B t sels s0 = some s := by
  induction sels with
  | nil => intro s0 _; exact ⟨s0, rfl⟩
  | cons sel rest ih =>
    intro s0 h2
    have hs2 := h2 sel (List.mem_cons_self _ _)
    obtain ⟨res, hres⟩ := subMatch_total fuel cmd hre hadv hpat hgo B sel s0.matchintvs
      (by omega) (by omega) (by omega)
    rw [subSels, hres]
    exact ih _ (fun iv hiv => h2 iv (List.mem_cons_of_mem _ hiv))

theorem cmd_sub_total (fuel : Nat) (st : State) (cmd : Cmd)
    (hre : ∀ re, cmd.regex = some re → MatchesInside re)
    (hadv : ∀ re, cmd.regex = some re → AdvancesCursor re)
    (hpat : cmd.regex.isSome = true → cmd.arg 0 ≠ none)
    (hB : st.buffer.length = st.buflen) (h2 : I2 st.buflen st.sels)
    (hfit : st.buflen < SIZE_MOD) (hfuel : st.buflen < fuel) :
    ∃ st', cmd_sub fuel st cmd = some st' := by
  unfold cmd_sub
  simp only
  by_cases hgo : cmd.regex.isNone ∧
      (cmd.arg 0 = none ∨ (cmd.arg 0 ≠ some PAT_START ∧ cmd.arg 0 ≠ some PAT_END))
  · rw [if_pos hgo]
    exact ⟨st, rfl⟩
  · rw [if_neg hgo]
    have hpat1 : cmd.arg 0 ≠ none := by
      intro h
      rcases hr : cmd.regex with _ | re
      · exact hgo ⟨by rw [hr]; rfl, Or.inl h⟩
      · exact hpat (by rw [hr]; rfl) h
    obtain ⟨s, hs⟩ := subSels_total fuel cmd hre hadv hpat1 hgo st.buffer st.buflen
      (arglen (cmd.arg 1)) (Nat.le_of_eq hB.symm) hfit hfuel st.sels ⟨[], 0, 0, 0, []⟩ h2
    rw [hs]
    simp only
    split
    · exact ⟨_, rfl⟩
    · exact ⟨_, rfl⟩

theorem shiftedSpec_anchor (t : Nat) (M : Intval → List Intval)
    (hM : ∀ s, (M s).length = 1 ∧ lenSum (M s) = 0) (sels : List Intval) :
    ∀ added, shiftedSpec t M added 0 sels = surroundSpec t added sels := by
  induction sels with
  | nil => intro _; rfl
  | cons s rest ih =>
    intro added
    rw [shiftedSpec, surroundSpec, (hM s).1, (hM s).2, Nat.one_mul, Nat.add_zero, ih]
    rfl

theorem surroundSpec_comp (a b : Nat) (sels : List Intval) :
    ∀ x y, surroundSpec b y (surroundSpec a x sels) = surroundSpec (a + b) (x + y) sels := by
  induction sels with
  | nil => intro _ _; rfl
  | cons s rest ih =>
    intro x y
    rw [surroundSpec, surroundSpec, surroundSpec, ih]
    have e1 : s.from_ + x + y = s.from_ + (x + y) := by omega
    have e2 : s.len + a + b = s.len + (a + b) := by omega
    have e3 : x + a + (y + b) = x + y + (a + b) := by omega
    show (⟨s.from_ + x + y, s.len + a + b⟩ : Intval) :: _ = _
    rw [e1, e2, e3]

theorem anchorStart_shape (s : Intval) :
    (anchorStart s).length = 1 ∧ lenSum (anchorStart s) = 0 := ⟨rfl, rfl⟩

theorem anchorEnd_shape (s : Intval) :
    (anchorEnd s).length = 1 ∧ lenSum (anchorEnd s) = 0 := ⟨rfl, rfl⟩

/-- The commands `i` and `a`, as `cmd_sub` on the proxy command: the state
that is returned, its selections and their texts. -/
theorem cmd_sub_anchor_texts (fuel : Nat) (st : State) (start : Bool) (str : Option (List Byte))
    (hB : st.buffer.length = st.buflen) (h1 : I1 st.sels) (h2 : I2 st.buflen st.sels)
    (hcnt : st.sels.length < UINT_MOD)
    (hnew : st.buflen + st.sels.length * arglen str < SIZE_MOD) :
    ∃ st', cmd_sub fuel st
        ⟨CmdId.CMD_SUB, [some (if start then PAT_START else PAT_END), str], none⟩ = some st' ∧
      st'.sels = shiftedSpec (arglen str) (if start then anchorStart else anchorEnd) 0 0 st.sels ∧
      selTexts st'.buffer st'.sels
        = (selTexts st.buffer st.sels).map
            (fun txt => if start then argbytes str ++ txt else txt ++ argbytes str) ∧
      st'.buffer.length = st'.buflen ∧ I1 st'.sels ∧ I2 st'.buflen st'.sels ∧
      st'.sels.length = st.sels.length ∧
      st'.buflen ≤ st.buflen + st.sels.length * arglen str := by
  have hfit : st.buflen < SIZE_MOD := by omega
  have hne1 : PAT_END ≠ PAT_START := by decide
  cases start with
  | true =>
    simp only [if_true]
    obtain ⟨st', e⟩ := cmd_sub_anchor_some fuel st PAT_START (Or.inl rfl) str none
    have hF := flatMap_length_le anchorStart st.sels (fun s _ => by simp [anchorStart])
    have hZ := flatMap_lenSum_zero anchorStart st.sels (fun s _ => by simp [anchorStart, lenSum])
    have hmul := Nat.mul_le_mul_right (arglen str) hF
    obtain ⟨a, b⟩ := cmd_sub_rewrites fuel st st' ⟨CmdId.CMD_SUB, [some PAT_START, str], none⟩
      anchorStart hB h1 h2 hfit (by simp [arg0_of])
      (by intro sel _ acc
          simp [subMatch, arg0_of, addintv, anchorStart, lenSum])
      (by intro x _
          refine ⟨rfl, ?_⟩
          intro m hm
          simp only [anchorStart, List.mem_singleton] at hm
          subst hm
          simp)
      (by omega) (by rw [arg1_of]; omega) e
    obtain ⟨c1, c2, c3, c4, c5⟩ := cmd_sub_anchor_inv fuel st st' PAT_START (Or.inl rfl) str
      hB h1 h2 hcnt hnew e
    rw [arg1_of] at a b
    refine ⟨st', e, a, ?_, c1, c2, c3, c4, c5⟩
    rw [b, selTexts, List.map_map]
    apply List.map_congr_left
    intro s _
    simp [anchorStart, rewriteSeg, slice_zero]
  | false =>
    simp only [Bool.false_eq_true, if_false]
    obtain ⟨st', e⟩ := cmd_sub_anchor_some fuel st PAT_END (Or.inr rfl) str none
    have hF := flatMap_length_le anchorEnd st.sels (fun s _ => by simp [anchorEnd])
    have hZ := flatMap_lenSum_zero anchorEnd st.sels (fun s _ => by simp [anchorEnd, lenSum])
    have hmul := Nat.mul_le_mul_right (arglen str) hF
    obtain ⟨a, b⟩ := cmd_sub_rewrites fuel st st' ⟨CmdId.CMD_SUB, [some PAT_END, str], none⟩
      anchorEnd hB h1 h2 hfit (by simp [arg0_of])
      (by intro sel hsel acc
          have := h2 sel hsel
          have es : szadd sel.from_ sel.len = sel.from_ + sel.len :=
            szadd_eq (by simp only [SIZE_MOD] at *; omega)
          simp [subMatch, arg0_of, addintv, anchorEnd, lenSum, hne1, es])
      (by intro x _
          refine ⟨rfl, ?_⟩
          intro m hm
          simp only [anchorEnd, List.mem_singleton] at hm
          subst hm
          simp)
      (by omega) (by rw [arg1_of]; omega) e
    obtain ⟨c1, c2, c3, c4, c5⟩ := cmd_sub_anchor_inv fuel st st' PAT_END (Or.inr rfl) str
      hB h1 h2 hcnt hnew e
    rw [arg1_of] at a b
    refine ⟨st', e, a, ?_, c1, c2, c3, c4, c5⟩
    rw [b, selTexts, List.map_map]
    apply List.map_congr_left
    intro s _
    simp [anchorEnd, rewriteSeg, slice_zero]

/-- The command `s`: the selections of a state that it returns and their
texts, the matches being those of `subMatches`. -/
theorem cmd_sub_texts (fuel : Nat) (st st' : State) (cmd : Cmd)
    (hre : ∀ re, cmd.regex = some re → MatchesInside re)
    (hB : st.buffer.length = st.buflen) (h1 : I1 st.sels) (h2 : I2 st.buflen st.sels)
    (hcnt : st.buflen + st.sels.length < UINT_MOD)
    (hnew : (st.buflen + st.sels.length) * (arglen (cmd.arg 1) + 1) < SIZE_MOD)
    (hrun : cmd_sub fuel st cmd = some st') :
    (∀ sel ∈ st.sels, Within sel (subMatches fuel cmd st.buffer sel) ∧
      (¬ (cmd.regex.isNone ∧
          (cmd.arg 0 = none ∨ (cmd.arg 0 ≠ some PAT_START ∧ cmd.arg 0 ≠ some PAT_END))) →
        ∀ acc, subMatch fuel cmd st.buffer sel acc
          = some ⟨acc ++ subMatches fuel cmd st.buffer sel,
              (subMatches fuel cmd st.buffer sel).length,
              lenSum (subMatches fuel cmd st.buffer sel)⟩)) ∧
    st'.sels = shiftedSpec (arglen (cmd.arg 1)) (subMatches fuel cmd st.buffer) 0 0 st.sels ∧
    selTexts st'.buffer st'.sels
      = st.sels.map (fun s => rewriteSeg st.buffer (argbytes (cmd.arg 1)) (s.from_ + s.len)
          s.from_ (subMatches fuel cmd st.buffer s)) := by
  have hfit : st.buflen < SIZE_MOD := by
    simp only [SIZE_MOD, UINT_MOD] at *; omega
  by_cases hgo : cmd.regex.isNone ∧
      (cmd.arg 0 = none ∨ (cmd.arg 0 ≠ some PAT_START ∧ cmd.arg 0 ≠ some PAT_END))
  · have hM : subMatches fuel cmd st.buffer = fun _ => [] := by
      funext sel
      rw [subMatches, if_pos hgo]
    unfold cmd_sub at hrun
    simp only at hrun
    rw [if_pos hgo, Option.some.injEq] at hrun
    subst hrun
    rw [hM]
    refine ⟨?_, (shiftedSpec_no_match _ st.sels 0).symm, ?_⟩
    · intro sel _
      exact ⟨⟨rfl, fun m hm => absurd hm (List.not_mem_nil m)⟩, fun h => absurd hgo h⟩
    · rw [selTexts]
      apply List.map_congr_left
      intro s _
      simp [rewriteSeg]
  · have hM : subMatches fuel cmd st.buffer = subM fuel cmd st.buffer := by
      funext sel
      rw [subMatches, if_neg hgo]
    rw [hM]
    have hsome := cmd_sub_matches fuel st st' cmd hgo hrun
    have hspec : ∀ sel ∈ st.sels, Within sel (subM fuel cmd st.buffer sel) ∧
        (subM fuel cmd st.buffer sel).length ≤ sel.len + 1 ∧
        ∀ acc, subMatch fuel cmd st.buffer sel acc
          = some ⟨acc ++ subM fuel cmd st.buffer sel, (subM fuel cmd st.buffer sel).length,
              lenSum (subM fuel cmd st.buffer sel)⟩ := by
      intro sel hsel
      obtain ⟨acc, res, hr⟩ := hsome sel hsel
      have hs2 := h2 sel hsel
      have hpos : 0 < st.sels.length := List.length_pos_of_mem hsel
      exact subMatch_spec fuel cmd hre st.buffer sel acc res (by omega) (by omega)
        (Or.inr (by omega)) hr
    have hLs := lenSum_le st.buflen st.sels 0 h1 h2 (fun _ _ => Nat.zero_le _) (Nat.zero_le _)
    have hF := flatMap_length_le_lenSum (subM fuel cmd st.buffer) st.sels
      (fun x hx => (hspec x hx).2.1)
    have hmul := Nat.mul_le_mul_right (arglen (cmd.arg 1)) (show
      (st.sels.flatMap (subM fuel cmd st.buffer)).length ≤ st.buflen + st.sels.length by omega)
    rw [Nat.mul_add, Nat.mul_one] at hnew
    obtain ⟨a, b⟩ := cmd_sub_rewrites fuel st st' cmd (subM fuel cmd st.buffer) hB h1 h2 hfit
      hgo (fun x hx => (hspec x hx).2.2) (fun x hx => (hspec x hx).1) (by omega) (by omega) hrun
    exact ⟨fun sel hsel => ⟨(hspec sel hsel).1, fun _ => (hspec sel hsel).2.2⟩, a, b⟩

/-- C26: the selections after a substitution.  The state holds a buffer of
`buflen` bytes and fewer than `2^32` selections with I1 and I2, and the new
buffer is shorter than `2^64`.
For `s` (the regex being an oracle that reports its match inside the string
it is given, and `buflen` plus the number of selections being below `2^32`):
in every state that `cmd_sub` returns, the matches `M sel` that the command
found inside each selection lying inside it, the selections are those of
`shiftedSpec`, the `from` of a selection increased by the net delta of the
selections before it and its `len` by `matchcount_in_sel * len(rep) -
replaced_bytes_in_sel`, and the text of each selection in the new buffer is
its old text with every match replaced by the replacement; `cmd_sub` returns
a state when the oracle moves the cursor and the fuel exceeds `buflen`.
For `i` and `a` the state is returned, the one match being the start or the
end of the selection, and the text is the argument followed by the old text,
or the old text followed by the argument.  For `S` the state is returned,
every selection has grown by both arguments and its text is the old text
between them. -/
theorem substitution_keeps_selection_texts (fuel : Nat) (st : State) (cmd : Cmd)
    (hB : st.buffer.length = st.buflen) (h1 : I1 st.sels) (h2 : I2 st.buflen st.sels)
    (hsel : st.sels.length < UINT_MOD)
    (hnew : (st.buflen + st.sels.length) * (arglen (cmd.arg 0) + arglen (cmd.arg 1) + 1)
      < SIZE_MOD) :
    ((∀ re, cmd.regex = some re → MatchesInside re) →
      st.buflen + st.sels.length < UINT_MOD →
      ∀ st', cmd_sub fuel st cmd = some st' →
        (∀ sel ∈ st.sels, Within sel (subMatches fuel cmd st.buffer sel) ∧
          (¬ (cmd.regex.isNone ∧
              (cmd.arg 0 = none ∨ (cmd.arg 0 ≠ some PAT_START ∧ cmd.arg 0 ≠ some PAT_END))) →
            ∀ acc, subMatch fuel cmd st.buffer sel acc
              = some ⟨acc ++ subMatches fuel cmd st.buffer sel,
                  (subMatches fuel cmd st.buffer sel).length,
                  lenSum (subMatches fuel cmd st.buffer sel)⟩)) ∧
        st'.sels
          = shiftedSpec (arglen (cmd.arg 1)) (subMatches fuel cmd st.buffer) 0 0 st.sels ∧
        selTexts st'.buffer st'.sels
          = st.sels.map (fun s => rewriteSeg st.buffer (argbytes (cmd.arg 1))
              (s.from_ + s.len) s.from_ (subMatches fuel cmd st.buffer s))) ∧
    ((∀ re, cmd.regex = some re → MatchesInside re) →
      (∀ re, cmd.regex = some re → AdvancesCursor re) →
      (cmd.regex.isSome = true → cmd.arg 0 ≠ none) → st.buflen < fuel →
      ∃ st', cmd_sub fuel st cmd = some st') ∧
    (∃ st', cmd_insert fuel st cmd = some st' ∧
      st'.sels = shiftedSpec (arglen (cmd.arg 0)) anchorStart 0 0 st.sels ∧
      selTexts st'.buffer st'.sels
        = (selTexts st.buffer st.sels).map (fun txt => argbytes (cmd.arg 0) ++ txt)) ∧
    (∃ st', cmd_append fuel st cmd = some st' ∧
      st'.sels = shiftedSpec (arglen (cmd.arg 0)) anchorEnd 0 0 st.sels ∧
      selTexts st'.buffer st'.sels
        = (selTexts st.buffer st.sels).map (fun txt => txt ++ argbytes (cmd.arg 0))) ∧
    (∃ st', cmd_surround fuel st cmd = some st' ∧
      st'.sels = surroundSpec (arglen (cmd.arg 0) + arglen (cmd.arg 1)) 0 st.sels ∧
      selTexts st'.buffer st'.sels
        = (selTexts st.buffer st.sels).map
            (fun txt => argbytes (cmd.arg 0) ++ txt ++ argbytes (cmd.arg 1))) := by
  have hsize := size_bound st.buflen st.sels.length (arglen (cmd.arg 0)) (arglen (cmd.arg 1))
  have hfit : st.buflen < SIZE_MOD := by omega
  have hsub : (st.buflen + st.sels.length) * (arglen (cmd.arg 1) + 1) < SIZE_MOD :=
    Nat.lt_of_le_of_lt (Nat.mul_le_mul_left _ (by omega)) hnew
  obtain ⟨sti, ei, si, ti, bi, i1, i2, li, ni⟩ := cmd_sub_anchor_texts fuel st true (cmd.arg 0)
    hB h1 h2 hsel (by omega)
  obtain ⟨sta, ea, sa, ta, _, _, _, _, _⟩ := cmd_sub_anchor_texts fuel st false (cmd.arg 0)
    hB h1 h2 hsel (by omega)
  obtain ⟨sts, es, ss, ts, _, _, _, _, _⟩ := cmd_sub_anchor_texts fuel sti false (cmd.arg 1)
    bi i1 i2 (by omega) (by rw [li]; omega)
  simp only [if_true, Bool.false_eq_true, if_false] at ei si ti ea sa ta es ss ts
  refine ⟨?_, ?_, ⟨sti, ei, si, ti⟩, ⟨sta, ea, sa, ta⟩, ⟨sts, ?_, ?_, ?_⟩⟩
  · intro hre hcnt st' hrun
    exact cmd_sub_texts fuel st st' cmd hre hB h1 h2 hcnt hsub hrun
  · intro hre hadv hpat hfuel
    exact cmd_sub_total fuel st cmd hre hadv hpat hB h2 hfit hfuel
  · rw [cmd_surround, cmd_insert, arg_single, ei, Option.some_bind, cmd_append, arg_single]
    exact es
  · rw [ss, si, shiftedSpec_anchor _ anchorStart anchorStart_shape,
      shiftedSpec_anchor _ anchorEnd anchorEnd_shape, surroundSpec_comp]
  · rw [ts, ti, List.map_map]
    rfl

/-- C26 at the buffer `"abcb"` with the selections `(0, 2)` and `(2, 2)` and
the command `s/b/XY/`: the new buffer is `"aXYcXY"`, the selections are
`(0, 3)` and `(3, 3)`, and their texts are `"aXY"` and `"cXY"`. -/
theorem substitution_keeps_selection_texts_witness :
    cmd_sub 5 ⟨[97, 98, 99, 98], 4, [⟨0, 2⟩, ⟨2, 2⟩], some ⟨2, 2⟩, []⟩
        ⟨CmdId.CMD_SUB, [some [98], some [88, 89]], some (litRegex 98)⟩
      = some ⟨[97, 88, 89, 99, 88, 89], 6, [⟨0, 3⟩, ⟨3, 3⟩], some ⟨3, 3⟩, []⟩ ∧
    selTexts [97, 88, 89, 99, 88, 89] [⟨0, 3⟩, ⟨3, 3⟩] = [[97, 88, 89], [99, 88, 89]] :=
  ⟨by decide,
    (((substitution_keeps_selection_texts 5
      ⟨[97, 98, 99, 98], 4, [⟨0, 2⟩, ⟨2, 2⟩], some ⟨2, 2⟩, []⟩
      ⟨CmdId.CMD_SUB, [some [98], some [88, 89]], some (litRegex 98)⟩
      (by decide) (by decide) (by decide) (by decide) (by decide)).1
      (fun re h => Option.some.inj h ▸ litRegex_inside 98) (by decide)
      ⟨[97, 88, 89, 99, 88, 89], 6, [⟨0, 3⟩, ⟨3, 3⟩], some ⟨3, 3⟩, []⟩ (by decide)).2.2).trans
      (by decide)⟩

end Srek

